import Mathlib

/-!
# Pointer relocation (`shared/utility/Relocate.cpp`)

A shallow embedding of `utility::detail::IsBadMemPtr`,
`utility::detail::relocate_pointers` and the public
`utility::relocate_pointers`.

* Addresses (`void*`, `uint8_t*`, `uintptr_t`, `BYTE*`) are natural numbers
  below `2^64`; pointer arithmetic is reduced modulo `2^64`.
* `uint32_t` values are natural numbers below `2^32`; the loop counter `i`
  (declared `auto i = 0`, hence `int`) is kept as its 32-bit pattern, compared
  as unsigned against `scan_size` and sign-extended when added to a pointer.
* Memory is a map from byte addresses to bytes; a pointer-sized word is eight
  little-endian bytes.
* `VirtualQuery` is a parameter `vq`: the region table of the process.
* Loops that may run forever take a fuel argument and return `none` when the
  fuel is exhausted.
* A load or store of a word that the region table does not allow is an access
  fault; it ends the invocation that makes it, which is what the `catch(...)`
  of line 104 does with it. The region table does not change during a call.
* The scanner keeps a record of its steps (probes, loads, stores, faults). The
  record is ghost state: nothing the scanner does depends on it.
-/

namespace utility

/-! ## Windows data -/

/-- The fields of `MEMORY_BASIC_INFORMATION` that the probe reads. -/
structure MEMORY_BASIC_INFORMATION where
  BaseAddress : Nat
  RegionSize : Nat
  Protect : Nat
deriving DecidableEq, Repr

/-- Modelled from the spec: the protection constants of `Windows.h`, which is
not among the sources; the values are those of the Windows SDK. -/
def PAGE_NOACCESS : Nat := 0x01
/-- Modelled from the spec: `Windows.h` constant. -/
def PAGE_READONLY : Nat := 0x02
/-- Modelled from the spec: `Windows.h` constant. -/
def PAGE_READWRITE : Nat := 0x04
/-- Modelled from the spec: `Windows.h` constant. -/
def PAGE_WRITECOPY : Nat := 0x08
/-- Modelled from the spec: `Windows.h` constant. -/
def PAGE_EXECUTE : Nat := 0x10
/-- Modelled from the spec: `Windows.h` constant. -/
def PAGE_EXECUTE_READ : Nat := 0x20
/-- Modelled from the spec: `Windows.h` constant. -/
def PAGE_EXECUTE_READWRITE : Nat := 0x40
/-- Modelled from the spec: `Windows.h` constant. -/
def PAGE_EXECUTE_WRITECOPY : Nat := 0x80
/-- Modelled from the spec: `Windows.h` constant. -/
def PAGE_GUARD : Nat := 0x100

/-- The region table: what `VirtualQuery` answers at an address; `none` is a
failed query (return value `0`). -/
abbrev RegionTable := Nat → Option MEMORY_BASIC_INFORMATION

/-- The size of the address space, `2^64`. -/
def PTR_MOD : Nat := 2 ^ 64

/-- The size of the `uint32_t` range, `2^32`. -/
def U32_MOD : Nat := 2 ^ 32

/-- The value of `sizeof(void*)`. -/
def PTR_SIZE : Nat := 8

/-! ## The memory safety probe -/

/-- The `mask` chosen at lines 34-38 of `Relocate.cpp`. -/
def protectMask (write : Bool) : Nat :=
  if write = false then
    PAGE_READONLY ||| PAGE_READWRITE ||| PAGE_WRITECOPY ||| PAGE_EXECUTE_READ |||
      PAGE_EXECUTE_READWRITE ||| PAGE_EXECUTE_WRITECOPY
  else
    PAGE_READWRITE ||| PAGE_WRITECOPY ||| PAGE_EXECUTE_READWRITE ||| PAGE_EXECUTE_WRITECOPY

/-- The value of `ok` after lines 49-53: some bit of the mask is set and
neither `PAGE_GUARD` nor `PAGE_NOACCESS` is. -/
def protectOk (write : Bool) (protect : Nat) : Bool :=
  (protect &&& protectMask write != 0) && (protect &&& (PAGE_GUARD ||| PAGE_NOACCESS) == 0)

/-- Lines 49-64 of `IsBadMemPtr`: the part of the loop body after the query,
with `mbi` and `regend` as the query left them. `next p regend mbi` is the rest
of the loop, entered again from its top; `queried` lists the addresses this
iteration passed to `VirtualQuery`. -/
def IsBadMemPtr.check (write : Bool) (maxp : Nat)
    (next : Nat → Nat → MEMORY_BASIC_INFORMATION → Option (Bool × List Nat))
    (p regend : Nat) (mbi : MEMORY_BASIC_INFORMATION) (queried : List Nat) :
    Option (Bool × List Nat) :=
  if protectOk write mbi.Protect = false then some (true, queried)        -- line 56
  else if maxp ≤ regend then some (false, queried)                        -- line 60
  else
    let p1 := if regend < maxp then regend else p                         -- line 62
    if p1 < maxp then                                                     -- line 64
      (next p1 regend mbi).map (fun r => (r.1, queried ++ r.2))
    else some (false, queried)                                            -- line 66

/-- The `do ... while (p < maxp)` loop of `IsBadMemPtr` (lines 40-64) followed
by the final `return FALSE`. The loop variables are `p`, `regend` and `mbi`;
the result is the returned `BOOL` together with the addresses passed to
`VirtualQuery`, oldest first. -/
def IsBadMemPtr.walk (vq : RegionTable) (write : Bool) (ptr maxp : Nat) :
    Nat → Nat → Nat → MEMORY_BASIC_INFORMATION → Option (Bool × List Nat)
  | 0, _, _, _ => none
  | fuel + 1, p, regend, mbi =>
    if p = ptr ∨ p = regend then                                          -- line 41
      match vq p with                                                     -- line 42
      | none => some (true, [p])                                          -- line 43
      | some info =>
        IsBadMemPtr.check write maxp (IsBadMemPtr.walk vq write ptr maxp fuel) p
          ((info.BaseAddress + info.RegionSize) % PTR_MOD) info [p]       -- line 45
    else
      IsBadMemPtr.check write maxp (IsBadMemPtr.walk vq write ptr maxp fuel) p regend mbi []

/-- The probe `IsBadMemPtr(write, ptr, size)` instrumented with the list of
addresses it passed to `VirtualQuery`. `true` is `TRUE`: the range is unsafe. -/
def IsBadMemPtrQ (vq : RegionTable) (fuel : Nat) (write : Bool) (ptr size : Nat) :
    Option (Bool × List Nat) :=
  if size = 0 then some (false, [])
  else if ptr = 0 then some (true, [])
  else IsBadMemPtr.walk vq write ptr ((ptr + size) % PTR_MOD) fuel ptr 0 ⟨0, 0, 0⟩

/-- The probe `IsBadMemPtr(write, ptr, size)`: `some true` is `TRUE` (unsafe),
`some false` is `FALSE` (safe), `none` is a walk that did not finish within
the fuel. -/
def IsBadMemPtr (vq : RegionTable) (fuel : Nat) (write : Bool) (ptr size : Nat) : Option Bool :=
  (IsBadMemPtrQ vq fuel write ptr size).map Prod.fst

/-! ## Memory -/

/-- Byte-addressed memory. Only addresses below `2^64` are meaningful. -/
abbrev Mem := Nat → Nat

/-- The byte stored at address `a` (reduced into the address space). -/
def loadByte (m : Mem) (a : Nat) : Nat := m (a % PTR_MOD) % 256

/-- The value of `*(uintptr_t*)a`: eight bytes, little-endian. -/
def load64 (m : Mem) (a : Nat) : Nat :=
  loadByte m a + 256 * (loadByte m (a + 1) + 256 * (loadByte m (a + 2) + 256 * (loadByte m (a + 3) +
    256 * (loadByte m (a + 4) + 256 * (loadByte m (a + 5) + 256 * (loadByte m (a + 6) +
    256 * loadByte m (a + 7)))))))

/-- The distance from `a` up to `b` in the address space: `b` is byte number
`byteOffset a b` of a word at `a` when this is below `8`. -/
def byteOffset (a b : Nat) : Nat := (b + PTR_MOD - a % PTR_MOD) % PTR_MOD

/-- Byte `b` belongs to the pointer-sized word at `a`. -/
def inWord (a b : Nat) : Bool := decide (b < PTR_MOD) && decide (byteOffset a b < PTR_SIZE)

/-- The memory after `*(uintptr_t*)a = v`. -/
def store64 (m : Mem) (a v : Nat) : Mem :=
  fun b => if inWord a b then v / 256 ^ byteOffset a b % 256 else m b

/-- The address `p + i` for a pointer `p` and an `int i` given by its 32-bit
pattern: `i` is sign-extended to 64 bits before the addition. -/
def ptrAddInt32 (p i : Nat) : Nat :=
  if i < 2 ^ 31 then (p + i) % PTR_MOD else (p + PTR_MOD - (U32_MOD - i)) % PTR_MOD

/-- Modelled from the spec: the access check of the hardware, which is not
code of the repository. A byte can be accessed in a mode when the region table
has a region at that byte whose protection passes the test the probe applies
for that mode. -/
def byteAccessible (vq : RegionTable) (write : Bool) (b : Nat) : Bool :=
  match vq b with
  | none => false
  | some info => protectOk write info.Protect

/-- Modelled from the spec: a load or store of a pointer-sized word at `a`
completes when each of its eight bytes can be accessed; otherwise it raises an
access fault, which the `catch(...)` of the running invocation receives. -/
def accessible (vq : RegionTable) (write : Bool) (a : Nat) : Bool :=
  (List.range PTR_SIZE).all (fun k => byteAccessible vq write ((a + k) % PTR_MOD))

/-! ## The relocation scanner -/

/-- What the scanner does, in the order it does it. `level` is the nesting of
the invocation that performs the step: `0` for the invocation made by the public
entry point, one more for each recursive call. -/
inductive Event where
  | enter (level scan_start : Nat)
  | probe (level : Nat) (write : Bool) (addr size : Nat) (bad : Bool)
  | load (level addr value : Nat)
  | store (level addr value : Nat)
  | fault (level : Nat) (write : Bool) (addr : Nat)
deriving DecidableEq, Repr

/-- The state threaded through one top-level call: memory, the `seen` set and
the record of steps, newest first. -/
structure State where
  mem : Mem
  seen : List Nat
  trace : List Event

/-- Record a step. -/
def State.log (st : State) (e : Event) : State := { st with trace := e :: st.trace }

/-- The effect of `seen.insert(a)`. -/
def State.see (st : State) (a : Nat) : State := { st with seen := st.seen.insert a }

/-- The effect of the store `ptr = new_ptr` at address `a`. -/
def State.write (st : State) (a v : Nat) : State := { st with mem := store64 st.mem a v }

/-- The test of line 91: `ptr >= old_start && ptr < old_end`. -/
def inOldRange (old_start old_end v : Nat) : Bool := decide (old_start ≤ v ∧ v < old_end)

/-- The value of `new_ptr` at line 92. -/
def translate (old_start new_start v : Nat) : Nat := (new_start + (v - old_start)) % PTR_MOD

/-- Lines 97-99 and 100-102: `depth > 0 && !IsBadMemPtr(false, v, sizeof(void*))`
guards the recursive call `recurse v`. -/
def follow (vq : RegionTable) (pf : Nat) (recurse : Nat → State → Option State)
    (level : Nat) (depth : Int) (v : Nat) (st : State) : Option State :=
  if depth > 0 then
    match IsBadMemPtr vq pf false v PTR_SIZE with
    | none => none
    | some bad =>
      let st1 := st.log (.probe level false v PTR_SIZE bad)
      if bad then some st1 else recurse v st1
  else some st

/-- The `for` loop of `detail::relocate_pointers` (lines 83-103) from counter
value `i` on, inside the `try` block: the result is the state when the
invocation returns, be it through the loop condition, the `break`, or the
`catch(...)` after an access fault. `recurse v` is the recursive call with
`scan_start = v`. -/
def scanLoop (vq : RegionTable) (pf : Nat) (recurse : Nat → State → Option State)
    (level scan_start old_start old_end new_start : Nat) (depth : Int)
    (skip_length scan_size : Nat) : Nat → Nat → State → Option State
  | 0, _, _ => none
  | fuel + 1, i, st =>
    if i < scan_size then
      let a := ptrAddInt32 scan_start i
      match IsBadMemPtr vq pf false a PTR_SIZE with                       -- line 84
      | none => none
      | some bad =>
        let st1 := st.log (.probe level false a PTR_SIZE bad)
        if bad then some st1                                              -- line 85
        else
          let st2 := st1.see a                                            -- line 89
          if accessible vq false a = false then some (st2.log (.fault level false a))
          else
            let v := load64 st2.mem a                                     -- line 91
            let st3 := st2.log (.load level a v)
            if inOldRange old_start old_end v then
              let new_ptr := translate old_start new_start v              -- line 92
              if accessible vq true a = false then some (st3.log (.fault level true a))
              else
                let st4 := (st3.write a new_ptr).log (.store level a new_ptr)   -- line 95
                match follow vq pf recurse level depth v st4 with         -- lines 97-99
                | none => none
                | some st5 =>
                  scanLoop vq pf recurse level scan_start old_start old_end new_start depth
                    skip_length scan_size fuel ((i + skip_length) % U32_MOD) st5
            else
              match follow vq pf recurse level depth v st3 with           -- lines 100-102
              | none => none
              | some st5 =>
                scanLoop vq pf recurse level scan_start old_start old_end new_start depth
                  skip_length scan_size fuel ((i + skip_length) % U32_MOD) st5
    else some st

/-- The function `detail::relocate_pointers` (lines 69-107). `pf` is the fuel
given to each probe, the next argument the fuel of the scan itself. -/
def detail.relocate_pointers (vq : RegionTable) (pf : Nat) :
    Nat → Nat → Nat → Nat → Nat → Nat → Int → Nat → Nat → State → Option State
  | 0, _, _, _, _, _, _, _, _, _ => none
  | fuel + 1, level, scan_start, old_start, old_end, new_start, depth, skip_length, scan_size,
      st =>
    let st0 := st.log (.enter level scan_start)
    if scan_start ∈ st0.seen then some st0                                -- lines 71-73
    else
      let st1 := st0.see scan_start                                       -- line 75
      match IsBadMemPtr vq pf false scan_start skip_length with           -- line 77
      | none => none
      | some bad =>
        let st2 := st1.log (.probe level false scan_start skip_length bad)
        if bad then some st2                                              -- line 78
        else
          scanLoop vq pf
            (fun v s => detail.relocate_pointers vq pf fuel (level + 1) v old_start old_end
              new_start (depth - 1) skip_length 0x1000 s)
            level scan_start old_start old_end new_start depth skip_length scan_size fuel 0 st2

/-- How a call of the public entry point ends. -/
inductive Completion where
  | returned
  | runtime_error
deriving DecidableEq, Repr

/-- The outcome of a call of the public entry point: how it ended, the memory
it leaves and the steps it made, newest first. -/
structure CallResult where
  completion : Completion
  mem : Mem
  trace : List Event

/-- The public `utility::relocate_pointers` (lines 110-117) run on memory
`mem`; `none` when the call does not finish within the fuel. -/
def relocate_pointers (vq : RegionTable) (fuel : Nat)
    (scan_start old_start old_end new_start : Nat) (depth : Int)
    (skip_length scan_size : Nat) (mem : Mem) : Option CallResult :=
  if skip_length = 0 then some ⟨.runtime_error, mem, []⟩                   -- lines 111-113
  else
    (detail.relocate_pointers vq fuel fuel 0 scan_start old_start old_end new_start depth
      skip_length scan_size ⟨mem, [], []⟩).map                            -- lines 115-116
      (fun st => ⟨.returned, st.mem, st.trace⟩)

/-! ## Step relations closed under what the scanner does -/

/-- A family of relations between a state and a later state, indexed by the
nesting level and the depth budget of an invocation, that contains every group
of steps the scanner makes in one go and is closed under sequencing and under
the recursive call. Whatever such a family relates, it relates the state
before and after each invocation of `detail.relocate_pointers`. -/
structure ScanClosed (vq : RegionTable) (pf old_start old_end new_start : Nat)
    (R : Nat → Int → State → State → Prop) : Prop where
  refl : ∀ l d s, R l d s s
  trans : ∀ l d a b c, R l d a b → R l d b c → R l d a c
  call : ∀ l d s s1, 0 < d → R (l + 1) (d - 1) s s1 → R l d s s1
  enterSeen : ∀ l d s x, x ∈ s.seen → R l d s (s.log (.enter l x))
  enterProbe : ∀ l d s x n b, x ∉ s.seen → IsBadMemPtr vq pf false x n = some b →
    R l d s (((s.log (.enter l x)).see x).log (.probe l false x n b))
  probeBad : ∀ l d s a, a < PTR_MOD → IsBadMemPtr vq pf false a PTR_SIZE = some true →
    R l d s (s.log (.probe l false a PTR_SIZE true))
  readFault : ∀ l d s a, a < PTR_MOD → IsBadMemPtr vq pf false a PTR_SIZE = some false →
    accessible vq false a = false →
    R l d s (((s.log (.probe l false a PTR_SIZE false)).see a).log (.fault l false a))
  loadOnly : ∀ l d s a, a < PTR_MOD → IsBadMemPtr vq pf false a PTR_SIZE = some false →
    accessible vq false a = true → inOldRange old_start old_end (load64 s.mem a) = false →
    R l d s (((s.log (.probe l false a PTR_SIZE false)).see a).log (.load l a (load64 s.mem a)))
  writeFault : ∀ l d s a, a < PTR_MOD → IsBadMemPtr vq pf false a PTR_SIZE = some false →
    accessible vq false a = true → inOldRange old_start old_end (load64 s.mem a) = true →
    accessible vq true a = false →
    R l d s ((((s.log (.probe l false a PTR_SIZE false)).see a).log
      (.load l a (load64 s.mem a))).log (.fault l true a))
  loadStore : ∀ l d s a, a < PTR_MOD → IsBadMemPtr vq pf false a PTR_SIZE = some false →
    accessible vq false a = true → inOldRange old_start old_end (load64 s.mem a) = true →
    accessible vq true a = true →
    R l d s (((((s.log (.probe l false a PTR_SIZE false)).see a).log
      (.load l a (load64 s.mem a))).write a (translate old_start new_start (load64 s.mem a))).log
      (.store l a (translate old_start new_start (load64 s.mem a))))
  followProbe : ∀ l d s v b, 0 < d → IsBadMemPtr vq pf false v PTR_SIZE = some b →
    R l d s (s.log (.probe l false v PTR_SIZE b))

/-! ## Reading the record of steps -/

/-- The effect of one recorded step on memory: only a store has one. -/
def applyEvent (e : Event) (m : Mem) : Mem :=
  match e with
  | .store _ a v => store64 m a v
  | _ => m

/-- The memory obtained from `m` by the stores of a record (newest first),
applied oldest first. -/
def replay (evs : List Event) (m : Mem) : Mem := evs.foldr applyEvent m

/-- Every store in the record (newest first) comes right after a load at the
same address and level whose value lies in the old range, and stores the
translation of that value. -/
def storesJustified (old_start old_end new_start : Nat) : List Event → Bool
  | [] => true
  | .store l a w :: rest =>
    (match rest with
      | .load l1 a1 v :: _ =>
        decide (l1 = l) && decide (a1 = a) && inOldRange old_start old_end v &&
          decide (w = translate old_start new_start v)
      | _ => false) && storesJustified old_start old_end new_start rest
  | _ :: rest => storesJustified old_start old_end new_start rest

/-- Every load in the record (newest first) reports the word that memory held
at that moment, memory being `m0` changed by the older stores of the record. -/
def loadsConsistent (m0 : Mem) : List Event → Prop
  | [] => True
  | .load _ a v :: rest => v = load64 (replay rest m0) a ∧ loadsConsistent m0 rest
  | _ :: rest => loadsConsistent m0 rest

/-- The pointer-sized words at `a` and `b` share a byte. -/
def wordsOverlap (a b : Nat) : Bool :=
  decide (byteOffset a b < PTR_SIZE ∨ byteOffset b a < PTR_SIZE)

/-- The step is a store. -/
def Event.isStore : Event → Bool
  | .store _ _ _ => true
  | _ => false

/-- The step is a store to a word that shares a byte with the word at `a`. -/
def Event.storesInto (a : Nat) : Event → Bool
  | .store _ b _ => wordsOverlap a b
  | _ => false

/-- The nesting level of the invocation that made the step. -/
def Event.level : Event → Nat
  | .enter l _ => l
  | .probe l _ _ _ _ => l
  | .load l _ _ => l
  | .store l _ _ => l
  | .fault l _ _ => l

/-- The address of the word a step loads, stores or faults on; `none` for the
steps that touch no memory. -/
def Event.accessAddr : Event → Option Nat
  | .load _ a _ => some a
  | .store _ a _ => some a
  | .fault _ _ a => some a
  | _ => none

/-- The address of the word a step loads or stores; `none` for the other
steps. -/
def Event.rwAddr : Event → Option Nat
  | .load _ a _ => some a
  | .store _ a _ => some a
  | _ => none

/-- Byte `b` belongs to a word that some step of the record loads or stores. -/
def touches (tr : List Event) (b : Nat) : Bool :=
  tr.any (fun e => match e.rwAddr with
    | some a => inWord a b
    | none => false)

/-- What a run of the scanner from state `s` to state `s1` leaves behind: the
record grows by steps `evs`, memory is `s.mem` changed by the stores among
them, every store is justified by the load before it, and every load reports
the memory of its moment. -/
def TraceRel (old_start old_end new_start : Nat) (s s1 : State) : Prop :=
  ∃ evs, s1.trace = evs ++ s.trace ∧ s1.mem = replay evs s.mem ∧
    storesJustified old_start old_end new_start evs = true ∧ loadsConsistent s.mem evs

/-- The steps added from state `s` to state `s1` were all made at nesting levels
between `l` and `l + max(d, 0)`. -/
def LevelRel (l : Nat) (d : Int) (s s1 : State) : Prop :=
  ∃ evs, s1.trace = evs ++ s.trace ∧ ∀ e ∈ evs, l ≤ e.level ∧ e.level ≤ l + d.toNat

/-- Every byte of a word the step loads satisfies `F`. -/
def LoadsWithin (F : Nat → Prop) (e : Event) : Prop :=
  ∀ l a v, e = Event.load l a v → ∀ b, inWord a b = true → F b

/-- A run from `s` to `s1` depends on memory only through the bytes in `F`:
started in memory `M1` that agrees with `s.mem` on `F`, it makes the same steps
and ends in a memory that agrees with `s1.mem` on `F`, provided every load of the
record of `s1` stays within `F`. -/
def LocalRun (F : Nat → Prop) (run : State → Option State) (s s1 : State) : Prop :=
  ∀ M1 : Mem, (∀ b, F b → M1 b = s.mem b) → (∀ e ∈ s1.trace, LoadsWithin F e) →
    ∃ M2 : Mem, run ⟨M1, s.seen, s.trace⟩ = some ⟨M2, s1.seen, s1.trace⟩ ∧
      ∀ b, F b → M2 b = s1.mem b

/-! ## Region tables as the operating system builds them -/

/-- Every successful query at `a` answers with a region that holds `a`, is not
empty and ends inside the address space. -/
def Located (vq : RegionTable) : Prop :=
  ∀ a m, vq a = some m →
    m.BaseAddress ≤ a ∧ a < m.BaseAddress + m.RegionSize ∧ m.BaseAddress + m.RegionSize < PTR_MOD

/-- A region is uniformly protected: from the queried address up to the end of
the region answered there, every address is answered with the same protection. -/
def Uniform (vq : RegionTable) : Prop :=
  ∀ a m, vq a = some m → ∀ b, a ≤ b → b < m.BaseAddress + m.RegionSize →
    ∃ m1, vq b = some m1 ∧ m1.Protect = m.Protect

/-- The probe reports the range safe (returns `FALSE`), with some fuel. -/
def ProbeSafe (vq : RegionTable) (write : Bool) (ptr size : Nat) : Prop :=
  ∃ pf, IsBadMemPtr vq pf write ptr size = some false

/-- The probe reports the range unsafe (returns `TRUE`), with some fuel. -/
def ProbeUnsafe (vq : RegionTable) (write : Bool) (ptr size : Nat) : Prop :=
  ∃ pf, IsBadMemPtr vq pf write ptr size = some true

/-- Fuel that suffices for every window whose counter does not wrap. -/
def LOOP_FUEL : Nat := U32_MOD + 1

/-! ## Concrete scenarios -/

/-- Memory that holds zero everywhere. -/
def zeroMem : Mem := fun _ => 0

/-- Memory that is zero except for the word `v` at address `a`. -/
def wordAt (a v : Nat) : Mem := store64 (fun _ => 0) a v

/-- A region table with the single readable and writable region
`[0x2000, 0x2010)`. -/
def scenarioTable : RegionTable := fun a =>
  if 0x2000 ≤ a ∧ a < 0x2010 then some ⟨0x2000, 0x10, PAGE_READWRITE⟩ else none

/-- A region table with the single read-only region `[0x2000, 0x2010)`. -/
def readonlyTable : RegionTable := fun a =>
  if 0x2000 ≤ a ∧ a < 0x2010 then some ⟨0x2000, 0x10, PAGE_READONLY⟩ else none

/-- A region table with the readable and writable region `[0x2000, 0x2008)` and
a second region `[0x3000, 0x3008)` of protection `prot`. -/
def twoRegionTable (prot : Nat) : RegionTable := fun a =>
  if 0x2000 ≤ a ∧ a < 0x2008 then some ⟨0x2000, 8, PAGE_READWRITE⟩
  else if 0x3000 ≤ a ∧ a < 0x3008 then some ⟨0x3000, 8, prot⟩
  else none

/-- A region table with the single readable and writable region
`[0x1ff8, 0x2010)`. -/
def overlapTable : RegionTable := fun a =>
  if 0x1ff8 ≤ a ∧ a < 0x2010 then some ⟨0x1ff8, 0x18, PAGE_READWRITE⟩ else none

/-- A region table with the single readable and writable region
`[0x100000000, 0x300000000)` of 8 GiB. -/
def wideTable : RegionTable := fun a =>
  if 0x100000000 ≤ a ∧ a < 0x300000000 then
    some ⟨0x100000000, 0x200000000, PAGE_READWRITE⟩
  else none

/-- Memory with the word `0x1050` at `0x2000` and the word `0x1ff8` at `0x2008`. -/
def overlapMem : Mem := store64 (wordAt 0x2000 0x1050) 0x2008 0x1ff8

/-- Memory with the word `0x3000` at `0x2000` and the word `0x1050` at `0x3000`. -/
def oneHopMem : Mem := store64 (wordAt 0x2000 0x3000) 0x3000 0x1050

/-- Memory with the word `0x1050` at `0x2000` and the word `0x1060` at `0x3000`. -/
def twoWordMem : Mem := store64 (wordAt 0x2000 0x1050) 0x3000 0x1060

/-! ## The probe as the specification words it -/

/-- The end of a region as the pointer the probe computes at line 45. -/
def regionEnd (m : MEMORY_BASIC_INFORMATION) : Nat := (m.BaseAddress + m.RegionSize) % PTR_MOD

/-- Every successful query at `a` answers with a region that holds `a`:
`base ≤ a < base + size`, the end taken as the pointer `regionEnd`. -/
def Contains (vq : RegionTable) : Prop :=
  ∀ a m, vq a = some m → m.BaseAddress ≤ a ∧ a < regionEnd m

/-- Following the specification: the protection has at least one bit of the
mask of the mode; read: `READONLY`, `READWRITE`, `WRITECOPY`, `EXECUTE_READ`,
`EXECUTE_READWRITE`, `EXECUTE_WRITECOPY`; write: `READWRITE`, `WRITECOPY`,
`EXECUTE_READWRITE`, `EXECUTE_WRITECOPY`. -/
def spec_hasModeBit (write : Bool) (protect : Nat) : Bool :=
  if write then
    (protect &&& PAGE_READWRITE != 0) || (protect &&& PAGE_WRITECOPY != 0) ||
      (protect &&& PAGE_EXECUTE_READWRITE != 0) || (protect &&& PAGE_EXECUTE_WRITECOPY != 0)
  else
    (protect &&& PAGE_READONLY != 0) || (protect &&& PAGE_READWRITE != 0) ||
      (protect &&& PAGE_WRITECOPY != 0) || (protect &&& PAGE_EXECUTE_READ != 0) ||
      (protect &&& PAGE_EXECUTE_READWRITE != 0) || (protect &&& PAGE_EXECUTE_WRITECOPY != 0)

/-- Following the specification: the protection has `PAGE_GUARD` or
`PAGE_NOACCESS` set. -/
def spec_guardOrNoAccess (protect : Nat) : Bool :=
  (protect &&& PAGE_GUARD != 0) || (protect &&& PAGE_NOACCESS != 0)

/-- Following the specification: a region met on the walk passes when it (a) was
successfully queried, (b) has a bit of the mask of the mode and (c) has neither
`PAGE_GUARD` nor `PAGE_NOACCESS`. `none` is a failed query. -/
def spec_regionPasses (write : Bool) : Option MEMORY_BASIC_INFORMATION → Bool
  | none => false
  | some m => spec_hasModeBit write m.Protect && !spec_guardOrNoAccess m.Protect

/-- Following the specification: the regions met while walking from `p`
through successive region ends until `maxp` is covered, at most `n` of them;
a failed query ends the walk and is listed as `none`. -/
def spec_regionsMet (vq : RegionTable) (maxp : Nat) : Nat → Nat → List (Option MEMORY_BASIC_INFORMATION)
  | 0, _ => []
  | n + 1, p =>
    match vq p with
    | none => [none]
    | some m =>
      if maxp ≤ regionEnd m then [some m] else some m :: spec_regionsMet vq maxp n (regionEnd m)

/-- Following the specification: the range of `size` bytes at `ptr` is safe when
every region met on the walk from `ptr` until `ptr + size` is covered passes.
(On a table with `Contains`, `size` regions suffice to cover the range.) -/
def spec_isSafe (vq : RegionTable) (write : Bool) (ptr size : Nat) : Bool :=
  (spec_regionsMet vq (ptr + size) size ptr).all (spec_regionPasses write)

/-- A region table with the readable and writable region `[0x2000, 0x2008)`
directly followed by the read-only region `[0x2008, 0x2010)`. -/
def adjacentTable : RegionTable := fun a =>
  if 0x2000 ≤ a ∧ a < 0x2008 then some ⟨0x2000, 8, PAGE_READWRITE⟩
  else if 0x2008 ≤ a ∧ a < 0x2010 then some ⟨0x2008, 8, PAGE_READONLY⟩
  else none

/-- Every load in the record (newest first) comes right after a probe for
reading a pointer-sized word at the same address, made at the same level, that
reported safe. -/
def loadsProbed : List Event → Bool
  | [] => true
  | .load l a _ :: rest =>
    (match rest with
      | .probe l1 w a1 n b :: _ =>
        decide (l1 = l) && !w && decide (a1 = a) && decide (n = PTR_SIZE) && !b
      | _ => false) && loadsProbed rest
  | _ :: rest => loadsProbed rest

/-- What the run knew when it made a step: a recorded probe is a probe for
reading and records the answer of `IsBadMemPtr`; a load, a store or a fault
happens at an address below `2^64` that had just probed safe for reading; a
load or store completes only where the access check passes, a fault is raised
only where it fails. -/
def Event.Justified (vq : RegionTable) (pf : Nat) : Event → Prop
  | .enter _ _ => True
  | .probe _ w a n b => w = false ∧ IsBadMemPtr vq pf false a n = some b
  | .load _ a _ =>
    a < PTR_MOD ∧ IsBadMemPtr vq pf false a PTR_SIZE = some false ∧ accessible vq false a = true
  | .store _ a _ =>
    a < PTR_MOD ∧ IsBadMemPtr vq pf false a PTR_SIZE = some false ∧ accessible vq true a = true
  | .fault _ w a =>
    a < PTR_MOD ∧ IsBadMemPtr vq pf false a PTR_SIZE = some false ∧ accessible vq w a = false

/-- The steps added from state `s` to state `s1` are justified, and the loads
among them are probed. -/
def ProbedRel (vq : RegionTable) (pf : Nat) (s s1 : State) : Prop :=
  ∃ evs, s1.trace = evs ++ s.trace ∧ loadsProbed evs = true ∧ ∀ e ∈ evs, e.Justified vq pf

/-- Step `e` may directly follow step `f`, as far as faults go: if `f` is a
fault, `e` is a probe for reading a pointer-sized word made at a lower nesting
level. -/
def Event.answers (e f : Event) : Bool :=
  match f with
  | .fault lf _ _ =>
    (match e with
      | .probe l w _ n _ => !w && decide (n = PTR_SIZE) && decide (l < lf)
      | _ => false)
  | _ => true

/-- Every fault in the record (newest first) that is not its newest step is
directly followed by a probe for reading a pointer-sized word made at a lower
nesting level: an invocation further out goes on with its next offset. -/
def faultsAnswered : List Event → Bool
  | e :: f :: rest => e.answers f && faultsAnswered (f :: rest)
  | _ => true

/-- The steps added from state `s` to state `s1` were made at level `l` or
deeper, and the faults among them are answered. -/
def ContainRel (l : Nat) (s s1 : State) : Prop :=
  ∃ evs, s1.trace = evs ++ s.trace ∧ (∀ e ∈ evs, l ≤ e.level) ∧ faultsAnswered evs = true

/-- The oldest step of the list, if there is one, is a probe for reading a
pointer-sized word made at level `l`. -/
def StartsWithProbe (l : Nat) (evs : List Event) : Prop :=
  evs = [] ∨ ∃ evs1 a b, evs = evs1 ++ [Event.probe l false a PTR_SIZE b]

/-- A region table with the readable and writable region `[0x2000, 0x2010)`,
the readable and writable region `[0x3000, 0x3008)` directly followed by the
read-only region `[0x3008, 0x3010)`, and the readable and writable region
`[0x4000, 0x4008)`. -/
def siblingTable : RegionTable := fun a =>
  if 0x2000 ≤ a ∧ a < 0x2010 then some ⟨0x2000, 0x10, PAGE_READWRITE⟩
  else if 0x3000 ≤ a ∧ a < 0x3008 then some ⟨0x3000, 8, PAGE_READWRITE⟩
  else if 0x3008 ≤ a ∧ a < 0x3010 then some ⟨0x3008, 8, PAGE_READONLY⟩
  else if 0x4000 ≤ a ∧ a < 0x4008 then some ⟨0x4000, 8, PAGE_READWRITE⟩
  else none

/-- Memory with the words `0x3000` at `0x2000`, `0x4000` at `0x2008`, `0x1050`
at `0x3000`, `0x1058` at `0x3008` and `0x1060` at `0x4000`. -/
def siblingMem : Mem :=
  store64 (store64 (store64 (store64 (wordAt 0x2000 0x3000) 0x2008 0x4000) 0x3000 0x1050)
    0x3008 0x1058) 0x4000 0x1060

/-- The address a step puts into the visited set: the `scan_start` of an
invocation (line 75 for a new one, already present at line 71 otherwise) or
the address of a loaded word (line 89). -/
def Event.visited : Event → Option Nat
  | .enter _ a => some a
  | .load _ a _ => some a
  | _ => none

/-- From state `s` to state `s1` the visited set only grew, and it holds the
address of every invocation entered and of every word loaded in between. -/
def SeenRel (_l : Nat) (_d : Int) (s s1 : State) : Prop :=
  ∃ evs, s1.trace = evs ++ s.trace ∧ (∀ a ∈ s.seen, a ∈ s1.seen) ∧
    ∀ e ∈ evs, ∀ a, e.visited = some a → a ∈ s1.seen

/-- A region table with the read-only region `[0x2000, 0x2008)` directly
followed by the readable and writable region `[0x2008, 0x2010)`. -/
def readonlyFirstTable : RegionTable := fun a =>
  if 0x2000 ≤ a ∧ a < 0x2008 then some ⟨0x2000, 8, PAGE_READONLY⟩
  else if 0x2008 ≤ a ∧ a < 0x2010 then some ⟨0x2008, 8, PAGE_READWRITE⟩
  else none

/-- Memory with the word `0x9999` at `0x2000` and the word `0x1050` at `0x2008`. -/
def readonlyFirstMem : Mem := store64 (wordAt 0x2000 0x9999) 0x2008 0x1050

/-- The step that comes next after the steps `pre` (newest first, so their
oldest), if there is one, is a probe for reading a pointer-sized word made at a
nesting level below `bound`: the loop of an invocation at such a level goes on
with its next offset. -/
def NextIsLoopProbe (bound : Nat) (pre : List Event) : Prop :=
  pre = [] ∨ ∃ p l a b, pre = p ++ [Event.probe l false a PTR_SIZE b] ∧ l < bound

/-- What follows the load of the value `v` at address `a` made at level `l` by
an invocation with depth budget `d`; `pre` holds the steps after the load,
newest first. If `v` lies in the old range and the word cannot be written,
the write fault comes next and ends the invocation. Otherwise the store of the
translation comes next when `v` lies in the old range; then, with `d > 0`, the
probe for reading a pointer-sized word at `v`, and after it the entry of the
invocation one level deeper with `scan_start = v` when the probe reported
safe; with the probe reporting unsafe, or with `d ≤ 0`, no invocation is
entered. -/
def LoadFollowed (vq : RegionTable) (os oe ns : Nat) (d : Int) (l a v : Nat)
    (pre : List Event) : Prop :=
  if inOldRange os oe v = true ∧ accessible vq true a = false then
    ∃ pre1, pre = pre1 ++ [Event.fault l true a] ∧ NextIsLoopProbe l pre1
  else
    ∃ pre0,
      pre = pre0 ++
        (if inOldRange os oe v = true then [Event.store l a (translate os ns v)] else []) ∧
      if 0 < d then
        ∃ b pre1, pre0 = pre1 ++ [Event.probe l false v PTR_SIZE b] ∧
          if b = false then ∃ pre2, pre1 = pre2 ++ [Event.enter (l + 1) v]
          else NextIsLoopProbe (l + 1) pre1
      else NextIsLoopProbe (l + 1) pre0

/-- Every load in the record `evs` (newest first) of a call with depth budget
`D` at level 0 is followed as `LoadFollowed` says, the invocation at level `l`
having the depth budget `D - l`. -/
def LoadsFollowed (vq : RegionTable) (os oe ns : Nat) (D : Int) (evs : List Event) : Prop :=
  ∀ pre l a v post, evs = pre ++ Event.load l a v :: post →
    LoadFollowed vq os oe ns (D - l) l a v pre

/-- Every entry of an invocation in the record `evs` (newest first) is one
level below an invocation `l` with depth budget `D - l > 0` and comes right
after that invocation probed `scan_start` safe for reading a pointer-sized
word, which came right after it loaded the value `scan_start` (outside the old
range) or loaded it and stored its translation. -/
def EntersCaused (os oe ns : Nat) (D : Int) (evs : List Event) : Prop :=
  ∀ pre l1 s post, evs = pre ++ Event.enter l1 s :: post →
    ∃ l a post1, l1 = l + 1 ∧ 0 < D - l ∧
      ((post = Event.probe l false s PTR_SIZE false :: Event.load l a s :: post1 ∧
          inOldRange os oe s = false) ∨
        (post = Event.probe l false s PTR_SIZE false ::
          Event.store l a (translate os ns s) :: Event.load l a s :: post1 ∧
          inOldRange os oe s = true))

/-- The steps a call of `follow` adds, by case: none without depth budget, the
probe alone when it reports unsafe, and otherwise the probe, the entry of the
invocation one level deeper and the steps `body` of that invocation. -/
def FollowSteps (vq : RegionTable) (os oe ns : Nat) (D : Int) (l v : Nat)
    (evs : List Event) : Prop :=
  (¬ 0 < D - l ∧ evs = []) ∨
  (0 < D - l ∧ evs = [Event.probe l false v PTR_SIZE true]) ∨
  (0 < D - l ∧ ∃ body,
    evs = body ++ [Event.enter (l + 1) v, Event.probe l false v PTR_SIZE false] ∧
    (∀ e ∈ body, l + 1 ≤ e.level) ∧ LoadsFollowed vq os oe ns D body ∧
    EntersCaused os oe ns D body)

/-- A region table with the readable and writable region
`[0x100000000, 0x300000000)` of 8 GiB and the read-only region
`[0x10000, 0x10008)`. -/
def wideFaultTable : RegionTable := fun a =>
  if 0x100000000 ≤ a ∧ a < 0x300000000 then
    some ⟨0x100000000, 0x200000000, PAGE_READWRITE⟩
  else if 0x10000 ≤ a ∧ a < 0x10008 then some ⟨0x10000, 8, PAGE_READONLY⟩
  else none

/-- Memory with the word `0x10000` at `0x200000000` and the word `0x1050` at
`0x10000`, zero elsewhere. -/
def wideFaultMem : Mem := store64 (wordAt 0x200000000 0x10000) 0x10000 0x1050

/-! # Theorems -/

/-! ## The scanner stays inside every closed step relation -/

theorem ptrAddInt32_lt (p i : Nat) : ptrAddInt32 p i < PTR_MOD := by
  unfold ptrAddInt32
  split <;> exact Nat.mod_lt _ (by unfold PTR_MOD; omega)

theorem follow_closed {vq : RegionTable} {pf old_start old_end new_start : Nat}
    {R : Nat → Int → State → State → Prop} (hR : ScanClosed vq pf old_start old_end new_start R)
    {recurse : Nat → State → Option State} {level : Nat} {depth : Int}
    (hrec : ∀ v s s1, recurse v s = some s1 → R (level + 1) (depth - 1) s s1)
    {v : Nat} {st st1 : State} (h : follow vq pf recurse level depth v st = some st1) :
    R level depth st st1 := by
  unfold follow at h
  split at h
  · next hd =>
    split at h
    · exact absurd h (by simp)
    · next bad hb =>
      simp only at h
      split at h
      · next hbad =>
        cases h
        exact hR.followProbe _ _ _ _ _ hd hb
      · exact hR.trans _ _ _ _ _ (hR.followProbe _ _ _ _ _ hd hb) (hR.call _ _ _ _ hd (hrec _ _ _ h))
  · cases h
    exact hR.refl _ _ _

theorem scanLoop_closed {vq : RegionTable} {pf old_start old_end new_start : Nat}
    {R : Nat → Int → State → State → Prop} (hR : ScanClosed vq pf old_start old_end new_start R)
    {recurse : Nat → State → Option State} {level : Nat} {depth : Int}
    (hrec : ∀ v s s1, recurse v s = some s1 → R (level + 1) (depth - 1) s s1)
    (scan_start skip_length scan_size : Nat) :
    ∀ (fuel i : Nat) (st st1 : State),
      scanLoop vq pf recurse level scan_start old_start old_end new_start depth skip_length
        scan_size fuel i st = some st1 → R level depth st st1 := by
  intro fuel
  induction fuel with
  | zero => intro i st st1 h; simp [scanLoop] at h
  | succ fuel ih =>
    intro i st st1 h
    rw [scanLoop] at h
    split at h
    · dsimp only at h
      split at h
      · exact absurd h (by simp)
      · next bad hb =>
        split at h
        · next hbad =>
          cases h
          subst hbad
          exact hR.probeBad _ _ _ _ (ptrAddInt32_lt _ _) hb
        · next hbad =>
          have hb0 : bad = false := by simpa using hbad
          subst hb0
          split at h
          · next hacc =>
            cases h
            exact hR.readFault _ _ _ _ (ptrAddInt32_lt _ _) hb hacc
          · next hacc =>
            have hacc1 : accessible vq false (ptrAddInt32 scan_start i) = true := by simpa using hacc
            split at h
            · next hin =>
              split at h
              · next haw =>
                cases h
                exact hR.writeFault _ _ _ _ (ptrAddInt32_lt _ _) hb hacc1 hin haw
              · next haw =>
                have haw1 : accessible vq true (ptrAddInt32 scan_start i) = true := by
                  simpa using haw
                split at h
                · exact absurd h (by simp)
                · next st5 hf =>
                  exact hR.trans _ _ _ _ _ (hR.loadStore _ _ _ _ (ptrAddInt32_lt _ _) hb hacc1 hin haw1)
                    (hR.trans _ _ _ _ _ (follow_closed hR hrec hf) (ih _ _ _ h))
            · next hin =>
              have hin1 : inOldRange old_start old_end
                  (load64 ((st.log (.probe level false (ptrAddInt32 scan_start i) PTR_SIZE
                    false)).see (ptrAddInt32 scan_start i)).mem (ptrAddInt32 scan_start i))
                  = false := by simpa using hin
              split at h
              · exact absurd h (by simp)
              · next st5 hf =>
                exact hR.trans _ _ _ _ _ (hR.loadOnly _ _ _ _ (ptrAddInt32_lt _ _) hb hacc1 hin1)
                  (hR.trans _ _ _ _ _ (follow_closed hR hrec hf) (ih _ _ _ h))
    · cases h
      exact hR.refl _ _ _

theorem detail_closed {vq : RegionTable} {pf old_start old_end new_start : Nat}
    {R : Nat → Int → State → State → Prop} (hR : ScanClosed vq pf old_start old_end new_start R)
    (skip_length : Nat) :
    ∀ (fuel level scan_start : Nat) (depth : Int) (scan_size : Nat) (st st1 : State),
      detail.relocate_pointers vq pf fuel level scan_start old_start old_end new_start depth
        skip_length scan_size st = some st1 → R level depth st st1 := by
  intro fuel
  induction fuel with
  | zero => intro level scan_start depth scan_size st st1 h; simp [detail.relocate_pointers] at h
  | succ fuel ih =>
    intro level scan_start depth scan_size st st1 h
    rw [detail.relocate_pointers] at h
    simp only at h
    split at h
    · next hseen =>
      cases h
      exact hR.enterSeen _ _ _ _ hseen
    · next hseen =>
      split at h
      · exact absurd h (by simp)
      · next bad hb =>
        split at h
        · cases h
          exact hR.enterProbe _ _ _ _ _ _ hseen hb
        · exact hR.trans _ _ _ _ _ (hR.enterProbe _ _ _ _ _ _ hseen hb)
            (scanLoop_closed hR (fun v s s1 hv => ih _ _ _ _ _ _ hv) _ _ _ _ _ _ _ h)

/-! ## Records of steps -/

theorem replay_append (evs2 evs1 : List Event) (m : Mem) :
    replay (evs2 ++ evs1) m = replay evs2 (replay evs1 m) := by
  simp [replay, List.foldr_append]

theorem storesJustified_append (os oe ns : Nat) (evs2 evs1 : List Event)
    (h2 : storesJustified os oe ns evs2 = true) (h1 : storesJustified os oe ns evs1 = true) :
    storesJustified os oe ns (evs2 ++ evs1) = true := by
  induction evs2 with
  | nil => simpa using h1
  | cons e rest ih =>
    cases e with
    | store l a w =>
      simp only [storesJustified, Bool.and_eq_true] at h2
      obtain ⟨hm, hr⟩ := h2
      cases rest with
      | nil => simp at hm
      | cons e2 rest2 =>
        cases e2 <;> simp_all [storesJustified]
    | _ => simp_all [storesJustified]

theorem loadsConsistent_append (m0 : Mem) (evs2 evs1 : List Event)
    (h1 : loadsConsistent m0 evs1) (h2 : loadsConsistent (replay evs1 m0) evs2) :
    loadsConsistent m0 (evs2 ++ evs1) := by
  induction evs2 with
  | nil => simpa using h1
  | cons e rest ih =>
    cases e <;> simp_all [loadsConsistent, replay_append]

theorem traceRel_closed (vq : RegionTable) (pf os oe ns : Nat) :
    ScanClosed vq pf os oe ns (fun _ _ s s1 => TraceRel os oe ns s s1) where
  refl := fun _ _ s => ⟨[], by simp [replay, storesJustified, loadsConsistent]⟩
  trans := by
    rintro _ _ a b c ⟨e1, ht1, hm1, hj1, hl1⟩ ⟨e2, ht2, hm2, hj2, hl2⟩
    refine ⟨e2 ++ e1, by simp [ht2, ht1], by rw [hm2, hm1, replay_append],
      storesJustified_append _ _ _ _ _ hj2 hj1, loadsConsistent_append _ _ _ hl1 ?_⟩
    rw [← hm1]; exact hl2
  call := fun _ _ _ _ _ h => h
  enterSeen := fun l _ s x _ => ⟨[.enter l x], by
    simp [State.log, replay, applyEvent, storesJustified, loadsConsistent]⟩
  enterProbe := fun l _ s x n b _ _ => ⟨[.probe l false x n b, .enter l x], by
    simp [State.log, State.see, replay, applyEvent, storesJustified, loadsConsistent]⟩
  probeBad := fun l _ s a _ _ => ⟨[.probe l false a PTR_SIZE true], by
    simp [State.log, replay, applyEvent, storesJustified, loadsConsistent]⟩
  readFault := fun l _ s a _ _ _ => ⟨[.fault l false a, .probe l false a PTR_SIZE false], by
    simp [State.log, State.see, replay, applyEvent, storesJustified, loadsConsistent]⟩
  loadOnly := fun l _ s a _ _ _ _ =>
    ⟨[.load l a (load64 s.mem a), .probe l false a PTR_SIZE false], by
      simp [State.log, State.see, replay, applyEvent, storesJustified, loadsConsistent]⟩
  writeFault := fun l _ s a _ _ _ _ _ =>
    ⟨[.fault l true a, .load l a (load64 s.mem a), .probe l false a PTR_SIZE false], by
      simp [State.log, State.see, replay, applyEvent, storesJustified, loadsConsistent]⟩
  loadStore := fun l _ s a _ _ _ hin _ =>
    ⟨[.store l a (translate os ns (load64 s.mem a)), .load l a (load64 s.mem a),
      .probe l false a PTR_SIZE false], by
      simp [State.log, State.see, State.write, replay, applyEvent, storesJustified,
        loadsConsistent, hin]⟩
  followProbe := fun l _ s v b _ _ => ⟨[.probe l false v PTR_SIZE b], by
    simp [State.log, replay, applyEvent, storesJustified, loadsConsistent]⟩

/-- Every finished invocation of the scanner is described by its record. -/
theorem detail_traceRel {vq : RegionTable} {pf fuel level scan_start os oe ns : Nat} {depth : Int}
    {skip_length scan_size : Nat} {st st1 : State}
    (h : detail.relocate_pointers vq pf fuel level scan_start os oe ns depth skip_length
      scan_size st = some st1) : TraceRel os oe ns st st1 :=
  detail_closed (traceRel_closed vq pf os oe ns) skip_length fuel level scan_start depth scan_size
    st st1 h

/-! ## The public entry point rejects a zero stride -/

/-- C1: with `skip_length = 0` the public `relocate_pointers` ends with the
runtime error whatever the other arguments, the region table, the memory and
the fuel are; it made no step (no probe, load or store) and the memory it leaves
is the memory it was given. -/
theorem relocate_pointers_zero_stride_error (vq : RegionTable) (fuel : Nat)
    (scan_start old_start old_end new_start : Nat) (depth : Int) (scan_size : Nat) (mem : Mem) :
    relocate_pointers vq fuel scan_start old_start old_end new_start depth 0 scan_size mem
      = some ⟨Completion.runtime_error, mem, []⟩ := by
  simp [relocate_pointers]

/-! ## The probe on an empty range -/

/-- C10: for every mode and every address, the null address included, the probe
called with `size = 0` returns `FALSE` (safe) and passes no address to
`VirtualQuery`, for every region table and every fuel. -/
theorem IsBadMemPtr_size_zero (vq : RegionTable) (fuel : Nat) (write : Bool) (ptr : Nat) :
    IsBadMemPtrQ vq fuel write ptr 0 = some (false, []) ∧
      IsBadMemPtr vq fuel write ptr 0 = some false := by
  simp [IsBadMemPtr, IsBadMemPtrQ]

/-! ## Stores come only after loads of values in the old range -/

theorem storesJustified_at (os oe ns : Nat) :
    ∀ (pre post : List Event) (l a w : Nat),
      storesJustified os oe ns (pre ++ Event.store l a w :: post) = true →
      ∃ v post1, post = Event.load l a v :: post1 ∧ os ≤ v ∧ v < oe ∧ w = translate os ns v := by
  intro pre
  induction pre with
  | nil =>
    intro post l a w h
    simp only [List.nil_append, storesJustified, Bool.and_eq_true] at h
    obtain ⟨hm, -⟩ := h
    cases post with
    | nil => simp at hm
    | cons e rest =>
      cases e with
      | load l1 a1 v =>
        simp only [Bool.and_eq_true, decide_eq_true_eq, inOldRange] at hm
        obtain ⟨⟨⟨hl, ha⟩, hv⟩, hw⟩ := hm
        exact ⟨v, rest, by rw [hl, ha], hv.1, hv.2, hw⟩
      | _ => simp at hm
  | cons e rest ih =>
    intro post l a w h
    apply ih
    cases e with
    | store l1 a1 w1 =>
      simp only [List.cons_append, storesJustified, Bool.and_eq_true] at h
      exact h.2
    | _ => simpa [storesJustified] using h

/-- The public entry point, when it returns, leaves the record and memory of
the invocation it made, started from an empty `seen` set and an empty record. -/
theorem relocate_pointers_returned {vq : RegionTable} {fuel scan_start os oe ns : Nat}
    {depth : Int} {skip_length scan_size : Nat} {mem : Mem} {r : CallResult}
    (hs : skip_length ≠ 0)
    (h : relocate_pointers vq fuel scan_start os oe ns depth skip_length scan_size mem = some r) :
    ∃ st, detail.relocate_pointers vq fuel fuel 0 scan_start os oe ns depth skip_length scan_size
        ⟨mem, [], []⟩ = some st ∧ r = ⟨Completion.returned, st.mem, st.trace⟩ := by
  simp only [relocate_pointers, hs, if_false, Option.map_eq_some'] at h
  obtain ⟨st, hst, hr⟩ := h
  exact ⟨st, hst, hr.symm⟩

/-- C4: in every finished call, each store in the record comes right after a
load at the same address whose value `v` satisfies `old_start ≤ v < old_end`
(and it stores the translation of `v`); a load of a value outside the old range
is never followed by a store; with a non-zero stride the call returns normally.
In the scenario of the spec (word `0x9999` at `0x2000`, old range
`[0x1000, 0x1100)`, target unmapped, depth 0) the call returns, the word is
still `0x9999` and the record holds no store. The record is newest first. -/
theorem stores_only_for_values_in_old_range (vq : RegionTable)
    (fuel scan_start old_start old_end new_start : Nat) (depth : Int)
    (skip_length scan_size : Nat) (mem : Mem) (r : CallResult)
    (h : relocate_pointers vq fuel scan_start old_start old_end new_start depth skip_length
      scan_size mem = some r) :
    (∀ (pre post : List Event) (l a w : Nat), r.trace = pre ++ Event.store l a w :: post →
      ∃ v post1, post = Event.load l a v :: post1 ∧ old_start ≤ v ∧ v < old_end ∧
        w = translate old_start new_start v) ∧
    (∀ (pre post : List Event) (e : Event) (l a v : Nat),
      r.trace = pre ++ e :: Event.load l a v :: post → ¬ (old_start ≤ v ∧ v < old_end) →
      e.isStore = false) ∧
    (skip_length ≠ 0 → r.completion = Completion.returned) ∧
    (relocate_pointers scenarioTable 4 0x2000 0x1000 0x1100 0x5000 0 8 8
        (wordAt 0x2000 0x9999)).map
      (fun r => (r.completion, load64 r.mem 0x2000, r.trace.any Event.isStore))
      = some (Completion.returned, 0x9999, false) := by
  have key : storesJustified old_start old_end new_start r.trace = true := by
    by_cases hs : skip_length = 0
    · simp only [relocate_pointers, hs, if_true, Option.some.injEq] at h
      subst h
      rfl
    · obtain ⟨st, hst, hr⟩ := relocate_pointers_returned hs h
      obtain ⟨evs, ht, -, hj, -⟩ := detail_traceRel hst
      subst hr
      simp only [List.append_nil] at ht
      simpa [ht] using hj
  refine ⟨?_, ?_, ?_, by decide⟩
  · intro pre post l a w ht
    rw [ht] at key
    exact storesJustified_at _ _ _ pre post l a w key
  · intro pre post e l a v ht hv
    cases e with
    | store l1 a1 w =>
      rw [ht] at key
      obtain ⟨v1, post1, hp, h1, h2, -⟩ := storesJustified_at _ _ _ pre _ l1 a1 w key
      simp only [List.cons.injEq, Event.load.injEq] at hp
      obtain ⟨⟨-, -, hv1⟩, -⟩ := hp
      subst hv1
      exact absurd ⟨h1, h2⟩ hv
    | _ => rfl
  · intro hs
    obtain ⟨st, -, hr⟩ := relocate_pointers_returned hs h
    rw [hr]

theorem stores_only_for_values_in_old_range_witness :
    relocate_pointers scenarioTable 4 0x2000 0x1000 0x1100 0x5000 0 8 8 (wordAt 0x2000 0x1050)
      = some ⟨Completion.returned, store64 (wordAt 0x2000 0x1050) 0x2000 0x5050,
          [.store 0 0x2000 0x5050, .load 0 0x2000 0x1050, .probe 0 false 0x2000 8 false,
            .probe 0 false 0x2000 8 false, .enter 0 0x2000]⟩ ∧
    ∃ v post1, [Event.load 0 0x2000 0x1050, .probe 0 false 0x2000 8 false,
        .probe 0 false 0x2000 8 false, .enter 0 0x2000] = Event.load 0 0x2000 v :: post1 ∧
      0x1000 ≤ v ∧ v < 0x1100 ∧ 0x5050 = translate 0x1000 0x5000 v :=
  ⟨by rfl,
    (stores_only_for_values_in_old_range scenarioTable 4 0x2000 0x1000 0x1100 0x5000 0 8 8
      (wordAt 0x2000 0x1050) _ (by rfl)).1 [] _ 0 0x2000 0x5050 rfl⟩

/-! ## Words in memory -/

theorem byteOffset_self_add (a k : Nat) (hk : k < 8) :
    byteOffset a ((a + k) % PTR_MOD) = k := by
  unfold byteOffset PTR_MOD
  omega

theorem inWord_self_add (a k : Nat) (hk : k < 8) :
    inWord a ((a + k) % PTR_MOD) = true := by
  have := byteOffset_self_add a k hk
  simp only [inWord, this, PTR_SIZE, Bool.and_eq_true, decide_eq_true_eq]
  refine ⟨?_, hk⟩
  unfold PTR_MOD; omega

theorem loadByte_store64_same (m : Mem) (a v k : Nat) (hk : k < 8) :
    loadByte (store64 m a v) (a + k) = v / 256 ^ k % 256 := by
  simp only [loadByte, store64, inWord_self_add a k hk, if_true, byteOffset_self_add a k hk]
  omega

theorem load64_store64_same (m : Mem) (a v : Nat) :
    load64 (store64 m a v) a = v % PTR_MOD := by
  have h0 := loadByte_store64_same m a v 0 (by omega)
  simp only [Nat.add_zero] at h0
  simp only [load64, h0, loadByte_store64_same m a v _ (show 1 < 8 by omega),
    loadByte_store64_same m a v _ (show 2 < 8 by omega),
    loadByte_store64_same m a v _ (show 3 < 8 by omega),
    loadByte_store64_same m a v _ (show 4 < 8 by omega),
    loadByte_store64_same m a v _ (show 5 < 8 by omega),
    loadByte_store64_same m a v _ (show 6 < 8 by omega),
    loadByte_store64_same m a v _ (show 7 < 8 by omega), PTR_MOD]
  norm_num
  omega

theorem inWord_of_not_overlap (a b k : Nat) (hk : k < 8) (h : wordsOverlap a b = false) :
    inWord b ((a + k) % PTR_MOD) = false := by
  simp only [wordsOverlap, decide_eq_false_iff_not, not_or, not_lt, PTR_SIZE, byteOffset,
    PTR_MOD] at h
  simp only [inWord, Bool.and_eq_false_iff, decide_eq_false_iff_not, not_lt, PTR_SIZE,
    byteOffset, PTR_MOD]
  right
  omega

theorem loadByte_store64_other (m : Mem) (a b v k : Nat) (hk : k < 8)
    (h : wordsOverlap a b = false) :
    loadByte (store64 m b v) (a + k) = loadByte m (a + k) := by
  simp [loadByte, store64, inWord_of_not_overlap a b k hk h]

theorem load64_store64_other (m : Mem) (a b v : Nat) (h : wordsOverlap a b = false) :
    load64 (store64 m b v) a = load64 m a := by
  have h0 := loadByte_store64_other m a b v 0 (by omega) h
  simp only [Nat.add_zero] at h0
  simp only [load64, h0, loadByte_store64_other m a b v _ (show 1 < 8 by omega) h,
    loadByte_store64_other m a b v _ (show 2 < 8 by omega) h,
    loadByte_store64_other m a b v _ (show 3 < 8 by omega) h,
    loadByte_store64_other m a b v _ (show 4 < 8 by omega) h,
    loadByte_store64_other m a b v _ (show 5 < 8 by omega) h,
    loadByte_store64_other m a b v _ (show 6 < 8 by omega) h,
    loadByte_store64_other m a b v _ (show 7 < 8 by omega) h]

/-! ## What a rewritten word holds after the call -/

theorem loadsConsistent_at (m0 : Mem) :
    ∀ (xs ys : List Event) (l a v : Nat), loadsConsistent m0 (xs ++ Event.load l a v :: ys) →
      v = load64 (replay ys m0) a := by
  intro xs
  induction xs with
  | nil =>
    intro ys l a v h
    simp only [List.nil_append, loadsConsistent] at h
    exact h.1
  | cons e rest ih =>
    intro ys l a v h
    apply ih ys l a v
    cases e with
    | load l1 a1 v1 =>
      simp only [List.cons_append, loadsConsistent] at h
      exact h.2
    | _ => simpa [loadsConsistent] using h

theorem load64_replay_of_no_store (a : Nat) (m : Mem) :
    ∀ (evs : List Event), (∀ e ∈ evs, e.storesInto a = false) →
      load64 (replay evs m) a = load64 m a := by
  intro evs
  induction evs with
  | nil => intro _; rfl
  | cons e rest ih =>
    intro h
    have hr := ih (fun e1 he1 => h e1 (List.mem_cons_of_mem _ he1))
    have he := h e (List.mem_cons_self _ _)
    cases e with
    | store l b w =>
      simp only [Event.storesInto] at he
      simp only [replay, List.foldr_cons, applyEvent] at hr ⊢
      rw [load64_store64_other _ _ _ _ he]
      exact hr
    | _ => simpa [replay, applyEvent] using hr

theorem translate_lt (os ns v : Nat) : translate os ns v < PTR_MOD := by
  unfold translate
  exact Nat.mod_lt _ (by unfold PTR_MOD; omega)

/-- The record and the final memory of a finished call of the public entry
point: stores are justified, loads are consistent, memory is the replay. -/
theorem relocate_pointers_trace {vq : RegionTable} {fuel scan_start os oe ns : Nat}
    {depth : Int} {skip_length scan_size : Nat} {mem : Mem} {r : CallResult}
    (h : relocate_pointers vq fuel scan_start os oe ns depth skip_length scan_size mem = some r) :
    storesJustified os oe ns r.trace = true ∧ loadsConsistent mem r.trace ∧
      r.mem = replay r.trace mem := by
  by_cases hs : skip_length = 0
  · simp only [relocate_pointers, hs, if_true, Option.some.injEq] at h
    subst h
    exact ⟨rfl, trivial, rfl⟩
  · obtain ⟨st, hst, hr⟩ := relocate_pointers_returned hs h
    obtain ⟨evs, ht, hm, hj, hl⟩ := detail_traceRel hst
    subst hr
    simp only [List.append_nil] at ht
    simp only [ht]
    exact ⟨hj, hl, hm⟩

/-- C3 (amended): in a finished call, take a store of the record, at address
`a`, such that no other store of the call, older (`pre`) or newer (`post`),
touches a byte of the word at `a`. Then the value `p` that the word held before
the call satisfies `old_start ≤ p < old_end`, and after the call the word holds
`new_start + (p - old_start)` modulo `2^64`. The record is newest first. -/
theorem word_rewritten_once_holds_translation (vq : RegionTable)
    (fuel scan_start old_start old_end new_start : Nat) (depth : Int)
    (skip_length scan_size : Nat) (mem : Mem) (r : CallResult)
    (h : relocate_pointers vq fuel scan_start old_start old_end new_start depth skip_length
      scan_size mem = some r)
    (post pre : List Event) (l a w : Nat)
    (ht : r.trace = post ++ Event.store l a w :: pre)
    (hpre : ∀ e ∈ pre, e.storesInto a = false)
    (hpost : ∀ e ∈ post, e.storesInto a = false) :
    old_start ≤ load64 mem a ∧ load64 mem a < old_end ∧
      load64 r.mem a = (new_start + (load64 mem a - old_start)) % 2 ^ 64 := by
  obtain ⟨hj, hl, hm⟩ := relocate_pointers_trace h
  rw [ht] at hj hl
  obtain ⟨v, pre1, hp, hv1, hv2, hw⟩ := storesJustified_at _ _ _ post pre l a w hj
  subst hp
  have hv : v = load64 (replay pre1 mem) a :=
    loadsConsistent_at mem (post ++ [Event.store l a w]) pre1 l a v (by simpa using hl)
  have hv0 : load64 (replay pre1 mem) a = load64 mem a :=
    load64_replay_of_no_store a mem pre1
      (fun e he => hpre e (List.mem_cons_of_mem _ he))
  rw [hv0] at hv
  subst hv
  refine ⟨hv1, hv2, ?_⟩
  rw [hm, ht, replay_append, load64_replay_of_no_store a _ post hpost]
  simp only [replay, List.foldr_cons, applyEvent]
  rw [load64_store64_same, hw, Nat.mod_eq_of_lt (translate_lt _ _ _)]
  rfl

theorem word_rewritten_once_holds_translation_witness :
    relocate_pointers scenarioTable 4 0x2000 0x1000 0x1100 0x5000 0 8 8 (wordAt 0x2000 0x1050)
      = some ⟨Completion.returned, store64 (wordAt 0x2000 0x1050) 0x2000 0x5050,
          [.store 0 0x2000 0x5050, .load 0 0x2000 0x1050, .probe 0 false 0x2000 8 false,
            .probe 0 false 0x2000 8 false, .enter 0 0x2000]⟩ ∧
    (0x1000 ≤ load64 (wordAt 0x2000 0x1050) 0x2000 ∧
      load64 (wordAt 0x2000 0x1050) 0x2000 < 0x1100 ∧
      load64 (store64 (wordAt 0x2000 0x1050) 0x2000 0x5050) 0x2000
        = (0x5000 + (load64 (wordAt 0x2000 0x1050) 0x2000 - 0x1000)) % 2 ^ 64) :=
  ⟨by rfl,
    word_rewritten_once_holds_translation scenarioTable 4 0x2000 0x1000 0x1100 0x5000 0 8 8
      (wordAt 0x2000 0x1050)
      ⟨Completion.returned, store64 (wordAt 0x2000 0x1050) 0x2000 0x5050,
        [.store 0 0x2000 0x5050, .load 0 0x2000 0x1050, .probe 0 false 0x2000 8 false,
          .probe 0 false 0x2000 8 false, .enter 0 0x2000]⟩
      (by rfl) []
      [.load 0 0x2000 0x1050, .probe 0 false 0x2000 8 false, .probe 0 false 0x2000 8 false,
        .enter 0 0x2000]
      0 0x2000 0x5050 rfl (by decide) (by simp)⟩

/-- C3 (as stated) fails: with old range `[0x1000, 0x1100)` moved to `0x1010`
(the ranges overlap), depth 1, stride 8 and window 16, the word at `0x2000`
holds `0x1050` before the call and is rewritten, yet after the call it holds
`0x1070` and not `0x1010 + (0x1050 - 0x1000) = 0x1060`: the recursive scan that
starts at `0x1ff8` reads the already rewritten word again and translates it a
second time. -/
theorem rewritten_word_translated_twice :
    load64 overlapMem 0x2000 = 0x1050 ∧
    (relocate_pointers overlapTable 8 0x2000 0x1000 0x1100 0x1010 1 8 16 overlapMem).map
      (fun r => (load64 r.mem 0x2000, r.trace.filter Event.isStore))
      = some (0x1070, [.store 1 0x2000 0x1070, .store 0 0x2000 0x1060]) ∧
    (0x1010 + (0x1050 - 0x1000)) % 2 ^ 64 = 0x1060 := by
  decide

/-! ## A window within one stride of `2^32` -/

theorem IsBadMemPtr_wideTable (pf a n : Nat) (hn : 0 < n) (ha : 0x100000000 ≤ a)
    (han : a + n ≤ 0x300000000) :
    IsBadMemPtr wideTable pf false a n = none ∨ IsBadMemPtr wideTable pf false a n = some false := by
  cases pf with
  | zero =>
    left
    have h1 : n ≠ 0 := by omega
    have h2 : a ≠ 0 := by omega
    simp [IsBadMemPtr, IsBadMemPtrQ, h1, h2, IsBadMemPtr.walk]
  | succ pf =>
    right
    have h1 : n ≠ 0 := by omega
    have h2 : a ≠ 0 := by omega
    have h3 : (a + n) % PTR_MOD = a + n := Nat.mod_eq_of_lt (by unfold PTR_MOD; omega)
    have h4 : wideTable a = some ⟨0x100000000, 0x200000000, PAGE_READWRITE⟩ := by
      unfold wideTable
      rw [if_pos ⟨ha, by omega⟩]
    have h5 : protectOk false PAGE_READWRITE = true := by decide
    have h6 : (0x100000000 + 0x200000000) % PTR_MOD = 0x300000000 := by decide
    simp only [IsBadMemPtr, IsBadMemPtrQ, h1, h2, if_false, h3, IsBadMemPtr.walk, true_or,
      if_true, h4, h5, h6, Bool.true_eq_false, IsBadMemPtr.check]
    rw [if_pos han]
    rfl

theorem accessible_wideTable (a : Nat) (ha : 0x100000000 ≤ a) (ha8 : a + 8 ≤ 0x300000000) :
    accessible wideTable false a = true := by
  simp only [accessible, List.all_eq_true, List.mem_range, PTR_SIZE]
  intro k hk
  have h3 : (a + k) % PTR_MOD = a + k := Nat.mod_eq_of_lt (by unfold PTR_MOD; omega)
  have h4 : wideTable (a + k) = some ⟨0x100000000, 0x200000000, PAGE_READWRITE⟩ := by
    unfold wideTable
    rw [if_pos ⟨by omega, by omega⟩]
  simp only [byteAccessible, h3, h4]
  decide

theorem load64_zeroMem (a : Nat) : load64 zeroMem a = 0 := by
  simp [load64, loadByte, zeroMem]

theorem ptrAddInt32_wide (i : Nat) (hi : i < 2 ^ 32) :
    0x180000000 ≤ ptrAddInt32 0x200000000 i ∧ ptrAddInt32 0x200000000 i + 8 ≤ 0x280000000 + 8 := by
  unfold ptrAddInt32 PTR_MOD U32_MOD
  split <;> omega

theorem scanLoop_wide_diverges (pf : Nat) (recurse : Nat → State → Option State) :
    ∀ (fuel i : Nat) (st : State), i % 8 = 0 → i < 2 ^ 32 → st.mem = zeroMem →
      scanLoop wideTable pf recurse 0 0x200000000 0x1000 0x1100 0x5000 0 8 0xFFFFFFFF fuel i st
        = none := by
  intro fuel
  induction fuel with
  | zero => intro i st _ _ _; rfl
  | succ fuel ih =>
    intro i st h8 hi hm
    have hlt : i < 0xFFFFFFFF := by omega
    obtain ⟨hlo, hhi⟩ := ptrAddInt32_wide i hi
    rw [scanLoop, if_pos hlt]
    dsimp only
    rcases IsBadMemPtr_wideTable pf (ptrAddInt32 0x200000000 i) PTR_SIZE (by decide)
      (by omega) (by unfold PTR_SIZE; omega) with hp | hp
    · rw [hp]
    · rw [hp]
      have hacc := accessible_wideTable (ptrAddInt32 0x200000000 i) (by omega) (by omega)
      have hl : load64 st.mem (ptrAddInt32 0x200000000 i) = 0 := by rw [hm, load64_zeroMem]
      simp only [Bool.false_eq_true, if_false, hacc, Bool.true_eq_false, State.see, State.log, hl]
      have hin : inOldRange 0x1000 0x1100 0 = false := by decide
      simp only [hin, Bool.false_eq_true, if_false, follow, gt_iff_lt, lt_self_iff_false]
      apply ih
      · unfold U32_MOD; omega
      · unfold U32_MOD; omega
      · exact hm

/-- C2 (the code at the failing input): with an 8 GiB readable region around
`scan_start = 0x200000000`, stride 8 and window `0xFFFFFFFF`, the public
`relocate_pointers` never returns. The counter reaches `0xFFFFFFF8`, which is
still below the window, and the next addition wraps it to `0`; every probe of
the window succeeds, so no fuel suffices. -/
theorem relocate_pointers_wrapped_counter_never_returns :
    ¬ ∃ fuel r, relocate_pointers wideTable fuel 0x200000000 0x1000 0x1100 0x5000 0 8
      0xFFFFFFFF zeroMem = some r := by
  rintro ⟨fuel, r, h⟩
  obtain ⟨st, hst, -⟩ := relocate_pointers_returned (by decide) h
  cases fuel with
  | zero => simp [detail.relocate_pointers] at hst
  | succ fuel =>
    rw [detail.relocate_pointers] at hst
    simp only [State.log, List.not_mem_nil, if_false, State.see] at hst
    rcases IsBadMemPtr_wideTable (fuel + 1) 0x200000000 8 (by decide) (by decide) (by decide)
      with hp | hp
    · rw [hp] at hst
      simp at hst
    · rw [hp] at hst
      simp only [Bool.false_eq_true, if_false] at hst
      rw [scanLoop_wide_diverges (fuel + 1) _ fuel 0 _ (by decide) (by decide) rfl] at hst
      simp at hst


/-! ## The probe: fuel -/

theorem check_mono {write : Bool} {maxp : Nat}
    {k k1 : Nat → Nat → MEMORY_BASIC_INFORMATION → Option (Bool × List Nat)}
    (hk : ∀ p regend mbi r, k p regend mbi = some r → k1 p regend mbi = some r)
    {p regend : Nat} {mbi : MEMORY_BASIC_INFORMATION} {queried : List Nat} {r : Bool × List Nat}
    (h : IsBadMemPtr.check write maxp k p regend mbi queried = some r) :
    IsBadMemPtr.check write maxp k1 p regend mbi queried = some r := by
  unfold IsBadMemPtr.check at h ⊢
  dsimp only at h ⊢
  split_ifs at h ⊢
  all_goals first
    | exact h
    | (simp only [Option.map_eq_some'] at h ⊢
       obtain ⟨r0, hr0, hr⟩ := h
       exact ⟨r0, hk _ _ _ _ hr0, hr⟩)

theorem walk_mono (vq : RegionTable) (write : Bool) (ptr maxp : Nat) :
    ∀ (fuel : Nat) (fuel1 : Nat), fuel ≤ fuel1 →
      ∀ (p regend : Nat) (mbi : MEMORY_BASIC_INFORMATION) (r : Bool × List Nat),
      IsBadMemPtr.walk vq write ptr maxp fuel p regend mbi = some r →
      IsBadMemPtr.walk vq write ptr maxp fuel1 p regend mbi = some r := by
  intro fuel
  induction fuel with
  | zero => intro _ _ p regend mbi r h; simp [IsBadMemPtr.walk] at h
  | succ n ih =>
    intro fuel1 hle p regend mbi r h
    obtain ⟨m, rfl⟩ : ∃ m, fuel1 = m + 1 := ⟨fuel1 - 1, by omega⟩
    rw [IsBadMemPtr.walk] at h ⊢
    split_ifs at h ⊢
    · cases hv : vq p with
      | none => rw [hv] at h; exact h
      | some info =>
        rw [hv] at h
        exact check_mono (ih m (by omega)) h
    · exact check_mono (ih m (by omega)) h

theorem IsBadMemPtr_mono {vq : RegionTable} {pf : Nat} {write : Bool} {ptr size : Nat} {b : Bool}
    (h : IsBadMemPtr vq pf write ptr size = some b) {pf1 : Nat} (hle : pf ≤ pf1) :
    IsBadMemPtr vq pf1 write ptr size = some b := by
  unfold IsBadMemPtr IsBadMemPtrQ at h ⊢
  split_ifs at h ⊢
  · exact h
  · exact h
  · simp only [Option.map_eq_some'] at h ⊢
    obtain ⟨r, hr, hb⟩ := h
    exact ⟨r, walk_mono _ _ _ _ _ _ hle _ _ _ _ hr, hb⟩

/-- The answer of the probe does not depend on the fuel that sufficed. -/
theorem IsBadMemPtr_det {vq : RegionTable} {pf pf1 : Nat} {write : Bool} {ptr size : Nat}
    {b b1 : Bool} (h : IsBadMemPtr vq pf write ptr size = some b)
    (h1 : IsBadMemPtr vq pf1 write ptr size = some b1) : b = b1 := by
  have e := IsBadMemPtr_mono h (Nat.le_max_left pf pf1)
  have e1 := IsBadMemPtr_mono h1 (Nat.le_max_right pf pf1)
  rw [e] at e1
  exact Option.some.inj e1


theorem walk_terminates {vq : RegionTable} (hloc : Located vq) (write : Bool) (ptr maxp : Nat) :
    ∀ (n p regend : Nat) (mbi : MEMORY_BASIC_INFORMATION), (p = ptr ∨ p = regend) →
      maxp ≤ p + n → ∃ r, IsBadMemPtr.walk vq write ptr maxp (n + 1) p regend mbi = some r := by
  intro n
  induction n using Nat.strong_induction_on with
  | _ n ih =>
    intro p regend mbi hq hn
    rw [IsBadMemPtr.walk, if_pos hq]
    cases hv : vq p with
    | none => exact ⟨_, rfl⟩
    | some info =>
      obtain ⟨h1, h2, h3⟩ := hloc p info hv
      have hre : (info.BaseAddress + info.RegionSize) % PTR_MOD
          = info.BaseAddress + info.RegionSize := Nat.mod_eq_of_lt h3
      simp only [hre, IsBadMemPtr.check]
      by_cases c1 : protectOk write info.Protect = false
      · rw [if_pos c1]; exact ⟨_, rfl⟩
      · rw [if_neg c1]
        by_cases c2 : maxp ≤ info.BaseAddress + info.RegionSize
        · rw [if_pos c2]; exact ⟨_, rfl⟩
        · rw [if_neg c2]
          have c3 : info.BaseAddress + info.RegionSize < maxp := by omega
          rw [if_pos c3, if_pos c3]
          obtain ⟨m, rfl⟩ : ∃ m, n = m + 1 := ⟨n - 1, by omega⟩
          obtain ⟨r, hr⟩ := ih m (by omega) (info.BaseAddress + info.RegionSize)
            (info.BaseAddress + info.RegionSize) info (Or.inr rfl) (by omega)
          rw [hr]
          exact ⟨_, rfl⟩

/-- On a located region table the probe returns, with fuel `2^64 + 1` or more. -/
theorem IsBadMemPtr_terminates {vq : RegionTable} (hloc : Located vq) (write : Bool)
    (ptr size pf : Nat) (hpf : PTR_MOD + 1 ≤ pf) : ∃ b, IsBadMemPtr vq pf write ptr size = some b := by
  by_cases h0 : size = 0
  · exact ⟨false, by simp [IsBadMemPtr, IsBadMemPtrQ, h0]⟩
  by_cases h1 : ptr = 0
  · exact ⟨true, by simp [IsBadMemPtr, IsBadMemPtrQ, h0, h1]⟩
  have hm : (ptr + size) % PTR_MOD < PTR_MOD := Nat.mod_lt _ (by unfold PTR_MOD; omega)
  obtain ⟨r, hr⟩ := walk_terminates hloc write ptr ((ptr + size) % PTR_MOD) PTR_MOD ptr 0
    ⟨0, 0, 0⟩ (Or.inl rfl) (by omega)
  have hr1 := walk_mono vq write ptr _ _ pf hpf _ _ _ _ hr
  exact ⟨r.1, by simp [IsBadMemPtr, IsBadMemPtrQ, h0, h1, hr1]⟩

theorem walk_prefix (vq : RegionTable) (write : Bool) (ptr maxp1 maxp2 : Nat)
    (hle : maxp1 ≤ maxp2) :
    ∀ (fuel p regend : Nat) (mbi : MEMORY_BASIC_INFORMATION) (qs : List Nat),
      IsBadMemPtr.walk vq write ptr maxp2 fuel p regend mbi = some (false, qs) →
      ∃ qs1, IsBadMemPtr.walk vq write ptr maxp1 fuel p regend mbi = some (false, qs1) := by
  have hcheck : ∀ (fuel : Nat),
      (∀ (p regend : Nat) (mbi : MEMORY_BASIC_INFORMATION) (qs : List Nat),
        IsBadMemPtr.walk vq write ptr maxp2 fuel p regend mbi = some (false, qs) →
        ∃ qs1, IsBadMemPtr.walk vq write ptr maxp1 fuel p regend mbi = some (false, qs1)) →
      ∀ (p regend : Nat) (mbi : MEMORY_BASIC_INFORMATION) (queried qs : List Nat),
        IsBadMemPtr.check write maxp2 (IsBadMemPtr.walk vq write ptr maxp2 fuel) p regend mbi
          queried = some (false, qs) →
        ∃ qs1, IsBadMemPtr.check write maxp1 (IsBadMemPtr.walk vq write ptr maxp1 fuel) p regend
          mbi queried = some (false, qs1) := by
    intro fuel ih p regend mbi queried qs h
    unfold IsBadMemPtr.check at h ⊢
    dsimp only at h ⊢
    by_cases c1 : protectOk write mbi.Protect = false
    · rw [if_pos c1] at h; simp at h
    · rw [if_neg c1] at h ⊢
      by_cases c2 : maxp1 ≤ regend
      · exact ⟨_, by rw [if_pos c2]⟩
      · have c3 : ¬ maxp2 ≤ regend := by omega
        have c4 : regend < maxp1 := by omega
        have c5 : regend < maxp2 := by omega
        rw [if_neg c3, if_pos c5, if_pos c5] at h
        rw [if_neg c2, if_pos c4, if_pos c4]
        cases hw : IsBadMemPtr.walk vq write ptr maxp2 fuel regend regend mbi with
        | none => rw [hw] at h; simp at h
        | some r0 =>
          rw [hw] at h
          obtain ⟨b0, q0⟩ := r0
          simp only [Option.map_some', Option.some.injEq, Prod.mk.injEq] at h
          obtain ⟨hb, -⟩ := h
          subst hb
          obtain ⟨qs1, h1⟩ := ih _ _ _ _ hw
          rw [h1]
          exact ⟨_, rfl⟩
  intro fuel
  induction fuel with
  | zero => intro p regend mbi qs h; simp [IsBadMemPtr.walk] at h
  | succ n ih =>
    intro p regend mbi qs h
    rw [IsBadMemPtr.walk] at h ⊢
    split_ifs at h ⊢
    · cases hv : vq p with
      | none => rw [hv] at h; simp at h
      | some info =>
        rw [hv] at h
        exact hcheck n ih _ _ _ _ _ h
    · exact hcheck n ih _ _ _ _ _ h

/-- A range that probes safe still probes safe when shortened, provided the
longer range does not wrap around the address space. -/
theorem IsBadMemPtr_prefix {vq : RegionTable} {pf : Nat} {write : Bool} {ptr size : Nat}
    (h : IsBadMemPtr vq pf write ptr size = some false) (hw : ptr + size < PTR_MOD)
    {size1 : Nat} (hle : size1 ≤ size) : IsBadMemPtr vq pf write ptr size1 = some false := by
  by_cases h0 : size1 = 0
  · simp [IsBadMemPtr, IsBadMemPtrQ, h0]
  have hs : size ≠ 0 := by omega
  by_cases h1 : ptr = 0
  · simp [IsBadMemPtr, IsBadMemPtrQ, hs, h1] at h
  simp only [IsBadMemPtr, IsBadMemPtrQ, hs, h1, h0, if_false, Option.map_eq_some'] at h ⊢
  obtain ⟨r, hr, hb⟩ := h
  obtain ⟨b, qs⟩ := r
  simp only at hb
  subst hb
  rw [Nat.mod_eq_of_lt hw] at hr
  rw [Nat.mod_eq_of_lt (by omega : ptr + size1 < PTR_MOD)]
  obtain ⟨qs1, h1⟩ := walk_prefix vq write ptr (ptr + size1) (ptr + size) (by omega) _ _ _ _ _ hr
  exact ⟨_, h1, rfl⟩

/-! ## The probe is sound for the access check -/

theorem walk_sound {vq : RegionTable} (hloc : Located vq) (huni : Uniform vq) (write : Bool)
    (ptr maxp : Nat) :
    ∀ (fuel p regend : Nat) (mbi : MEMORY_BASIC_INFORMATION) (qs : List Nat),
      (p = ptr ∨ p = regend) →
      IsBadMemPtr.walk vq write ptr maxp fuel p regend mbi = some (false, qs) →
      ∀ b, p ≤ b → b < maxp → byteAccessible vq write b = true := by
  intro fuel
  induction fuel with
  | zero => intro p regend mbi qs _ h; simp [IsBadMemPtr.walk] at h
  | succ n ih =>
    intro p regend mbi qs hq h b hpb hbm
    rw [IsBadMemPtr.walk, if_pos hq] at h
    cases hv : vq p with
    | none => rw [hv] at h; simp at h
    | some info =>
      rw [hv] at h
      obtain ⟨h1, h2, h3⟩ := hloc p info hv
      have hre : (info.BaseAddress + info.RegionSize) % PTR_MOD
          = info.BaseAddress + info.RegionSize := Nat.mod_eq_of_lt h3
      simp only [hre, IsBadMemPtr.check] at h
      by_cases c1 : protectOk write info.Protect = false
      · rw [if_pos c1] at h; simp at h
      · rw [if_neg c1] at h
        have hok : protectOk write info.Protect = true := by simpa using c1
        have hin : ∀ x, p ≤ x → x < info.BaseAddress + info.RegionSize →
            byteAccessible vq write x = true := by
          intro x hx1 hx2
          obtain ⟨m1, hm1, hp1⟩ := huni p info hv x hx1 hx2
          simp [byteAccessible, hm1, hp1, hok]
        by_cases c2 : maxp ≤ info.BaseAddress + info.RegionSize
        · exact hin b hpb (by omega)
        · rw [if_neg c2] at h
          have c3 : info.BaseAddress + info.RegionSize < maxp := by omega
          rw [if_pos c3, if_pos c3] at h
          by_cases hb : b < info.BaseAddress + info.RegionSize
          · exact hin b hpb hb
          · cases hw : IsBadMemPtr.walk vq write ptr maxp n (info.BaseAddress + info.RegionSize)
                (info.BaseAddress + info.RegionSize) info with
            | none => rw [hw] at h; simp at h
            | some r0 =>
              rw [hw] at h
              obtain ⟨b0, q0⟩ := r0
              simp only [Option.map_some', Option.some.injEq, Prod.mk.injEq] at h
              obtain ⟨hb0, -⟩ := h
              subst hb0
              exact ih _ _ _ _ (Or.inr rfl) hw b (by omega) hbm

/-- On a located and uniform region table, a pointer-sized word that probes
safe in a mode can be accessed in that mode, provided the word does not wrap
around the address space. -/
theorem accessible_of_probe {vq : RegionTable} (hloc : Located vq) (huni : Uniform vq)
    {write : Bool} {a : Nat} (h : ProbeSafe vq write a PTR_SIZE) (hw : a + PTR_SIZE < PTR_MOD) :
    accessible vq write a = true := by
  obtain ⟨pf, hpf⟩ := h
  have h8 : PTR_SIZE ≠ 0 := by decide
  by_cases h1 : a = 0
  · simp [IsBadMemPtr, IsBadMemPtrQ, h8, h1] at hpf
  simp only [IsBadMemPtr, IsBadMemPtrQ, h8, h1, if_false, Option.map_eq_some'] at hpf
  obtain ⟨r, hr, hb⟩ := hpf
  obtain ⟨b0, qs⟩ := r
  simp only at hb
  subst hb
  rw [Nat.mod_eq_of_lt hw] at hr
  simp only [accessible, List.all_eq_true, List.mem_range]
  intro k hk
  have hk1 : (a + k) % PTR_MOD = a + k := Nat.mod_eq_of_lt (by omega)
  rw [hk1]
  exact walk_sound hloc huni write a (a + PTR_SIZE) _ _ _ _ _ (Or.inl rfl) hr (a + k) (by omega)
    (by omega)

/-! ## The scanner: fuel -/

theorem follow_mono {vq : RegionTable} {pf pf1 : Nat} (hpf : pf ≤ pf1)
    {recurse recurse1 : Nat → State → Option State}
    (hrec : ∀ v s s1, recurse v s = some s1 → recurse1 v s = some s1)
    {level : Nat} {depth : Int} {v : Nat} {st st1 : State}
    (h : follow vq pf recurse level depth v st = some st1) :
    follow vq pf1 recurse1 level depth v st = some st1 := by
  unfold follow at h ⊢
  by_cases hd : depth > 0
  · rw [if_pos hd] at h ⊢
    cases hp : IsBadMemPtr vq pf false v PTR_SIZE with
    | none => rw [hp] at h; simp at h
    | some bad =>
      rw [hp] at h
      rw [IsBadMemPtr_mono hp hpf]
      dsimp only at h ⊢
      cases bad with
      | true => exact h
      | false =>
        simp only [Bool.false_eq_true, if_false] at h ⊢
        exact hrec _ _ _ h
  · rw [if_neg hd] at h ⊢
    exact h

theorem scanLoop_mono {vq : RegionTable} {pf pf1 : Nat} (hpf : pf ≤ pf1)
    {recurse recurse1 : Nat → State → Option State}
    (hrec : ∀ v s s1, recurse v s = some s1 → recurse1 v s = some s1)
    (level scan_start os oe ns : Nat) (depth : Int) (skip_length scan_size : Nat) :
    ∀ (fuel fuel1 : Nat), fuel ≤ fuel1 → ∀ (i : Nat) (st st1 : State),
      scanLoop vq pf recurse level scan_start os oe ns depth skip_length scan_size fuel i st
        = some st1 →
      scanLoop vq pf1 recurse1 level scan_start os oe ns depth skip_length scan_size fuel1 i st
        = some st1 := by
  intro fuel
  induction fuel with
  | zero => intro _ _ i st st1 h; simp [scanLoop] at h
  | succ n ih =>
    intro fuel1 hle i st st1 h
    obtain ⟨m, rfl⟩ : ∃ m, fuel1 = m + 1 := ⟨fuel1 - 1, by omega⟩
    rw [scanLoop] at h ⊢
    by_cases c0 : i < scan_size
    · rw [if_pos c0] at h ⊢
      dsimp only at h ⊢
      cases hp : IsBadMemPtr vq pf false (ptrAddInt32 scan_start i) PTR_SIZE with
      | none => rw [hp] at h; simp at h
      | some bad =>
        rw [hp] at h
        rw [IsBadMemPtr_mono hp hpf]
        dsimp only at h ⊢
        cases bad with
        | true =>
          simp only [↓reduceIte] at h ⊢
          exact h
        | false =>
          simp only [Bool.false_eq_true, ↓reduceIte] at h ⊢
          by_cases c1 : accessible vq false (ptrAddInt32 scan_start i) = false
          · rw [if_pos c1] at h ⊢; exact h
          · rw [if_neg c1] at h ⊢
            split_ifs at h ⊢ with c2 c3
            · exact h
            · revert h
              split
              · intro h; simp at h
              · next st5 hf =>
                intro h
                rw [follow_mono hpf hrec hf]
                exact ih m (by omega) _ _ _ h
            · revert h
              split
              · intro h; simp at h
              · next st5 hf =>
                intro h
                rw [follow_mono hpf hrec hf]
                exact ih m (by omega) _ _ _ h
    · rw [if_neg c0] at h ⊢
      exact h

theorem detail_mono {vq : RegionTable} {pf pf1 : Nat} (hpf : pf ≤ pf1)
    (os oe ns skip_length : Nat) :
    ∀ (fuel fuel1 : Nat), fuel ≤ fuel1 →
      ∀ (level scan_start : Nat) (depth : Int) (scan_size : Nat) (st st1 : State),
      detail.relocate_pointers vq pf fuel level scan_start os oe ns depth skip_length scan_size st
        = some st1 →
      detail.relocate_pointers vq pf1 fuel1 level scan_start os oe ns depth skip_length scan_size
        st = some st1 := by
  intro fuel
  induction fuel with
  | zero => intro _ _ level scan_start depth scan_size st st1 h; simp [detail.relocate_pointers] at h
  | succ n ih =>
    intro fuel1 hle level scan_start depth scan_size st st1 h
    obtain ⟨m, rfl⟩ : ∃ m, fuel1 = m + 1 := ⟨fuel1 - 1, by omega⟩
    rw [detail.relocate_pointers] at h ⊢
    dsimp only at h ⊢
    by_cases c0 : scan_start ∈ (st.log (.enter level scan_start)).seen
    · rw [if_pos c0] at h ⊢; exact h
    · rw [if_neg c0] at h ⊢
      cases hp : IsBadMemPtr vq pf false scan_start skip_length with
      | none => rw [hp] at h; simp at h
      | some bad =>
        rw [hp] at h
        rw [IsBadMemPtr_mono hp hpf]
        dsimp only at h ⊢
        cases bad with
        | true =>
          simp only [↓reduceIte] at h ⊢
          exact h
        | false =>
          simp only [Bool.false_eq_true, ↓reduceIte] at h ⊢
          exact scanLoop_mono hpf (fun v s s1 hv => ih m (by omega) _ _ _ _ _ _ hv) _ _ _ _ _ _ _
            _ n m (by omega) _ _ _ h

/-! ## The scanner returns -/

theorem follow_terminates {vq : RegionTable} {pf : Nat}
    (hprobe : ∀ a n, ∃ b, IsBadMemPtr vq pf false a n = some b)
    {recurse : Nat → State → Option State} {depth : Int}
    (hrec : 0 < depth → ∀ v s, ∃ s1, recurse v s = some s1) (level v : Nat) (st : State) :
    ∃ s1, follow vq pf recurse level depth v st = some s1 := by
  unfold follow
  by_cases hd : depth > 0
  · rw [if_pos hd]
    obtain ⟨b, hb⟩ := hprobe v PTR_SIZE
    rw [hb]
    dsimp only
    cases b with
    | true =>
      simp only [↓reduceIte]
      exact ⟨_, rfl⟩
    | false =>
      simp only [Bool.false_eq_true, ↓reduceIte]
      exact hrec hd _ _
  · rw [if_neg hd]
    exact ⟨_, rfl⟩

theorem scanLoop_terminates {vq : RegionTable} {pf : Nat}
    (hprobe : ∀ a n, ∃ b, IsBadMemPtr vq pf false a n = some b)
    (recurse : Nat → State → Option State) (depth : Int)
    (hrec : 0 < depth → ∀ v s, ∃ s1, recurse v s = some s1)
    (level scan_start os oe ns skip_length scan_size : Nat) :
    ∀ (n i : Nat) (st : State), scan_size ≤ i + n * skip_length →
      i + n * skip_length < U32_MOD →
      ∃ st1, scanLoop vq pf recurse level scan_start os oe ns depth skip_length scan_size
        (n + 1) i st = some st1 := by
  intro n
  induction n with
  | zero =>
    intro i st h1 _
    rw [scanLoop, if_neg (by omega)]
    exact ⟨_, rfl⟩
  | succ m ih =>
    intro i st h1 h2
    have hmul : (m + 1) * skip_length = m * skip_length + skip_length := by ring
    rw [scanLoop]
    by_cases c0 : i < scan_size
    · rw [if_pos c0]
      dsimp only
      obtain ⟨b, hb⟩ := hprobe (ptrAddInt32 scan_start i) PTR_SIZE
      rw [hb]
      dsimp only
      have hnext : (i + skip_length) % U32_MOD = i + skip_length :=
        Nat.mod_eq_of_lt (by omega)
      rw [hnext]
      cases b with
      | true =>
      simp only [↓reduceIte]
      exact ⟨_, rfl⟩
      | false =>
        simp only [Bool.false_eq_true, ↓reduceIte]
        by_cases c1 : accessible vq false (ptrAddInt32 scan_start i) = false
        · rw [if_pos c1]; exact ⟨_, rfl⟩
        · rw [if_neg c1]
          split_ifs with c2 c3
          · exact ⟨_, rfl⟩
          · obtain ⟨st5, h5⟩ := follow_terminates hprobe hrec level
              (load64 ((st.log (.probe level false (ptrAddInt32 scan_start i) PTR_SIZE false)).see
                (ptrAddInt32 scan_start i)).mem (ptrAddInt32 scan_start i))
              (((((st.log (.probe level false (ptrAddInt32 scan_start i) PTR_SIZE false)).see
                (ptrAddInt32 scan_start i)).log (.load level (ptrAddInt32 scan_start i)
                (load64 ((st.log (.probe level false (ptrAddInt32 scan_start i) PTR_SIZE
                  false)).see (ptrAddInt32 scan_start i)).mem (ptrAddInt32 scan_start i)))).write
                (ptrAddInt32 scan_start i) (translate os ns
                (load64 ((st.log (.probe level false (ptrAddInt32 scan_start i) PTR_SIZE
                  false)).see (ptrAddInt32 scan_start i)).mem (ptrAddInt32 scan_start i)))).log
                (.store level (ptrAddInt32 scan_start i) (translate os ns
                (load64 ((st.log (.probe level false (ptrAddInt32 scan_start i) PTR_SIZE
                  false)).see (ptrAddInt32 scan_start i)).mem (ptrAddInt32 scan_start i)))))
            rw [h5]
            exact ih _ _ (by omega) (by omega)
          · obtain ⟨st5, h5⟩ := follow_terminates hprobe hrec level
              (load64 ((st.log (.probe level false (ptrAddInt32 scan_start i) PTR_SIZE false)).see
                (ptrAddInt32 scan_start i)).mem (ptrAddInt32 scan_start i))
              (((st.log (.probe level false (ptrAddInt32 scan_start i) PTR_SIZE false)).see
                (ptrAddInt32 scan_start i)).log (.load level (ptrAddInt32 scan_start i)
                (load64 ((st.log (.probe level false (ptrAddInt32 scan_start i) PTR_SIZE
                  false)).see (ptrAddInt32 scan_start i)).mem (ptrAddInt32 scan_start i))))
            rw [h5]
            exact ih _ _ (by omega) (by omega)
    · rw [if_neg c0]
      exact ⟨_, rfl⟩

/-- A window and a stride for which the counter reaches the window without
wrapping: some multiple of the stride is at least the window and below `2^32`. -/
theorem window_reached (skip_length scan_size : Nat) (hs : 0 < skip_length)
    (hw : scan_size + skip_length ≤ U32_MOD) :
    ∃ n, scan_size ≤ 0 + n * skip_length ∧ 0 + n * skip_length < U32_MOD ∧ n + 1 ≤ LOOP_FUEL := by
  refine ⟨(scan_size + skip_length - 1) / skip_length, ?_, ?_, ?_⟩
  · have h1 := Nat.div_add_mod (scan_size + skip_length - 1) skip_length
    have h2 := Nat.mod_lt (scan_size + skip_length - 1) hs
    rw [Nat.mul_comm] at h1
    omega
  · have h1 := Nat.div_mul_le_self (scan_size + skip_length - 1) skip_length
    omega
  · have h1 := Nat.div_le_self (scan_size + skip_length - 1) skip_length
    unfold LOOP_FUEL
    omega

/-- The window of a recursive call is reached by the counter whatever the
stride. -/
theorem recursion_window_reached (skip_length : Nat) (hs : 0 < skip_length)
    (hu : skip_length < U32_MOD) :
    ∃ n, 0x1000 ≤ 0 + n * skip_length ∧ 0 + n * skip_length < U32_MOD ∧ n + 1 ≤ LOOP_FUEL := by
  by_cases h : 0x1000 ≤ skip_length
  · exact ⟨1, by omega, by omega, by unfold LOOP_FUEL U32_MOD; omega⟩
  · exact window_reached skip_length 0x1000 hs (by unfold U32_MOD at *; omega)

theorem detail_terminates {vq : RegionTable} {pf : Nat}
    (hprobe : ∀ a n, ∃ b, IsBadMemPtr vq pf false a n = some b)
    (os oe ns skip_length : Nat) (hs : 0 < skip_length) (hu : skip_length < U32_MOD) :
    ∀ (d : Nat) (fuel : Nat), LOOP_FUEL + d + 1 ≤ fuel → ∀ (depth : Int), depth ≤ d →
      ∀ (level scan_start scan_size : Nat) (st : State),
      (∃ n, scan_size ≤ 0 + n * skip_length ∧ 0 + n * skip_length < U32_MOD ∧
        n + 1 ≤ LOOP_FUEL) →
      ∃ st1, detail.relocate_pointers vq pf fuel level scan_start os oe ns depth skip_length
        scan_size st = some st1 := by
  intro d
  induction d with
  | zero =>
    intro fuel hf depth hd level scan_start scan_size st hn
    obtain ⟨m, rfl⟩ : ∃ m, fuel = m + 1 := ⟨fuel - 1, by omega⟩
    obtain ⟨n, hn1, hn2, hn3⟩ := hn
    rw [detail.relocate_pointers]
    dsimp only
    split_ifs with c0
    · exact ⟨_, rfl⟩
    · obtain ⟨b, hb⟩ := hprobe scan_start skip_length
      rw [hb]
      dsimp only
      cases b with
      | true =>
        simp only [↓reduceIte]
        exact ⟨_, rfl⟩
      | false =>
        simp only [Bool.false_eq_true, ↓reduceIte]
        obtain ⟨st1, h1⟩ := scanLoop_terminates hprobe
          (fun v s => detail.relocate_pointers vq pf m (level + 1) v os oe ns
            (depth - 1) skip_length 0x1000 s)
          depth (fun hpos => absurd hpos (by omega)) level scan_start os oe ns
          skip_length scan_size n 0
          (((st.log (.enter level scan_start)).see scan_start).log
            (.probe level false scan_start skip_length false)) hn1 hn2
        exact ⟨st1, scanLoop_mono (le_refl pf) (fun _ _ _ hv => hv) _ _ _ _ _ _ _ _ _ m
          (by omega) _ _ _ h1⟩
  | succ d ih =>
    intro fuel hf depth hd level scan_start scan_size st hn
    obtain ⟨m, rfl⟩ : ∃ m, fuel = m + 1 := ⟨fuel - 1, by omega⟩
    obtain ⟨n, hn1, hn2, hn3⟩ := hn
    rw [detail.relocate_pointers]
    dsimp only
    split_ifs with c0
    · exact ⟨_, rfl⟩
    · obtain ⟨b, hb⟩ := hprobe scan_start skip_length
      rw [hb]
      dsimp only
      cases b with
      | true =>
        simp only [↓reduceIte]
        exact ⟨_, rfl⟩
      | false =>
        simp only [Bool.false_eq_true, ↓reduceIte]
        obtain ⟨st1, h1⟩ := scanLoop_terminates hprobe
          (fun v s => detail.relocate_pointers vq pf m (level + 1) v os oe ns
            (depth - 1) skip_length 0x1000 s)
          depth
          (fun _ v s => ih m (by omega) (depth - 1) (by omega) (level + 1) v 0x1000 s
            (recursion_window_reached skip_length hs hu))
          level scan_start os oe ns skip_length scan_size n 0
          (((st.log (.enter level scan_start)).see scan_start).log
            (.probe level false scan_start skip_length false)) hn1 hn2
        exact ⟨st1, scanLoop_mono (le_refl pf) (fun _ _ _ hv => hv) _ _ _ _ _ _ _ _ _ m
          (by omega) _ _ _ h1⟩

/-! ## Recursion is bounded by the depth budget -/

theorem levelRel_closed (vq : RegionTable) (pf os oe ns : Nat) :
    ScanClosed vq pf os oe ns LevelRel where
  refl := fun _ _ s => ⟨[], by simp⟩
  trans := by
    rintro l d a b c ⟨e1, ht1, h1⟩ ⟨e2, ht2, h2⟩
    refine ⟨e2 ++ e1, by simp [ht2, ht1], ?_⟩
    intro e he
    rcases List.mem_append.mp he with h | h
    · exact h2 e h
    · exact h1 e h
  call := by
    rintro l d s s1 hd ⟨evs, ht, h⟩
    refine ⟨evs, ht, fun e he => ?_⟩
    have := h e he
    omega
  enterSeen := fun l d s x _ => ⟨[.enter l x], by simp [State.log, Event.level]⟩
  enterProbe := fun l d s x n b _ _ => ⟨[.probe l false x n b, .enter l x], by
    simp [State.log, State.see, Event.level]⟩
  probeBad := fun l d s a _ _ => ⟨[.probe l false a PTR_SIZE true], by
    simp [State.log, Event.level]⟩
  readFault := fun l d s a _ _ _ => ⟨[.fault l false a, .probe l false a PTR_SIZE false], by
    simp [State.log, State.see, Event.level]⟩
  loadOnly := fun l d s a _ _ _ _ =>
    ⟨[.load l a (load64 s.mem a), .probe l false a PTR_SIZE false], by
      simp [State.log, State.see, Event.level]⟩
  writeFault := fun l d s a _ _ _ _ _ =>
    ⟨[.fault l true a, .load l a (load64 s.mem a), .probe l false a PTR_SIZE false], by
      simp [State.log, State.see, Event.level]⟩
  loadStore := fun l d s a _ _ _ _ _ =>
    ⟨[.store l a (translate os ns (load64 s.mem a)), .load l a (load64 s.mem a),
      .probe l false a PTR_SIZE false], by
      simp [State.log, State.see, State.write, Event.level]⟩
  followProbe := fun l d s v b _ _ => ⟨[.probe l false v PTR_SIZE b], by
    simp [State.log, Event.level]⟩

/-- With a positive stride and a window the counter reaches without wrapping,
the public entry point returns normally on every located region table, given
enough fuel. -/
theorem relocate_pointers_terminates_of_reached {vq : RegionTable} (hloc : Located vq)
    (scan_start os oe ns : Nat) (depth : Int) (skip_length scan_size : Nat) (mem : Mem)
    (hs : 0 < skip_length) (hu : skip_length < U32_MOD)
    (hreach : ∃ n, scan_size ≤ 0 + n * skip_length ∧ 0 + n * skip_length < U32_MOD ∧
      n + 1 ≤ LOOP_FUEL) :
    ∃ fuel r, relocate_pointers vq fuel scan_start os oe ns depth skip_length scan_size mem
      = some r ∧ r.completion = Completion.returned := by
  have hs0 : skip_length ≠ 0 := by omega
  obtain ⟨st, hst⟩ := detail_terminates
    (fun a n => IsBadMemPtr_terminates hloc false a n (PTR_MOD + LOOP_FUEL + depth.toNat + 1)
      (by omega))
    os oe ns skip_length hs hu depth.toNat (PTR_MOD + LOOP_FUEL + depth.toNat + 1)
    (by omega) depth (by omega) 0 scan_start scan_size ⟨mem, [], []⟩ hreach
  exact ⟨PTR_MOD + LOOP_FUEL + depth.toNat + 1, ⟨Completion.returned, st.mem, st.trace⟩,
    by simp [relocate_pointers, hs0, hst], rfl⟩

theorem relocate_pointers_terminates {vq : RegionTable} (hloc : Located vq)
    (scan_start os oe ns : Nat) (depth : Int) (skip_length scan_size : Nat) (mem : Mem)
    (hs : 0 < skip_length) (hu : skip_length < U32_MOD)
    (hw : scan_size + skip_length ≤ U32_MOD) :
    ∃ fuel r, relocate_pointers vq fuel scan_start os oe ns depth skip_length scan_size mem
      = some r ∧ r.completion = Completion.returned :=
  relocate_pointers_terminates_of_reached hloc scan_start os oe ns depth skip_length scan_size
    mem hs hu (window_reached skip_length scan_size hs hw)

theorem located_scenarioTable : Located scenarioTable := by
  intro a m h
  unfold scenarioTable at h
  split at h
  · cases h
    simp only [PTR_MOD]
    omega
  · cases h

/-- C7: on a located region table (each successful query answers with a
non-empty region that holds the queried address and ends inside the address
space), for every memory, cyclic or not, every depth budget, every stride above
zero and every window with `window_size + stride ≤ 2^31`, the call returns
normally with enough fuel, and whenever it returns every step of its record was
made at a nesting level of at most `max(depth, 0)`: recursive scans never nest
deeper than the depth budget below the top-level invocation. -/
theorem cycles_never_recurse_unboundedly (vq : RegionTable) (hloc : Located vq)
    (scan_start old_start old_end new_start : Nat) (depth : Int)
    (skip_length scan_size : Nat) (mem : Mem)
    (hs : 0 < skip_length) (hw : scan_size + skip_length ≤ 2 ^ 31) :
    (∃ fuel r, relocate_pointers vq fuel scan_start old_start old_end new_start depth
        skip_length scan_size mem = some r ∧ r.completion = Completion.returned) ∧
    (∀ fuel r, relocate_pointers vq fuel scan_start old_start old_end new_start depth
        skip_length scan_size mem = some r → ∀ e ∈ r.trace, e.level ≤ depth.toNat) := by
  refine ⟨relocate_pointers_terminates hloc _ _ _ _ _ _ _ _ hs (by unfold U32_MOD; omega)
    (by unfold U32_MOD; omega), ?_⟩
  intro fuel r h e he
  obtain ⟨st, hst, hr⟩ := relocate_pointers_returned (by omega) h
  obtain ⟨evs, ht, hl⟩ := detail_closed (levelRel_closed vq fuel old_start old_end new_start)
    skip_length fuel 0 scan_start depth scan_size _ _ hst
  subst hr
  simp only [List.append_nil] at ht
  simp only [ht] at he
  have := hl e he
  omega

theorem cycles_never_recurse_unboundedly_witness :
    (Located scenarioTable ∧ 0 < 8 ∧ 16 + 8 ≤ 2 ^ 31) ∧
    ((∃ fuel r, relocate_pointers scenarioTable fuel 0x2000 0x1000 0x1100 0x5000 3 8 16
        (store64 (wordAt 0x2000 0x2008) 0x2008 0x2000) = some r ∧
        r.completion = Completion.returned) ∧
    (∀ fuel r, relocate_pointers scenarioTable fuel 0x2000 0x1000 0x1100 0x5000 3 8 16
        (store64 (wordAt 0x2000 0x2008) 0x2008 0x2000) = some r →
        ∀ e ∈ r.trace, e.level ≤ (3 : Int).toNat)) :=
  ⟨⟨located_scenarioTable, by decide, by decide⟩,
    cycles_never_recurse_unboundedly scenarioTable located_scenarioTable 0x2000 0x1000 0x1100
      0x5000 3 8 16 (store64 (wordAt 0x2000 0x2008) 0x2008 0x2000) (by decide) (by decide)⟩

/-! ## The flat scan -/

theorem ptrAddInt32_small (p i : Nat) (hi : i < 2 ^ 31) : ptrAddInt32 p i = (p + i) % PTR_MOD := by
  unfold ptrAddInt32
  rw [if_pos hi]

theorem wordsOverlap_ptrAdd (p c1 c2 : Nat) (h : c1 + 8 ≤ c2) (h2 : c2 < 2 ^ 31) :
    wordsOverlap (ptrAddInt32 p c1) (ptrAddInt32 p c2) = false ∧
      wordsOverlap (ptrAddInt32 p c2) (ptrAddInt32 p c1) = false := by
  rw [ptrAddInt32_small p c1 (by omega), ptrAddInt32_small p c2 h2]
  simp only [wordsOverlap, decide_eq_false_iff_not, not_or, not_lt, PTR_SIZE, byteOffset, PTR_MOD]
  omega

theorem follow_flat (vq : RegionTable) (pf : Nat) (recurse : Nat → State → Option State)
    (level : Nat) {depth : Int} (hd : depth ≤ 0) (v : Nat) (st : State) :
    follow vq pf recurse level depth v st = some st := by
  unfold follow
  rw [if_neg (by omega)]

theorem counter_next (skip_length scan_size m : Nat) (hu : skip_length < U32_MOD)
    (hw : scan_size ≤ 2 ^ 31) (hm : m * skip_length < scan_size) :
    (m * skip_length + skip_length) % U32_MOD = (m + 1) * skip_length := by
  have hmul : (m + 1) * skip_length = m * skip_length + skip_length := by ring
  rw [hmul]
  apply Nat.mod_eq_of_lt
  cases m with
  | zero => simpa using hu
  | succ k =>
    have : skip_length ≤ (k + 1) * skip_length := Nat.le_mul_of_pos_left _ (by omega)
    unfold U32_MOD
    omega

/-- In a flat scan (`depth ≤ 0`) the loop from counter `m * skip_length` on
leaves every word untouched that shares no byte with a word the counter still
has to visit. -/
theorem flat_frame {vq : RegionTable} {pf : Nat} {recurse : Nat → State → Option State}
    {level scan_start os oe ns : Nat} {depth : Int} {skip_length scan_size : Nat}
    (hd : depth ≤ 0) (hu : skip_length < U32_MOD) (hw : scan_size ≤ 2 ^ 31) (x : Nat) :
    ∀ (fuel m : Nat) (st st1 : State),
      scanLoop vq pf recurse level scan_start os oe ns depth skip_length scan_size fuel
        (m * skip_length) st = some st1 →
      (∀ n, m ≤ n → n * skip_length < scan_size →
        wordsOverlap x (ptrAddInt32 scan_start (n * skip_length)) = false) →
      load64 st1.mem x = load64 st.mem x := by
  intro fuel
  induction fuel with
  | zero => intro m st st1 h; simp [scanLoop] at h
  | succ f ih =>
    intro m st st1 h hov
    rw [scanLoop] at h
    by_cases c0 : m * skip_length < scan_size
    · rw [if_pos c0] at h
      dsimp only at h
      have hx := hov m (le_refl m) c0
      have hov1 : ∀ n, m + 1 ≤ n → n * skip_length < scan_size →
          wordsOverlap x (ptrAddInt32 scan_start (n * skip_length)) = false :=
        fun n hn hlt => hov n (by omega) hlt
      rw [counter_next skip_length scan_size m hu hw c0] at h
      cases hp : IsBadMemPtr vq pf false (ptrAddInt32 scan_start (m * skip_length)) PTR_SIZE with
      | none => rw [hp] at h; simp at h
      | some bad =>
        rw [hp] at h
        dsimp only at h
        cases bad with
        | true =>
          simp only [↓reduceIte, Option.some.injEq] at h
          subst h
          rfl
        | false =>
          simp only [Bool.false_eq_true, ↓reduceIte] at h
          by_cases c1 : accessible vq false (ptrAddInt32 scan_start (m * skip_length)) = false
          · rw [if_pos c1] at h
            simp only [Option.some.injEq] at h
            subst h
            rfl
          · rw [if_neg c1] at h
            split_ifs at h with c2 c3
            · simp only [Option.some.injEq] at h
              subst h
              rfl
            · rw [follow_flat vq pf recurse level hd] at h
              dsimp only at h
              rw [ih (m + 1) _ _ h hov1]
              exact load64_store64_other _ _ _ _ hx
            · rw [follow_flat vq pf recurse level hd] at h
              dsimp only at h
              rw [ih (m + 1) _ _ h hov1]
              rfl
    · rw [if_neg c0] at h
      simp only [Option.some.injEq] at h
      subst h
      rfl

/-- The value the flat scan leaves in a word that held `v`. -/
theorem flat_target {vq : RegionTable} {pf : Nat} {recurse : Nat → State → Option State}
    {level scan_start os oe ns : Nat} {depth : Int} {skip_length scan_size : Nat}
    (hd : depth ≤ 0) (h8 : 8 ≤ skip_length) (hu : skip_length < U32_MOD)
    (hw : scan_size ≤ 2 ^ 31) (k : Nat) (hk : k * skip_length < scan_size)
    (hsafe : ∀ n, n ≤ k →
      ProbeSafe vq false (ptrAddInt32 scan_start (n * skip_length)) PTR_SIZE ∧
      accessible vq false (ptrAddInt32 scan_start (n * skip_length)) = true ∧
      accessible vq true (ptrAddInt32 scan_start (n * skip_length)) = true) :
    ∀ (fuel m : Nat) (st st1 : State), m ≤ k →
      scanLoop vq pf recurse level scan_start os oe ns depth skip_length scan_size fuel
        (m * skip_length) st = some st1 →
      load64 st1.mem (ptrAddInt32 scan_start (k * skip_length)) =
        if inOldRange os oe (load64 st.mem (ptrAddInt32 scan_start (k * skip_length))) = true then
          translate os ns (load64 st.mem (ptrAddInt32 scan_start (k * skip_length)))
        else load64 st.mem (ptrAddInt32 scan_start (k * skip_length)) := by
  have hsep : ∀ n1 n2, n1 < n2 → n2 * skip_length < scan_size →
      n1 * skip_length + 8 ≤ n2 * skip_length ∧ n2 * skip_length < 2 ^ 31 := by
    intro n1 n2 hlt h2
    have h1 : (n1 + 1) * skip_length ≤ n2 * skip_length := Nat.mul_le_mul_right _ (by omega)
    have hmul : (n1 + 1) * skip_length = n1 * skip_length + skip_length := by ring
    omega
  intro fuel
  induction fuel with
  | zero => intro m st st1 _ h; simp [scanLoop] at h
  | succ f ih =>
    intro m st st1 hmk h
    have c0 : m * skip_length < scan_size := by
      have : m * skip_length ≤ k * skip_length := Nat.mul_le_mul_right _ hmk
      omega
    obtain ⟨⟨pf1, hs1⟩, hs2, hs3⟩ := hsafe m hmk
    rw [scanLoop, if_pos c0] at h
    dsimp only at h
    rw [counter_next skip_length scan_size m hu hw c0] at h
    cases hp : IsBadMemPtr vq pf false (ptrAddInt32 scan_start (m * skip_length)) PTR_SIZE with
    | none => rw [hp] at h; simp at h
    | some bad =>
      have hbad : bad = false := IsBadMemPtr_det hp hs1
      subst hbad
      rw [hp] at h
      simp only [Bool.false_eq_true, ↓reduceIte, hs2, hs3, Bool.true_eq_false] at h
      rw [follow_flat vq pf recurse level hd, follow_flat vq pf recurse level hd] at h
      dsimp only at h
      rcases Nat.lt_or_ge m k with hlt | hge
      · -- the word at the target is still ahead
        obtain ⟨hs8, hs31⟩ := hsep m k hlt hk
        have hno := (wordsOverlap_ptrAdd scan_start _ _ hs8 hs31).2
        split_ifs at h with c2
        · rw [ih (m + 1) _ _ (by omega) h]
          simp only [State.log, State.write, State.see]
          rw [load64_store64_other _ _ _ _ hno]
        · rw [ih (m + 1) _ _ (by omega) h]
          rfl
      · -- the counter is at the target
        have hmk1 : m = k := by omega
        subst hmk1
        have hfr : ∀ n, m + 1 ≤ n → n * skip_length < scan_size →
            wordsOverlap (ptrAddInt32 scan_start (m * skip_length))
              (ptrAddInt32 scan_start (n * skip_length)) = false := by
          intro n hn hlt
          obtain ⟨hs8, hs31⟩ := hsep m n (by omega) hlt
          exact (wordsOverlap_ptrAdd scan_start _ _ hs8 hs31).1
        split_ifs at h with c2
        · rw [flat_frame hd hu hw _ f (m + 1) _ _ h hfr]
          simp only [State.log, State.write, State.see] at c2 ⊢
          rw [load64_store64_same, if_pos c2, Nat.mod_eq_of_lt (translate_lt _ _ _)]
        · rw [flat_frame hd hu hw _ f (m + 1) _ _ h hfr]
          simp only [State.log, State.write, State.see] at c2 ⊢
          rw [if_neg c2]

theorem uniform_scenarioTable : Uniform scenarioTable := by
  intro a m h b hab hb
  unfold scenarioTable at h
  split at h
  · cases h
    simp only at hb
    refine ⟨⟨0x2000, 0x10, PAGE_READWRITE⟩, ?_, rfl⟩
    unfold scenarioTable
    rw [if_pos ⟨by omega, by omega⟩]
  · cases h

/-- The entry point run with enough fuel to return reaches the loop of the
top-level invocation when the entry probe reports the start safe. -/
theorem relocate_pointers_enters_loop {vq : RegionTable} {fuel scan_start os oe ns : Nat}
    {depth : Int} {skip_length scan_size : Nat} {mem : Mem} {r : CallResult}
    (hs : skip_length ≠ 0) (hentry : ProbeSafe vq false scan_start skip_length)
    (h : relocate_pointers vq fuel scan_start os oe ns depth skip_length scan_size mem = some r) :
    ∃ f st, fuel = f + 1 ∧
      scanLoop vq fuel
        (fun v s => detail.relocate_pointers vq fuel f 1 v os oe ns (depth - 1) skip_length
          0x1000 s)
        0 scan_start os oe ns depth skip_length scan_size f 0
        ⟨mem, [scan_start],
          [.probe 0 false scan_start skip_length false, .enter 0 scan_start]⟩ = some st ∧
      r = ⟨Completion.returned, st.mem, st.trace⟩ := by
  obtain ⟨st, hst, hr⟩ := relocate_pointers_returned hs h
  cases fuel with
  | zero => simp [detail.relocate_pointers] at hst
  | succ f =>
    rw [detail.relocate_pointers] at hst
    simp only [State.log, List.not_mem_nil, ↓reduceIte, State.see] at hst
    obtain ⟨pf1, hp1⟩ := hentry
    cases hp : IsBadMemPtr vq (f + 1) false scan_start skip_length with
    | none => rw [hp] at hst; simp at hst
    | some bad =>
      have hbad : bad = false := IsBadMemPtr_det hp hp1
      subst hbad
      rw [hp] at hst
      simp only [Bool.false_eq_true, ↓reduceIte] at hst
      exact ⟨f, st, rfl, hst, hr⟩

/-- The value the flat scan leaves in a word, when every word up to it can be
read and those that hold a value of the old range can be written. `mem0` is a
memory that agrees with the state on the words still to be scanned. -/
theorem flat_target_needed {vq : RegionTable} {pf : Nat} {recurse : Nat → State → Option State}
    {level scan_start os oe ns : Nat} {depth : Int} {skip_length scan_size : Nat}
    (hd : depth ≤ 0) (h8 : 8 ≤ skip_length) (hu : skip_length < U32_MOD)
    (hw : scan_size ≤ 2 ^ 31) (mem0 : Mem) (k : Nat) (hk : k * skip_length < scan_size)
    (hsafe : ∀ n, n ≤ k →
      ProbeSafe vq false (ptrAddInt32 scan_start (n * skip_length)) PTR_SIZE ∧
      accessible vq false (ptrAddInt32 scan_start (n * skip_length)) = true ∧
      (inOldRange os oe (load64 mem0 (ptrAddInt32 scan_start (n * skip_length))) = true →
        accessible vq true (ptrAddInt32 scan_start (n * skip_length)) = true)) :
    ∀ (fuel m : Nat) (st st1 : State), m ≤ k →
      (∀ n, m ≤ n → n ≤ k → load64 st.mem (ptrAddInt32 scan_start (n * skip_length))
        = load64 mem0 (ptrAddInt32 scan_start (n * skip_length))) →
      scanLoop vq pf recurse level scan_start os oe ns depth skip_length scan_size fuel
        (m * skip_length) st = some st1 →
      load64 st1.mem (ptrAddInt32 scan_start (k * skip_length)) =
        if inOldRange os oe (load64 mem0 (ptrAddInt32 scan_start (k * skip_length))) = true then
          translate os ns (load64 mem0 (ptrAddInt32 scan_start (k * skip_length)))
        else load64 mem0 (ptrAddInt32 scan_start (k * skip_length)) := by
  have hsep : ∀ n1 n2, n1 < n2 → n2 * skip_length < scan_size →
      n1 * skip_length + 8 ≤ n2 * skip_length ∧ n2 * skip_length < 2 ^ 31 := by
    intro n1 n2 hlt h2
    have h1 : (n1 + 1) * skip_length ≤ n2 * skip_length := Nat.mul_le_mul_right _ (by omega)
    have hmul : (n1 + 1) * skip_length = n1 * skip_length + skip_length := by ring
    omega
  have hkn : ∀ n, n ≤ k → n * skip_length < scan_size := by
    intro n hn
    have : n * skip_length ≤ k * skip_length := Nat.mul_le_mul_right _ hn
    omega
  intro fuel
  induction fuel with
  | zero => intro m st st1 _ _ h; simp [scanLoop] at h
  | succ f ih =>
    intro m st st1 hmk hinv h
    have c0 : m * skip_length < scan_size := hkn m hmk
    obtain ⟨⟨pf1, hs1⟩, hs2, hs3⟩ := hsafe m hmk
    have hv : load64 st.mem (ptrAddInt32 scan_start (m * skip_length))
        = load64 mem0 (ptrAddInt32 scan_start (m * skip_length)) := hinv m (le_refl m) hmk
    rw [scanLoop, if_pos c0] at h
    dsimp only at h
    rw [counter_next skip_length scan_size m hu hw c0] at h
    cases hp : IsBadMemPtr vq pf false (ptrAddInt32 scan_start (m * skip_length)) PTR_SIZE with
    | none => rw [hp] at h; simp at h
    | some bad =>
      have hbad : bad = false := IsBadMemPtr_det hp hs1
      subst hbad
      rw [hp] at h
      have hm1 : ((st.log (.probe level false (ptrAddInt32 scan_start (m * skip_length))
          PTR_SIZE false)).see (ptrAddInt32 scan_start (m * skip_length))).mem = st.mem := rfl
      simp only [Bool.false_eq_true, ↓reduceIte, hs2, Bool.true_eq_false, hm1, hv] at h
      rw [follow_flat vq pf recurse level hd, follow_flat vq pf recurse level hd] at h
      dsimp only at h
      -- the words still ahead after this iteration
      have hinv1 : ∀ (w : Nat) (n : Nat), m + 1 ≤ n → n ≤ k →
          load64 (store64 st.mem (ptrAddInt32 scan_start (m * skip_length)) w)
            (ptrAddInt32 scan_start (n * skip_length))
          = load64 mem0 (ptrAddInt32 scan_start (n * skip_length)) := by
        intro w n hn hnk
        obtain ⟨hs8, hs31⟩ := hsep m n (by omega) (hkn n hnk)
        rw [load64_store64_other _ _ _ _ (wordsOverlap_ptrAdd scan_start _ _ hs8 hs31).2]
        exact hinv n (by omega) hnk
      by_cases c2 : inOldRange os oe (load64 mem0 (ptrAddInt32 scan_start (m * skip_length)))
          = true
      · rw [if_pos c2] at h
        have hacc := hs3 c2
        simp only [hacc, Bool.true_eq_false, ↓reduceIte] at h
        rcases Nat.lt_or_ge m k with hlt | hge
        · refine ih (m + 1) _ _ (by omega) ?_ h
          intro n hn hnk
          simp only [State.log, State.write, State.see]
          exact hinv1 _ n hn hnk
        · have hmk1 : m = k := by omega
          subst hmk1
          have hfr : ∀ n, m + 1 ≤ n → n * skip_length < scan_size →
              wordsOverlap (ptrAddInt32 scan_start (m * skip_length))
                (ptrAddInt32 scan_start (n * skip_length)) = false := by
            intro n hn hlt
            obtain ⟨hs8, hs31⟩ := hsep m n (by omega) hlt
            exact (wordsOverlap_ptrAdd scan_start _ _ hs8 hs31).1
          rw [flat_frame hd hu hw _ f (m + 1) _ _ h hfr]
          simp only [State.log, State.write, State.see]
          rw [load64_store64_same, if_pos c2, Nat.mod_eq_of_lt (translate_lt _ _ _)]
      · rw [if_neg c2] at h
        rcases Nat.lt_or_ge m k with hlt | hge
        · refine ih (m + 1) _ _ (by omega) ?_ h
          intro n hn hnk
          exact hinv n (by omega) hnk
        · have hmk1 : m = k := by omega
          subst hmk1
          have hfr : ∀ n, m + 1 ≤ n → n * skip_length < scan_size →
              wordsOverlap (ptrAddInt32 scan_start (m * skip_length))
                (ptrAddInt32 scan_start (n * skip_length)) = false := by
            intro n hn hlt
            obtain ⟨hs8, hs31⟩ := hsep m n (by omega) hlt
            exact (wordsOverlap_ptrAdd scan_start _ _ hs8 hs31).1
          rw [flat_frame hd hu hw _ f (m + 1) _ _ h hfr, if_neg c2]
          exact hv

theorem located_readonlyFirstTable : Located readonlyFirstTable := by
  intro a m h
  unfold readonlyFirstTable at h
  split at h
  · cases h
    simp only [PTR_MOD]
    omega
  · split at h
    · cases h
      simp only [PTR_MOD]
      omega
    · cases h

theorem uniform_readonlyFirstTable : Uniform readonlyFirstTable := by
  intro a m h b hab hb
  unfold readonlyFirstTable at h
  split at h
  · cases h
    simp only at hb
    refine ⟨⟨0x2000, 8, PAGE_READONLY⟩, ?_, rfl⟩
    unfold readonlyFirstTable
    rw [if_pos ⟨by omega, by omega⟩]
  · split at h
    · cases h
      simp only at hb
      refine ⟨⟨0x2008, 8, PAGE_READWRITE⟩, ?_, rfl⟩
      unfold readonlyFirstTable
      rw [if_neg (by omega), if_pos ⟨by omega, by omega⟩]
    · cases h

/-- In a flat scan with stride at least the size of a pointer, a word of the
window that holds a value outside the old range keeps it, however the scan
ends. -/
theorem flat_target_out {vq : RegionTable} {pf : Nat} {recurse : Nat → State → Option State}
    {level scan_start os oe ns : Nat} {depth : Int} {skip_length scan_size : Nat}
    (hd : depth ≤ 0) (h8 : 8 ≤ skip_length) (hu : skip_length < U32_MOD)
    (hw : scan_size ≤ 2 ^ 31) (k : Nat) (hk : k * skip_length < scan_size) (v0 : Nat)
    (hout : inOldRange os oe v0 = false) :
    ∀ (fuel m : Nat) (st st1 : State), m ≤ k →
      load64 st.mem (ptrAddInt32 scan_start (k * skip_length)) = v0 →
      scanLoop vq pf recurse level scan_start os oe ns depth skip_length scan_size fuel
        (m * skip_length) st = some st1 →
      load64 st1.mem (ptrAddInt32 scan_start (k * skip_length)) = v0 := by
  have hsep : ∀ n1 n2, n1 < n2 → n2 * skip_length < scan_size →
      n1 * skip_length + 8 ≤ n2 * skip_length ∧ n2 * skip_length < 2 ^ 31 := by
    intro n1 n2 hlt h2
    have h1 : (n1 + 1) * skip_length ≤ n2 * skip_length := Nat.mul_le_mul_right _ (by omega)
    have hmul : (n1 + 1) * skip_length = n1 * skip_length + skip_length := by ring
    omega
  intro fuel
  induction fuel with
  | zero => intro m st st1 _ _ h; simp [scanLoop] at h
  | succ f ih =>
    intro m st st1 hmk hv h
    have c0 : m * skip_length < scan_size := by
      have : m * skip_length ≤ k * skip_length := Nat.mul_le_mul_right _ hmk
      omega
    rw [scanLoop, if_pos c0] at h
    dsimp only at h
    rw [counter_next skip_length scan_size m hu hw c0] at h
    cases hp : IsBadMemPtr vq pf false (ptrAddInt32 scan_start (m * skip_length)) PTR_SIZE with
    | none => rw [hp] at h; simp at h
    | some bad =>
      rw [hp] at h
      dsimp only at h
      cases bad with
      | true =>
        simp only [↓reduceIte, Option.some.injEq] at h
        subst h
        exact hv
      | false =>
        simp only [Bool.false_eq_true, ↓reduceIte] at h
        have hm1 : ((st.log (.probe level false (ptrAddInt32 scan_start (m * skip_length))
            PTR_SIZE false)).see (ptrAddInt32 scan_start (m * skip_length))).mem = st.mem := rfl
        rw [hm1] at h
        -- the rest of the loop, from a state that holds `v0` at the target
        have hnext : ∀ s : State, load64 s.mem (ptrAddInt32 scan_start (k * skip_length)) = v0 →
            scanLoop vq pf recurse level scan_start os oe ns depth skip_length scan_size f
              ((m + 1) * skip_length) s = some st1 →
            load64 st1.mem (ptrAddInt32 scan_start (k * skip_length)) = v0 := by
          intro s hs hrun
          rcases Nat.lt_or_ge m k with hlt | hge
          · exact ih (m + 1) s st1 (by omega) hs hrun
          · have hmk1 : m = k := by omega
            subst hmk1
            rw [flat_frame hd hu hw _ f (m + 1) s st1 hrun (fun n hn hlt => by
              obtain ⟨hs8, hs31⟩ := hsep m n (by omega) hlt
              exact (wordsOverlap_ptrAdd scan_start _ _ hs8 hs31).1)]
            exact hs
        by_cases c1 : accessible vq false (ptrAddInt32 scan_start (m * skip_length)) = false
        · rw [if_pos c1] at h
          simp only [Option.some.injEq] at h
          subst h
          exact hv
        · rw [if_neg c1] at h
          by_cases c2 : inOldRange os oe
              (load64 st.mem (ptrAddInt32 scan_start (m * skip_length))) = true
          · rw [if_pos c2] at h
            by_cases c3 : accessible vq true (ptrAddInt32 scan_start (m * skip_length)) = false
            · rw [if_pos c3] at h
              simp only [Option.some.injEq] at h
              subst h
              exact hv
            · rw [if_neg c3, follow_flat vq pf recurse level hd] at h
              dsimp only at h
              have hlt : m < k := by
                rcases Nat.lt_or_ge m k with hlt | hge
                · exact hlt
                · have hmk1 : m = k := by omega
                  subst hmk1
                  rw [hv, hout] at c2
                  cases c2
              obtain ⟨hs8, hs31⟩ := hsep m k hlt hk
              refine hnext _ ?_ h
              simp only [State.log, State.write, State.see]
              rw [load64_store64_other _ _ _ _ (wordsOverlap_ptrAdd scan_start _ _ hs8 hs31).2]
              exact hv
          · rw [if_neg c2, follow_flat vq pf recurse level hd] at h
            dsimp only at h
            refine hnext _ ?_ h
            exact hv

/-- C5 (amended): on a located and uniform region table, for every call with
`depth ≤ 0`, `stride ≥ 8`, `window_size + stride ≤ 2^31`, no wrap-around of the
scanned addresses and `scan_start` read-safe for `stride` bytes, and for every
offset `i = k * stride < window_size` such that every scanned offset `j ≤ i` is
read-safe for 8 bytes and, when the word at offset `i` holds a value of the old
range before the call, every offset `j ≤ i` whose word holds a value of the old
range before the call is also write-safe for 8 bytes: the call returns, and
after it the word at `scan_start + i` equals `new_start + (v - old_start)`
(mod `2^64`) if its initial value `v` lies in `[old_start, old_end)`, and equals
`v` otherwise. -/
theorem flat_scan_rewrites_safe_words (vq : RegionTable) (hloc : Located vq) (huni : Uniform vq)
    (scan_start old_start old_end new_start : Nat) (depth : Int)
    (skip_length scan_size : Nat) (mem : Mem)
    (hd : depth ≤ 0) (h8 : 8 ≤ skip_length) (hw : scan_size + skip_length ≤ 2 ^ 31)
    (hwrap : scan_start + scan_size + skip_length < 2 ^ 64)
    (hentry : ProbeSafe vq false scan_start skip_length)
    (k : Nat) (hk : k * skip_length < scan_size)
    (hsafe : ∀ j, j ≤ k → ProbeSafe vq false (scan_start + j * skip_length) 8 ∧
      (old_start ≤ load64 mem (scan_start + k * skip_length) ∧
          load64 mem (scan_start + k * skip_length) < old_end →
        old_start ≤ load64 mem (scan_start + j * skip_length) ∧
          load64 mem (scan_start + j * skip_length) < old_end →
        ProbeSafe vq true (scan_start + j * skip_length) 8)) :
    (∃ fuel r, relocate_pointers vq fuel scan_start old_start old_end new_start depth skip_length
        scan_size mem = some r) ∧
    (∀ fuel r, relocate_pointers vq fuel scan_start old_start old_end new_start depth skip_length
        scan_size mem = some r →
      load64 r.mem (scan_start + k * skip_length) =
        if old_start ≤ load64 mem (scan_start + k * skip_length) ∧
            load64 mem (scan_start + k * skip_length) < old_end then
          (new_start + (load64 mem (scan_start + k * skip_length) - old_start)) % 2 ^ 64
        else load64 mem (scan_start + k * skip_length)) := by
  constructor
  · obtain ⟨fuel, r, h, -⟩ := relocate_pointers_terminates hloc scan_start old_start old_end
      new_start depth skip_length scan_size mem (by omega) (by unfold U32_MOD; omega)
      (by unfold U32_MOD; omega)
    exact ⟨fuel, r, h⟩
  · intro fuel r h
    obtain ⟨f, st, -, hst, hr⟩ := relocate_pointers_enters_loop (by omega) hentry h
    have haddr : ∀ j, j ≤ k → ptrAddInt32 scan_start (j * skip_length)
        = scan_start + j * skip_length := by
      intro j hj
      have : j * skip_length ≤ k * skip_length := Nat.mul_le_mul_right _ hj
      rw [ptrAddInt32_small _ _ (by omega)]
      exact Nat.mod_eq_of_lt (by unfold PTR_MOD; omega)
    have h0 : (0 : Nat) = 0 * skip_length := by simp
    rw [h0] at hst
    subst hr
    by_cases hin : old_start ≤ load64 mem (scan_start + k * skip_length) ∧
        load64 mem (scan_start + k * skip_length) < old_end
    · have hs : ∀ n, n ≤ k →
          ProbeSafe vq false (ptrAddInt32 scan_start (n * skip_length)) PTR_SIZE ∧
          accessible vq false (ptrAddInt32 scan_start (n * skip_length)) = true ∧
          (inOldRange old_start old_end
              (load64 mem (ptrAddInt32 scan_start (n * skip_length))) = true →
            accessible vq true (ptrAddInt32 scan_start (n * skip_length)) = true) := by
        intro n hn
        have : n * skip_length ≤ k * skip_length := Nat.mul_le_mul_right _ hn
        rw [haddr n hn]
        obtain ⟨h1, h2⟩ := hsafe n hn
        refine ⟨h1, accessible_of_probe hloc huni h1 (by unfold PTR_MOD PTR_SIZE; omega), ?_⟩
        intro hjin
        simp only [inOldRange, decide_eq_true_eq] at hjin
        exact accessible_of_probe hloc huni (h2 hin hjin) (by unfold PTR_MOD PTR_SIZE; omega)
      have key := flat_target_needed hd h8 (by unfold U32_MOD; omega) (by omega) mem k hk hs f
        0 _ _ (Nat.zero_le k) (fun _ _ _ => rfl) hst
      rw [haddr k (le_refl k)] at key
      simp only [key, inOldRange, decide_eq_true_eq, translate, PTR_MOD]
    · have hout : inOldRange old_start old_end (load64 mem (scan_start + k * skip_length))
          = false := by
        simpa [inOldRange] using hin
      have key := flat_target_out hd h8 (by unfold U32_MOD; omega) (by omega) k hk _ hout f 0
        _ _ (Nat.zero_le k) (by rw [haddr k (le_refl k)]) hst
      rw [haddr k (le_refl k)] at key
      rw [if_neg hin]
      exact key

theorem flat_scan_rewrites_safe_words_witness :
    (Located readonlyFirstTable ∧ Uniform readonlyFirstTable ∧ (0 : Int) ≤ 0 ∧ 8 ≤ 8 ∧
      16 + 8 ≤ 2 ^ 31 ∧ 0x2000 + 16 + 8 < 2 ^ 64 ∧
      ProbeSafe readonlyFirstTable false 0x2000 8 ∧ 1 * 8 < 16 ∧
      (ProbeSafe readonlyFirstTable false (0x2000 + 0 * 8) 8 ∧
        ¬ (0x1000 ≤ load64 readonlyFirstMem (0x2000 + 0 * 8) ∧
          load64 readonlyFirstMem (0x2000 + 0 * 8) < 0x1100) ∧
        IsBadMemPtr readonlyFirstTable 2 true (0x2000 + 0 * 8) 8 = some true) ∧
      ProbeSafe readonlyFirstTable false (0x2000 + 1 * 8) 8 ∧
      ProbeSafe readonlyFirstTable true (0x2000 + 1 * 8) 8) ∧
    ((∃ fuel r, relocate_pointers readonlyFirstTable fuel 0x2000 0x1000 0x1100 0x5000 0 8 16
        readonlyFirstMem = some r) ∧
    (∀ fuel r, relocate_pointers readonlyFirstTable fuel 0x2000 0x1000 0x1100 0x5000 0 8 16
        readonlyFirstMem = some r →
      load64 r.mem (0x2000 + 1 * 8) =
        if 0x1000 ≤ load64 readonlyFirstMem (0x2000 + 1 * 8) ∧
            load64 readonlyFirstMem (0x2000 + 1 * 8) < 0x1100 then
          (0x5000 + (load64 readonlyFirstMem (0x2000 + 1 * 8) - 0x1000)) % 2 ^ 64
        else load64 readonlyFirstMem (0x2000 + 1 * 8))) ∧
    (relocate_pointers readonlyFirstTable 5 0x2000 0x1000 0x1100 0x5000 0 8 16
        readonlyFirstMem).map
      (fun r => (r.completion, load64 r.mem 0x2000, load64 r.mem 0x2008))
      = some (Completion.returned, 0x9999, 0x5050) :=
  ⟨⟨located_readonlyFirstTable, uniform_readonlyFirstTable, by decide, by decide, by decide,
      by decide, ⟨1, by decide⟩, by decide, ⟨⟨1, by decide⟩, by decide, by decide⟩,
      ⟨1, by decide⟩, ⟨1, by decide⟩⟩,
    flat_scan_rewrites_safe_words readonlyFirstTable located_readonlyFirstTable
      uniform_readonlyFirstTable 0x2000 0x1000 0x1100 0x5000 0 8 16 readonlyFirstMem
      (by decide) (by decide) (by decide) (by decide) ⟨1, by decide⟩ 1 (by decide)
      (fun j hj => by
        have hj01 : j = 0 ∨ j = 1 := by omega
        rcases hj01 with rfl | rfl
        · exact ⟨⟨1, by decide⟩, fun _ h => absurd h (by decide)⟩
        · exact ⟨⟨1, by decide⟩, fun _ _ => ⟨1, by decide⟩⟩),
    by decide⟩

/-- C5 (as stated) fails: the word `0x1050` at `0x2000` lies in a read-only
region. With old range `[0x1000, 0x1100)`, new start `0x5000`, depth 0, stride 8
and window 8, `scan_start` and offset 0 are read-safe, the value is in the old
range, yet the store faults, the invocation is abandoned and the word still
holds `0x1050`, not `0x5050`. -/
theorem flat_scan_cannot_rewrite_readonly_word :
    IsBadMemPtr readonlyTable 2 false 0x2000 8 = some false ∧
    load64 (wordAt 0x2000 0x1050) 0x2000 = 0x1050 ∧
    (relocate_pointers readonlyTable 4 0x2000 0x1000 0x1100 0x5000 0 8 8
        (wordAt 0x2000 0x1050)).map (fun r => (r.completion, load64 r.mem 0x2000, r.trace))
      = some (Completion.returned, 0x1050,
          [.fault 0 true 0x2000, .load 0 0x2000 0x1050, .probe 0 false 0x2000 8 false,
            .probe 0 false 0x2000 8 false, .enter 0 0x2000]) := by
  decide

/-! ## One hop of recursion -/

theorem load64_lt (m : Mem) (a : Nat) : load64 m a < PTR_MOD := by
  unfold load64 loadByte PTR_MOD
  omega

/-- C6 (amended): on a located and uniform region table, for every call with
`depth = 1`, `stride ≥ 8`, `0 < window_size ≤ stride`, `scan_start` read-safe for
`stride` bytes, the word at `scan_start` holding a value `q` outside the old
range, `q` read-safe for `max(stride, 8)` bytes and write-safe for 8 bytes,
neither `scan_start + stride` nor `q + stride` wrapping around the address
space, and the word at `q` holding `p` with `old_start ≤ p < old_end`: the call
returns, and after it the word at `q` holds `new_start + (p - old_start)`
(mod `2^64`). -/
theorem one_hop_relocates_writable_word (vq : RegionTable) (hloc : Located vq)
    (huni : Uniform vq) (scan_start old_start old_end new_start : Nat)
    (skip_length scan_size : Nat) (mem : Mem) (q p : Nat)
    (h8 : 8 ≤ skip_length) (hu : skip_length < 2 ^ 32)
    (hw0 : 0 < scan_size) (hw : scan_size ≤ skip_length)
    (hwrap1 : scan_start + skip_length < 2 ^ 64) (hwrap2 : q + skip_length < 2 ^ 64)
    (hentry : ProbeSafe vq false scan_start skip_length)
    (hq : load64 mem scan_start = q) (hqout : ¬ (old_start ≤ q ∧ q < old_end))
    (hqsafe : ProbeSafe vq false q (max skip_length 8)) (hqw : ProbeSafe vq true q 8)
    (hp : load64 mem q = p) (hpin : old_start ≤ p ∧ p < old_end) :
    (∃ fuel r, relocate_pointers vq fuel scan_start old_start old_end new_start 1 skip_length
        scan_size mem = some r) ∧
    (∀ fuel r, relocate_pointers vq fuel scan_start old_start old_end new_start 1 skip_length
        scan_size mem = some r → load64 r.mem q = (new_start + (p - old_start)) % 2 ^ 64) := by
  constructor
  · obtain ⟨fuel, r, h, -⟩ := relocate_pointers_terminates_of_reached hloc scan_start old_start
      old_end new_start 1 skip_length scan_size mem (by omega) (by unfold U32_MOD; omega)
      ⟨1, by omega, by unfold U32_MOD; omega, by unfold LOOP_FUEL U32_MOD; omega⟩
    exact ⟨fuel, r, h⟩
  · intro fuel r h
    obtain ⟨f, st, -, hst, hr⟩ := relocate_pointers_enters_loop (by omega) hentry h
    have hss : ptrAddInt32 scan_start 0 = scan_start := by
      rw [ptrAddInt32_small _ _ (by decide)]
      exact Nat.mod_eq_of_lt (by unfold PTR_MOD; omega)
    have hqq : ptrAddInt32 q (0 * skip_length) = q := by
      rw [Nat.zero_mul, ptrAddInt32_small _ _ (by decide)]
      exact Nat.mod_eq_of_lt (by unfold PTR_MOD; omega)
    have hps : ProbeSafe vq false scan_start PTR_SIZE := by
      obtain ⟨pf, h1⟩ := hentry
      exact ⟨pf, IsBadMemPtr_prefix h1 (by unfold PTR_MOD; omega) (by unfold PTR_SIZE; omega)⟩
    have hmax : max skip_length 8 = skip_length := by omega
    rw [hmax] at hqsafe
    have hpq8 : ProbeSafe vq false q PTR_SIZE := by
      obtain ⟨pf, h1⟩ := hqsafe
      exact ⟨pf, IsBadMemPtr_prefix h1 (by unfold PTR_MOD; omega) (by unfold PTR_SIZE; omega)⟩
    have haccS : accessible vq false scan_start = true :=
      accessible_of_probe hloc huni hps (by unfold PTR_MOD PTR_SIZE; omega)
    have haccQr : accessible vq false q = true :=
      accessible_of_probe hloc huni hpq8 (by unfold PTR_MOD PTR_SIZE; omega)
    have haccQw : accessible vq true q = true :=
      accessible_of_probe hloc huni hqw (by unfold PTR_MOD PTR_SIZE; omega)
    have hne : q ≠ scan_start := by
      intro e
      rw [e, hq] at hp
      omega
    have hqin : inOldRange old_start old_end q = false := by
      simpa [inOldRange] using hqout
    have hpinr : inOldRange old_start old_end p = true := by
      simpa [inOldRange] using hpin
    cases f with
    | zero => simp [scanLoop] at hst
    | succ f1 =>
      rw [scanLoop, if_pos hw0] at hst
      dsimp only at hst
      rw [hss] at hst
      obtain ⟨pf0, hps0⟩ := hps
      cases hp0 : IsBadMemPtr vq fuel false scan_start PTR_SIZE with
      | none => rw [hp0] at hst; simp at hst
      | some bad =>
        have hbad : bad = false := IsBadMemPtr_det hp0 hps0
        subst hbad
        rw [hp0] at hst
        simp only [Bool.false_eq_true, ↓reduceIte, haccS, Bool.true_eq_false, State.log,
          State.see, hq, hqin, follow, gt_iff_lt, zero_lt_one] at hst
        obtain ⟨pf1, hps1⟩ := hpq8
        cases hp1 : IsBadMemPtr vq fuel false q PTR_SIZE with
        | none => rw [hp1] at hst; simp at hst
        | some bad =>
          have hbad : bad = false := IsBadMemPtr_det hp1 hps1
          subst hbad
          rw [hp1] at hst
          simp only [Bool.false_eq_true, ↓reduceIte] at hst
          split at hst
          · simp at hst
          · next st5 hdet =>
            have hnext : ¬ ((0 + skip_length) % U32_MOD < scan_size) := by
              rw [Nat.zero_add, Nat.mod_eq_of_lt (by unfold U32_MOD; omega)]
              omega
            cases f1 with
            | zero => simp [scanLoop] at hst
            | succ f2 =>
              rw [scanLoop, if_neg hnext] at hst
              simp only [Option.some.injEq] at hst
              subst hst
              subst hr
              simp only
              rw [detail.relocate_pointers] at hdet
              simp only [State.log, State.see, List.insert, List.elem_cons, List.elem_nil,
                Bool.or_false, beq_self_eq_true, ↓reduceIte, List.mem_singleton, hne] at hdet
              obtain ⟨pf2, hps2⟩ := hqsafe
              cases hp2 : IsBadMemPtr vq fuel false q skip_length with
              | none => rw [hp2] at hdet; simp at hdet
              | some bad =>
                have hbad : bad = false := IsBadMemPtr_det hp2 hps2
                subst hbad
                rw [hp2] at hdet
                simp only [Bool.false_eq_true, ↓reduceIte] at hdet
                have h0 : (0 : Nat) = 0 * skip_length := by simp
                rw [h0] at hdet
                have key := flat_target (by omega : (1 : Int) - 1 ≤ 0) h8
                  (by unfold U32_MOD; omega) (by decide : 0x1000 ≤ 2 ^ 31) 0
                  (by omega : 0 * skip_length < 0x1000)
                  (fun n hn => by
                    have hn0 : n = 0 := by omega
                    subst hn0
                    rw [hqq]
                    exact ⟨⟨pf1, hps1⟩, haccQr, haccQw⟩)
                  (f2 + 1) 0 _ _ (le_refl 0) hdet
                rw [hqq] at key
                simp only [hp, hpinr, ↓reduceIte] at key
                rw [key]
                rfl

theorem located_twoRegionTable (prot : Nat) : Located (twoRegionTable prot) := by
  intro a m h
  unfold twoRegionTable at h
  split at h
  · cases h
    simp only [PTR_MOD]
    omega
  · split at h
    · cases h
      simp only [PTR_MOD]
      omega
    · cases h

theorem uniform_twoRegionTable (prot : Nat) : Uniform (twoRegionTable prot) := by
  intro a m h b hab hb
  unfold twoRegionTable at h
  split at h
  · cases h
    simp only at hb
    refine ⟨⟨0x2000, 8, PAGE_READWRITE⟩, ?_, rfl⟩
    unfold twoRegionTable
    rw [if_pos ⟨by omega, by omega⟩]
  · split at h
    · cases h
      simp only at hb
      refine ⟨⟨0x3000, 8, prot⟩, ?_, rfl⟩
      unfold twoRegionTable
      rw [if_neg (by omega), if_pos ⟨by omega, by omega⟩]
    · cases h

theorem one_hop_relocates_writable_word_witness :
    (Located (twoRegionTable PAGE_READWRITE) ∧ Uniform (twoRegionTable PAGE_READWRITE) ∧
      8 ≤ 8 ∧ 8 < 2 ^ 32 ∧ 0 < 8 ∧ 8 ≤ 8 ∧ 0x2000 + 8 < 2 ^ 64 ∧ 0x3000 + 8 < 2 ^ 64 ∧
      ProbeSafe (twoRegionTable PAGE_READWRITE) false 0x2000 8 ∧
      load64 oneHopMem 0x2000 = 0x3000 ∧ ¬ (0x1000 ≤ 0x3000 ∧ 0x3000 < 0x1100) ∧
      ProbeSafe (twoRegionTable PAGE_READWRITE) false 0x3000 (max 8 8) ∧
      ProbeSafe (twoRegionTable PAGE_READWRITE) true 0x3000 8 ∧
      load64 oneHopMem 0x3000 = 0x1050 ∧ (0x1000 ≤ 0x1050 ∧ 0x1050 < 0x1100)) ∧
    ((∃ fuel r, relocate_pointers (twoRegionTable PAGE_READWRITE) fuel 0x2000 0x1000 0x1100
        0x5000 1 8 8 oneHopMem = some r) ∧
    (∀ fuel r, relocate_pointers (twoRegionTable PAGE_READWRITE) fuel 0x2000 0x1000 0x1100
        0x5000 1 8 8 oneHopMem = some r →
      load64 r.mem 0x3000 = (0x5000 + (0x1050 - 0x1000)) % 2 ^ 64)) :=
  ⟨⟨located_twoRegionTable _, uniform_twoRegionTable _, by decide, by decide, by decide,
      by decide, by decide, by decide, ⟨1, by decide⟩, by decide, by decide, ⟨1, by decide⟩,
      ⟨1, by decide⟩, by decide, by decide⟩,
    one_hop_relocates_writable_word (twoRegionTable PAGE_READWRITE) (located_twoRegionTable _)
      (uniform_twoRegionTable _) 0x2000 0x1000 0x1100 0x5000 8 8 oneHopMem 0x3000 0x1050
      (by decide) (by decide) (by decide) (by decide) (by decide) (by decide) ⟨1, by decide⟩
      (by decide) (by decide) ⟨1, by decide⟩ ⟨1, by decide⟩ (by decide) (by decide)⟩

/-- C6 (as stated) fails: the word `0x1050` at `q = 0x3000` lies in a read-only
region and is reached from the word at `0x2000`. All probes the claim asks for
report safe, the recursive scan loads `0x1050`, the store faults, and after the
call the word at `0x3000` still holds `0x1050`, not `0x5050`. -/
theorem one_hop_cannot_rewrite_readonly_word :
    IsBadMemPtr (twoRegionTable PAGE_READONLY) 2 false 0x2000 8 = some false ∧
    IsBadMemPtr (twoRegionTable PAGE_READONLY) 2 false 0x3000 (max 8 8) = some false ∧
    load64 oneHopMem 0x2000 = 0x3000 ∧ load64 oneHopMem 0x3000 = 0x1050 ∧
    (relocate_pointers (twoRegionTable PAGE_READONLY) 6 0x2000 0x1000 0x1100 0x5000 1 8 8
        oneHopMem).map
      (fun r => (r.completion, load64 r.mem 0x3000, r.trace.filter Event.isStore,
        r.trace.head?))
      = some (Completion.returned, 0x1050, [], some (.fault 1 true 0x3000)) := by
  decide

/-! ## The window stops at the first gap -/

theorem follow_own_steps {vq : RegionTable} {pf : Nat} {recurse : Nat → State → Option State}
    {level : Nat} {depth : Int}
    (hrec : ∀ v s s1, recurse v s = some s1 → LevelRel (level + 1) (depth - 1) s s1)
    {v : Nat} {st st1 : State} (h : follow vq pf recurse level depth v st = some st1) :
    ∃ evs, st1.trace = evs ++ st.trace ∧ ∀ e ∈ evs, e.level = level → e.accessAddr = none := by
  unfold follow at h
  by_cases hd : depth > 0
  · rw [if_pos hd] at h
    cases hp : IsBadMemPtr vq pf false v PTR_SIZE with
    | none => rw [hp] at h; simp at h
    | some bad =>
      rw [hp] at h
      dsimp only at h
      cases bad with
      | true =>
        simp only [↓reduceIte, Option.some.injEq] at h
        subst h
        exact ⟨[.probe level false v PTR_SIZE true], rfl, by simp [Event.accessAddr]⟩
      | false =>
        simp only [Bool.false_eq_true, ↓reduceIte] at h
        obtain ⟨evs, ht, hl⟩ := hrec _ _ _ h
        refine ⟨evs ++ [.probe level false v PTR_SIZE false], by simp [ht, State.log], ?_⟩
        intro e he hlev
        rcases List.mem_append.mp he with h1 | h1
        · have := (hl e h1).1
          omega
        · simp only [List.mem_singleton] at h1
          subst h1
          rfl
  · rw [if_neg hd] at h
    simp only [Option.some.injEq] at h
    subst h
    exact ⟨[], rfl, by simp⟩

/-- The loop, started at counter `m * skip_length` with the probe at counter
`k * skip_length` unsafe, touches memory at its own level only at the counters
from `m` up to, but not including, `k`. -/
theorem scanLoop_own_accesses {vq : RegionTable} {pf : Nat}
    {recurse : Nat → State → Option State} {level scan_start os oe ns : Nat} {depth : Int}
    {skip_length scan_size : Nat}
    (hrec : ∀ v s s1, recurse v s = some s1 → LevelRel (level + 1) (depth - 1) s s1)
    (k : Nat) (hk : k * skip_length < U32_MOD)
    (hgap : IsBadMemPtr vq pf false (ptrAddInt32 scan_start (k * skip_length)) PTR_SIZE
      ≠ some false) :
    ∀ (fuel m : Nat) (st st1 : State), m ≤ k →
      scanLoop vq pf recurse level scan_start os oe ns depth skip_length scan_size fuel
        (m * skip_length) st = some st1 →
      ∃ evs, st1.trace = evs ++ st.trace ∧ ∀ e ∈ evs, e.level = level →
        ∀ a, e.accessAddr = some a →
          ∃ n, m ≤ n ∧ n < k ∧ a = ptrAddInt32 scan_start (n * skip_length) := by
  intro fuel
  induction fuel with
  | zero => intro m st st1 _ h; simp [scanLoop] at h
  | succ f ih =>
    intro m st st1 hmk h
    rw [scanLoop] at h
    by_cases c0 : m * skip_length < scan_size
    · rw [if_pos c0] at h
      dsimp only at h
      rcases Nat.lt_or_ge m k with hlt | hge
      · have hnext : (m * skip_length + skip_length) % U32_MOD = (m + 1) * skip_length := by
          have h1 : (m + 1) * skip_length ≤ k * skip_length := Nat.mul_le_mul_right _ (by omega)
          have hmul : (m + 1) * skip_length = m * skip_length + skip_length := by ring
          rw [hmul]
          exact Nat.mod_eq_of_lt (by omega)
        rw [hnext] at h
        -- what the rest of the loop and the recursive call contribute
        have hrest : ∀ (s4 : State) (pre : List Event), s4.trace = pre ++ st.trace →
            (∀ e ∈ pre, e.level = level → ∀ a, e.accessAddr = some a →
              a = ptrAddInt32 scan_start (m * skip_length)) →
            (match follow vq pf recurse level depth
                (load64 st.mem (ptrAddInt32 scan_start (m * skip_length))) s4 with
              | none => none
              | some st5 =>
                scanLoop vq pf recurse level scan_start os oe ns depth skip_length scan_size f
                  ((m + 1) * skip_length) st5) = some st1 →
            ∃ evs, st1.trace = evs ++ st.trace ∧ ∀ e ∈ evs, e.level = level →
              ∀ a, e.accessAddr = some a →
                ∃ n, m ≤ n ∧ n < k ∧ a = ptrAddInt32 scan_start (n * skip_length) := by
          intro s4 pre hpre hown h4
          split at h4
          · simp at h4
          · next st5 hf =>
            obtain ⟨e1, ht1, hl1⟩ := follow_own_steps hrec hf
            obtain ⟨e2, ht2, hl2⟩ := ih (m + 1) _ _ (by omega) h4
            refine ⟨e2 ++ (e1 ++ pre), by simp [ht2, ht1, hpre], ?_⟩
            intro e he hlev a ha
            rcases List.mem_append.mp he with h2 | h2
            · obtain ⟨n, hn1, hn2, hn3⟩ := hl2 e h2 hlev a ha
              exact ⟨n, by omega, hn2, hn3⟩
            · rcases List.mem_append.mp h2 with h3 | h3
              · rw [hl1 e h3 hlev] at ha
                cases ha
              · exact ⟨m, le_refl m, hlt, hown e h3 hlev a ha⟩
        cases hp : IsBadMemPtr vq pf false (ptrAddInt32 scan_start (m * skip_length)) PTR_SIZE with
        | none => rw [hp] at h; simp at h
        | some bad =>
          rw [hp] at h
          dsimp only at h
          cases bad with
          | true =>
            simp only [↓reduceIte, Option.some.injEq] at h
            subst h
            exact ⟨[.probe level false _ PTR_SIZE true], rfl, by simp [Event.accessAddr]⟩
          | false =>
            simp only [Bool.false_eq_true, ↓reduceIte] at h
            by_cases c1 : accessible vq false (ptrAddInt32 scan_start (m * skip_length)) = false
            · rw [if_pos c1] at h
              simp only [Option.some.injEq] at h
              subst h
              refine ⟨[.fault level false _, .probe level false _ PTR_SIZE false], rfl, ?_⟩
              intro e he _ a ha
              simp only [List.mem_cons, List.mem_singleton, List.not_mem_nil, or_false] at he
              rcases he with rfl | rfl
              · simp only [Event.accessAddr, Option.some.injEq] at ha
                exact ⟨m, le_refl m, hlt, ha.symm⟩
              · simp [Event.accessAddr] at ha
            · rw [if_neg c1] at h
              split_ifs at h with c2 c3
              · simp only [Option.some.injEq] at h
                subst h
                refine ⟨[.fault level true _, .load level _ _, .probe level false _ PTR_SIZE false],
                  rfl, ?_⟩
                intro e he _ a ha
                simp only [List.mem_cons, List.mem_singleton, List.not_mem_nil, or_false] at he
                rcases he with rfl | rfl | rfl
                · simp only [Event.accessAddr, Option.some.injEq] at ha
                  exact ⟨m, le_refl m, hlt, ha.symm⟩
                · simp only [Event.accessAddr, Option.some.injEq] at ha
                  exact ⟨m, le_refl m, hlt, ha.symm⟩
                · simp [Event.accessAddr] at ha
              · refine hrest _ [.store level _ _, .load level _ _, .probe level false _ PTR_SIZE
                  false] rfl ?_ h
                intro e he _ a ha
                simp only [List.mem_cons, List.mem_singleton, List.not_mem_nil, or_false] at he
                rcases he with rfl | rfl | rfl
                · simp only [Event.accessAddr, Option.some.injEq] at ha
                  exact ha.symm
                · simp only [Event.accessAddr, Option.some.injEq] at ha
                  exact ha.symm
                · simp [Event.accessAddr] at ha
              · refine hrest _ [.load level _ _, .probe level false _ PTR_SIZE false] rfl ?_ h
                intro e he _ a ha
                simp only [List.mem_cons, List.mem_singleton, List.not_mem_nil, or_false] at he
                rcases he with rfl | rfl
                · simp only [Event.accessAddr, Option.some.injEq] at ha
                  exact ha.symm
                · simp [Event.accessAddr] at ha
      · have hmk1 : m = k := by omega
        subst hmk1
        cases hp : IsBadMemPtr vq pf false (ptrAddInt32 scan_start (m * skip_length)) PTR_SIZE with
        | none => rw [hp] at h; simp at h
        | some bad =>
          cases bad with
          | false => exact absurd hp hgap
          | true =>
            rw [hp] at h
            simp only [↓reduceIte, Option.some.injEq] at h
            subst h
            exact ⟨[.probe level false _ PTR_SIZE true], rfl, by simp [Event.accessAddr]⟩
    · rw [if_neg c0] at h
      simp only [Option.some.injEq] at h
      subst h
      exact ⟨[], rfl, by simp⟩

theorem ptrAddInt32_inj (p i j : Nat) (hi : i < 2 ^ 32) (hj : j < 2 ^ 32)
    (h : ptrAddInt32 p i = ptrAddInt32 p j) : i = j := by
  unfold ptrAddInt32 PTR_MOD U32_MOD at h
  split at h <;> split at h <;> omega

theorem scanLoop_terminates_gap {vq : RegionTable} {pf : Nat}
    (hprobe : ∀ a n, ∃ b, IsBadMemPtr vq pf false a n = some b)
    (recurse : Nat → State → Option State) (depth : Int)
    (hrec : 0 < depth → ∀ v s, ∃ s1, recurse v s = some s1)
    (level scan_start os oe ns skip_length scan_size : Nat)
    (k : Nat) (hk : k * skip_length < U32_MOD)
    (hgap : IsBadMemPtr vq pf false (ptrAddInt32 scan_start (k * skip_length)) PTR_SIZE
      = some true) :
    ∀ (n m : Nat) (st : State), m + n = k →
      ∃ st1, scanLoop vq pf recurse level scan_start os oe ns depth skip_length scan_size
        (n + 1) (m * skip_length) st = some st1 := by
  intro n
  induction n with
  | zero =>
    intro m st hmk
    have hm : m = k := by omega
    subst hm
    rw [scanLoop]
    split_ifs with c0
    · dsimp only
      rw [hgap]
      simp only [↓reduceIte]
      exact ⟨_, rfl⟩
    · exact ⟨_, rfl⟩
  | succ n ih =>
    intro m st hmk
    have hnext : (m * skip_length + skip_length) % U32_MOD = (m + 1) * skip_length := by
      have h1 : (m + 1) * skip_length ≤ k * skip_length := Nat.mul_le_mul_right _ (by omega)
      have hmul : (m + 1) * skip_length = m * skip_length + skip_length := by ring
      rw [hmul]
      exact Nat.mod_eq_of_lt (by omega)
    rw [scanLoop]
    by_cases c0 : m * skip_length < scan_size
    · rw [if_pos c0]
      dsimp only
      obtain ⟨b, hb⟩ := hprobe (ptrAddInt32 scan_start (m * skip_length)) PTR_SIZE
      rw [hb, hnext]
      dsimp only
      cases b with
      | true =>
        simp only [↓reduceIte]
        exact ⟨_, rfl⟩
      | false =>
        simp only [Bool.false_eq_true, ↓reduceIte]
        by_cases c1 : accessible vq false (ptrAddInt32 scan_start (m * skip_length)) = false
        · rw [if_pos c1]; exact ⟨_, rfl⟩
        · rw [if_neg c1]
          split_ifs with c2 c3
          · exact ⟨_, rfl⟩
          · obtain ⟨st5, h5⟩ := follow_terminates hprobe hrec level
              (load64 ((st.log (.probe level false (ptrAddInt32 scan_start (m * skip_length))
                PTR_SIZE false)).see (ptrAddInt32 scan_start (m * skip_length))).mem
                (ptrAddInt32 scan_start (m * skip_length)))
              (((((st.log (.probe level false (ptrAddInt32 scan_start (m * skip_length)) PTR_SIZE
                false)).see (ptrAddInt32 scan_start (m * skip_length))).log (.load level
                (ptrAddInt32 scan_start (m * skip_length))
                (load64 ((st.log (.probe level false (ptrAddInt32 scan_start (m * skip_length))
                  PTR_SIZE false)).see (ptrAddInt32 scan_start (m * skip_length))).mem
                  (ptrAddInt32 scan_start (m * skip_length))))).write
                (ptrAddInt32 scan_start (m * skip_length)) (translate os ns
                (load64 ((st.log (.probe level false (ptrAddInt32 scan_start (m * skip_length))
                  PTR_SIZE false)).see (ptrAddInt32 scan_start (m * skip_length))).mem
                  (ptrAddInt32 scan_start (m * skip_length))))).log
                (.store level (ptrAddInt32 scan_start (m * skip_length)) (translate os ns
                (load64 ((st.log (.probe level false (ptrAddInt32 scan_start (m * skip_length))
                  PTR_SIZE false)).see (ptrAddInt32 scan_start (m * skip_length))).mem
                  (ptrAddInt32 scan_start (m * skip_length))))))
            rw [h5]
            exact ih _ _ (by omega)
          · obtain ⟨st5, h5⟩ := follow_terminates hprobe hrec level
              (load64 ((st.log (.probe level false (ptrAddInt32 scan_start (m * skip_length))
                PTR_SIZE false)).see (ptrAddInt32 scan_start (m * skip_length))).mem
                (ptrAddInt32 scan_start (m * skip_length)))
              (((st.log (.probe level false (ptrAddInt32 scan_start (m * skip_length)) PTR_SIZE
                false)).see (ptrAddInt32 scan_start (m * skip_length))).log (.load level
                (ptrAddInt32 scan_start (m * skip_length))
                (load64 ((st.log (.probe level false (ptrAddInt32 scan_start (m * skip_length))
                  PTR_SIZE false)).see (ptrAddInt32 scan_start (m * skip_length))).mem
                  (ptrAddInt32 scan_start (m * skip_length)))))
            rw [h5]
            exact ih _ _ (by omega)
    · rw [if_neg c0]
      exact ⟨_, rfl⟩

/-- C8: take an invocation of the scanner, at any nesting level and in any
state, with stride above zero, and an offset `j = k * stride < window_size` at
which the probe for reading a pointer-sized word at `scan_start + j` reports
unsafe (in particular the first such offset). On a located region table the
invocation returns, with enough fuel; and whenever it returns, each load, store
or fault made by the loop of this invocation itself (the steps it adds at its
own level) is at an offset `n * stride` with `n < k`, hence at no offset `≥ j`
of the window, readable or not. -/
theorem window_stops_at_first_gap (vq : RegionTable) (hloc : Located vq)
    (level scan_start old_start old_end new_start : Nat) (depth : Int)
    (skip_length scan_size : Nat) (st : State) (k : Nat)
    (hs : 0 < skip_length) (hu : skip_length < 2 ^ 32) (hwin : scan_size < 2 ^ 32)
    (hk : k * skip_length < scan_size)
    (hgap : ProbeUnsafe vq false (ptrAddInt32 scan_start (k * skip_length)) PTR_SIZE) :
    (∃ pf fuel st1, detail.relocate_pointers vq pf fuel level scan_start old_start old_end
        new_start depth skip_length scan_size st = some st1) ∧
    (∀ pf fuel st1, detail.relocate_pointers vq pf fuel level scan_start old_start old_end
        new_start depth skip_length scan_size st = some st1 →
      ∃ evs, st1.trace = evs ++ st.trace ∧ ∀ e ∈ evs, e.level = level →
        ∀ a, e.accessAddr = some a →
          (∃ n, n < k ∧ a = ptrAddInt32 scan_start (n * skip_length)) ∧
          (∀ j, k * skip_length ≤ j → j < 2 ^ 32 → a ≠ ptrAddInt32 scan_start j)) := by
  obtain ⟨pg, hpg⟩ := hgap
  constructor
  · -- the invocation returns
    have hprobe : ∀ a n, ∃ b, IsBadMemPtr vq (pg + (PTR_MOD + 1)) false a n = some b :=
      fun a n => IsBadMemPtr_terminates hloc false a n _ (by omega)
    have hgap1 := IsBadMemPtr_mono hpg (Nat.le_add_right pg (PTR_MOD + 1))
    have hkle : k ≤ k * skip_length := Nat.le_mul_of_pos_right _ hs
    refine ⟨pg + (PTR_MOD + 1), LOOP_FUEL + depth.toNat + 1 + 1, ?_⟩
    rw [detail.relocate_pointers]
    dsimp only
    split_ifs with c0
    · exact ⟨_, rfl⟩
    · obtain ⟨b, hb⟩ := hprobe scan_start skip_length
      rw [hb]
      dsimp only
      cases b with
      | true =>
        simp only [↓reduceIte]
        exact ⟨_, rfl⟩
      | false =>
        simp only [Bool.false_eq_true, ↓reduceIte]
        obtain ⟨st1, h1⟩ := scanLoop_terminates_gap hprobe
          (fun v s => detail.relocate_pointers vq (pg + (PTR_MOD + 1))
            (LOOP_FUEL + depth.toNat + 1) (level + 1) v old_start old_end new_start
            (depth - 1) skip_length 0x1000 s)
          depth
          (fun _ v s => detail_terminates hprobe old_start old_end new_start skip_length hs
            (by unfold U32_MOD; omega) depth.toNat _ (le_refl _) (depth - 1) (by omega)
            (level + 1) v 0x1000 s
            (recursion_window_reached skip_length hs (by unfold U32_MOD; omega)))
          level scan_start old_start old_end new_start skip_length scan_size k
          (by unfold U32_MOD; omega) hgap1 k 0
          (((st.log (.enter level scan_start)).see scan_start).log
            (.probe level false scan_start skip_length false)) (by omega)
        rw [Nat.zero_mul] at h1
        exact ⟨st1, scanLoop_mono (le_refl _) (fun _ _ _ hv => hv) _ _ _ _ _ _ _ _ _ _
          (by unfold LOOP_FUEL U32_MOD; omega) _ _ _ h1⟩
  · -- what it touches at its own level
    intro pf fuel st1 h
    have hfin : ∀ evs : List Event,
        (∀ e ∈ evs, e.level = level → ∀ a, e.accessAddr = some a →
          ∃ n, 0 ≤ n ∧ n < k ∧ a = ptrAddInt32 scan_start (n * skip_length)) →
        ∀ e ∈ evs, e.level = level → ∀ a, e.accessAddr = some a →
          (∃ n, n < k ∧ a = ptrAddInt32 scan_start (n * skip_length)) ∧
          (∀ j, k * skip_length ≤ j → j < 2 ^ 32 → a ≠ ptrAddInt32 scan_start j) := by
      intro evs hall e he hlev a ha
      obtain ⟨n, -, hn, hna⟩ := hall e he hlev a ha
      refine ⟨⟨n, hn, hna⟩, ?_⟩
      intro j hj hj32 hcontra
      have h1 : (n + 1) * skip_length ≤ k * skip_length := Nat.mul_le_mul_right _ (by omega)
      have hmul : (n + 1) * skip_length = n * skip_length + skip_length := by ring
      have := ptrAddInt32_inj scan_start (n * skip_length) j (by omega) hj32
        (by rw [← hna, hcontra])
      omega
    cases fuel with
    | zero => simp [detail.relocate_pointers] at h
    | succ f =>
      rw [detail.relocate_pointers] at h
      dsimp only at h
      split_ifs at h with c0
      · simp only [Option.some.injEq] at h
        subst h
        exact ⟨[.enter level scan_start], rfl, hfin _ (by simp [Event.accessAddr])⟩
      · cases hp : IsBadMemPtr vq pf false scan_start skip_length with
        | none => rw [hp] at h; simp at h
        | some bad =>
          rw [hp] at h
          dsimp only at h
          cases bad with
          | true =>
            simp only [↓reduceIte, Option.some.injEq] at h
            subst h
            exact ⟨[.probe level false scan_start skip_length true, .enter level scan_start],
              rfl, hfin _ (by simp [Event.accessAddr])⟩
          | false =>
            simp only [Bool.false_eq_true, ↓reduceIte] at h
            have h0 : (0 : Nat) = 0 * skip_length := by simp
            rw [h0] at h
            have hgap2 : IsBadMemPtr vq pf false (ptrAddInt32 scan_start (k * skip_length))
                PTR_SIZE ≠ some false := by
              intro hc
              exact Bool.noConfusion (IsBadMemPtr_det hc hpg)
            obtain ⟨evs, ht, hl⟩ := scanLoop_own_accesses
              (fun v s s1 hv => detail_closed (levelRel_closed vq pf old_start old_end new_start)
                skip_length f (level + 1) v (depth - 1) 0x1000 s s1 hv)
              k (by unfold U32_MOD; omega) hgap2 f 0 _ _ (Nat.zero_le k) h
            refine ⟨evs ++ [.probe level false scan_start skip_length false,
              .enter level scan_start], by simp [ht, State.log, State.see], ?_⟩
            apply hfin
            intro e he hlev a ha
            rcases List.mem_append.mp he with h1 | h1
            · exact hl e h1 hlev a ha
            · simp only [List.mem_cons, List.mem_singleton, List.not_mem_nil, or_false] at h1
              rcases h1 with rfl | rfl <;> simp [Event.accessAddr] at ha

theorem window_stops_at_first_gap_witness :
    (Located scenarioTable ∧ 0 < 8 ∧ 8 < 2 ^ 32 ∧ 0x40 < 2 ^ 32 ∧ 2 * 8 < 0x40 ∧
      ProbeUnsafe scenarioTable false (ptrAddInt32 0x2000 (2 * 8)) PTR_SIZE) ∧
    ((∃ pf fuel st1, detail.relocate_pointers scenarioTable pf fuel 0 0x2000 0x1000 0x1100
        0x5000 0 8 0x40 ⟨zeroMem, [], []⟩ = some st1) ∧
    (∀ pf fuel st1, detail.relocate_pointers scenarioTable pf fuel 0 0x2000 0x1000 0x1100
        0x5000 0 8 0x40 ⟨zeroMem, [], []⟩ = some st1 →
      ∃ evs, st1.trace = evs ++ [] ∧ ∀ e ∈ evs, e.level = 0 →
        ∀ a, e.accessAddr = some a →
          (∃ n, n < 2 ∧ a = ptrAddInt32 0x2000 (n * 8)) ∧
          (∀ j, 2 * 8 ≤ j → j < 2 ^ 32 → a ≠ ptrAddInt32 0x2000 j))) :=
  ⟨⟨located_scenarioTable, by decide, by decide, by decide, by decide, ⟨1, by decide⟩⟩,
    window_stops_at_first_gap scenarioTable located_scenarioTable 0 0x2000 0x1000 0x1100 0x5000
      0 8 0x40 ⟨zeroMem, [], []⟩ 2 (by decide) (by decide) (by decide) (by decide)
      ⟨1, by decide⟩⟩

/-! ## Calls on disjoint memory do not interfere -/

theorem load64_congr (m1 m2 : Mem) (a : Nat)
    (h : ∀ b, inWord a b = true → m1 b = m2 b) : load64 m1 a = load64 m2 a := by
  have hb : ∀ k, k < 8 → loadByte m1 (a + k) = loadByte m2 (a + k) := by
    intro k hk
    unfold loadByte
    rw [h _ (inWord_self_add a k hk)]
  have h0 := hb 0 (by omega)
  simp only [Nat.add_zero] at h0
  simp only [load64, h0, hb 1 (by omega), hb 2 (by omega), hb 3 (by omega), hb 4 (by omega),
    hb 5 (by omega), hb 6 (by omega), hb 7 (by omega)]

theorem store64_agree (F : Nat → Prop) (m1 m2 : Mem) (a v : Nat)
    (h : ∀ b, F b → m1 b = m2 b) : ∀ b, F b → store64 m1 a v b = store64 m2 a v b := by
  intro b hb
  unfold store64
  split
  · rfl
  · exact h b hb

theorem levelRel_extends {l : Nat} {d : Int} {s s1 : State} (h : LevelRel l d s s1) :
    ∀ e ∈ s.trace, e ∈ s1.trace := by
  obtain ⟨evs, ht, -⟩ := h
  intro e he
  rw [ht]
  exact List.mem_append_right _ he

theorem follow_local {vq : RegionTable} {pf : Nat} {recurse : Nat → State → Option State}
    {level : Nat} {depth : Int} (F : Nat → Prop)
    (hrec : ∀ v s s1, recurse v s = some s1 → LocalRun F (recurse v) s s1)
    {v : Nat} {s s1 : State} (h : follow vq pf recurse level depth v s = some s1) :
    LocalRun F (follow vq pf recurse level depth v) s s1 := by
  intro M1 hag hlw
  unfold follow at h ⊢
  by_cases hd : depth > 0
  · rw [if_pos hd] at h ⊢
    cases hp : IsBadMemPtr vq pf false v PTR_SIZE with
    | none => rw [hp] at h; simp at h
    | some bad =>
      rw [hp] at h
      dsimp only at h ⊢
      cases bad with
      | true =>
        simp only [↓reduceIte, Option.some.injEq] at h ⊢
        subst h
        exact ⟨M1, rfl, hag⟩
      | false =>
        simp only [Bool.false_eq_true, ↓reduceIte] at h ⊢
        exact hrec _ _ _ h M1 hag hlw
  · rw [if_neg hd] at h ⊢
    simp only [Option.some.injEq] at h
    subst h
    exact ⟨M1, rfl, hag⟩

theorem scanLoop_local {vq : RegionTable} {pf : Nat} {recurse : Nat → State → Option State}
    {level scan_start os oe ns : Nat} {depth : Int} {skip_length scan_size : Nat}
    (F : Nat → Prop)
    (hlev : ∀ v s s1, recurse v s = some s1 → LevelRel (level + 1) (depth - 1) s s1)
    (hrec : ∀ v s s1, recurse v s = some s1 → LocalRun F (recurse v) s s1) :
    ∀ (fuel i : Nat) (s s1 : State),
      scanLoop vq pf recurse level scan_start os oe ns depth skip_length scan_size fuel i s
        = some s1 →
      LocalRun F (scanLoop vq pf recurse level scan_start os oe ns depth skip_length scan_size
        fuel i) s s1 := by
  intro fuel
  induction fuel with
  | zero => intro i s s1 h; simp [scanLoop] at h
  | succ f ih =>
    intro i s s1 h M1 hag hlw
    rw [scanLoop] at h ⊢
    by_cases c0 : i < scan_size
    · rw [if_pos c0] at h ⊢
      dsimp only at h ⊢
      cases hp : IsBadMemPtr vq pf false (ptrAddInt32 scan_start i) PTR_SIZE with
      | none => rw [hp] at h; simp at h
      | some bad =>
        rw [hp] at h
        dsimp only at h ⊢
        cases bad with
        | true =>
          simp only [↓reduceIte, Option.some.injEq] at h ⊢
          subst h
          exact ⟨M1, rfl, hag⟩
        | false =>
          simp only [Bool.false_eq_true, ↓reduceIte] at h ⊢
          by_cases c1 : accessible vq false (ptrAddInt32 scan_start i) = false
          · rw [if_pos c1] at h ⊢
            simp only [Option.some.injEq] at h
            subst h
            exact ⟨M1, rfl, hag⟩
          · rw [if_neg c1] at h ⊢
            simp only [State.log, State.see, State.write] at h ⊢
            -- the load reads the same word in both memories
            have hload : (∀ e ∈ s1.trace, e ∈ s1.trace) →
                Event.load level (ptrAddInt32 scan_start i)
                  (load64 s.mem (ptrAddInt32 scan_start i)) ∈ s1.trace →
                load64 M1 (ptrAddInt32 scan_start i) = load64 s.mem (ptrAddInt32 scan_start i) :=
              fun _ hmem => load64_congr _ _ _
                (fun b hb => hag b (hlw _ hmem _ _ _ rfl b hb))
            split_ifs at h with c2 c3
            · simp only [Option.some.injEq] at h
              subst h
              have hl := hload (fun _ he => he) (by simp)
              rw [hl, if_pos c2, if_pos c3]
              exact ⟨M1, rfl, hag⟩
            · split at h
              · simp at h
              · next st5 hf =>
                have e1 := levelRel_extends
                  (follow_closed (levelRel_closed vq pf os oe ns) hlev hf)
                have e2 := levelRel_extends
                  (scanLoop_closed (levelRel_closed vq pf os oe ns) hlev _ _ _ _ _ _ _ h)
                have hl := hload (fun _ he => he) (e2 _ (e1 _ (by simp)))
                rw [hl, if_pos c2, if_neg c3]
                obtain ⟨M5, hf5, hag5⟩ := follow_local F hrec hf
                  (store64 M1 (ptrAddInt32 scan_start i)
                    (translate os ns (load64 s.mem (ptrAddInt32 scan_start i))))
                  (store64_agree F _ _ _ _ hag) (fun e he => hlw e (e2 e he))
                simp only at hf5
                rw [hf5]
                exact ih _ _ _ h M5 hag5 hlw
            · split at h
              · simp at h
              · next st5 hf =>
                have e1 := levelRel_extends
                  (follow_closed (levelRel_closed vq pf os oe ns) hlev hf)
                have e2 := levelRel_extends
                  (scanLoop_closed (levelRel_closed vq pf os oe ns) hlev _ _ _ _ _ _ _ h)
                have hl := hload (fun _ he => he) (e2 _ (e1 _ (by simp)))
                rw [hl, if_neg c2]
                obtain ⟨M5, hf5, hag5⟩ := follow_local F hrec hf M1 hag
                  (fun e he => hlw e (e2 e he))
                simp only at hf5
                rw [hf5]
                exact ih _ _ _ h M5 hag5 hlw
    · rw [if_neg c0] at h ⊢
      simp only [Option.some.injEq] at h
      subst h
      exact ⟨M1, rfl, hag⟩

theorem detail_local {vq : RegionTable} {pf : Nat} (os oe ns skip_length : Nat)
    (F : Nat → Prop) :
    ∀ (fuel level scan_start : Nat) (depth : Int) (scan_size : Nat) (s s1 : State),
      detail.relocate_pointers vq pf fuel level scan_start os oe ns depth skip_length scan_size s
        = some s1 →
      LocalRun F (detail.relocate_pointers vq pf fuel level scan_start os oe ns depth skip_length
        scan_size) s s1 := by
  intro fuel
  induction fuel with
  | zero => intro level scan_start depth scan_size s s1 h; simp [detail.relocate_pointers] at h
  | succ f ih =>
    intro level scan_start depth scan_size s s1 h M1 hag hlw
    rw [detail.relocate_pointers] at h ⊢
    simp only [State.log, State.see] at h ⊢
    by_cases c0 : scan_start ∈ s.seen
    · rw [if_pos c0] at h ⊢
      simp only [Option.some.injEq] at h
      subst h
      exact ⟨M1, rfl, hag⟩
    · rw [if_neg c0] at h ⊢
      cases hp : IsBadMemPtr vq pf false scan_start skip_length with
      | none => rw [hp] at h; simp at h
      | some bad =>
        rw [hp] at h
        dsimp only at h ⊢
        cases bad with
        | true =>
          simp only [↓reduceIte, Option.some.injEq] at h ⊢
          subst h
          exact ⟨M1, rfl, hag⟩
        | false =>
          simp only [Bool.false_eq_true, ↓reduceIte] at h ⊢
          exact scanLoop_local F
            (fun v s s1 hv => detail_closed (levelRel_closed vq pf os oe ns)
              skip_length f (level + 1) v (depth - 1) 0x1000 s s1 hv)
            (fun v s s1 hv => ih (level + 1) v (depth - 1) 0x1000 s s1 hv)
            f 0 _ _ h M1 hag hlw

theorem touches_of_mem {tr : List Event} {e : Event} (he : e ∈ tr) {a b : Nat}
    (ha : e.rwAddr = some a) (hb : inWord a b = true) : touches tr b = true := by
  unfold touches
  rw [List.any_eq_true]
  exact ⟨e, he, by rw [ha]; exact hb⟩

theorem replay_byte_untouched (b : Nat) (m : Mem) :
    ∀ (evs : List Event), touches evs b = false → replay evs m b = m b := by
  intro evs
  induction evs with
  | nil => intro _; rfl
  | cons e rest ih =>
    intro h
    have hr : touches rest b = false := by
      cases hc : touches rest b with
      | false => rfl
      | true =>
        obtain ⟨e1, he1, hx⟩ := List.any_eq_true.mp hc
        have : touches (e :: rest) b = true :=
          List.any_eq_true.mpr ⟨e1, List.mem_cons_of_mem _ he1, hx⟩
        rw [h] at this
        cases this
    have hrest := ih hr
    cases e with
    | store l a w =>
      have ha : inWord a b = false := by
        cases hc : inWord a b with
        | false => rfl
        | true =>
          have := touches_of_mem (List.mem_cons_self (Event.store l a w) rest) rfl hc
          rw [h] at this
          cases this
      simp only [replay, List.foldr_cons, applyEvent, store64, ha, Bool.false_eq_true,
        ↓reduceIte]
      exact hrest
    | _ => simpa [replay, applyEvent] using hrest

theorem replay_byte_congr (b : Nat) (m1 m2 : Mem) (h : m1 b = m2 b) :
    ∀ (evs : List Event), replay evs m1 b = replay evs m2 b := by
  intro evs
  induction evs with
  | nil => exact h
  | cons e rest ih =>
    cases e with
    | store l a w =>
      simp only [replay, List.foldr_cons, applyEvent, store64]
      split
      · rfl
      · exact ih
    | _ => simpa [replay, applyEvent] using ih

/-- A finished call run again in a memory that agrees with the first on every
byte the call loaded or stored makes the same steps and ends the same way. -/
theorem relocate_pointers_local {vq : RegionTable} {fuel scan_start os oe ns : Nat}
    {depth : Int} {skip_length scan_size : Nat} {mem : Mem} {r : CallResult}
    (h : relocate_pointers vq fuel scan_start os oe ns depth skip_length scan_size mem = some r)
    (mem1 : Mem) (hag : ∀ b, touches r.trace b = true → mem1 b = mem b) :
    ∃ r1, relocate_pointers vq fuel scan_start os oe ns depth skip_length scan_size mem1
        = some r1 ∧ r1.trace = r.trace ∧ r1.mem = replay r.trace mem1 := by
  by_cases hs : skip_length = 0
  · simp only [relocate_pointers, hs, ↓reduceIte, Option.some.injEq] at h ⊢
    subst h
    exact ⟨_, rfl, rfl, rfl⟩
  · obtain ⟨st, hst, hr⟩ := relocate_pointers_returned hs h
    subst hr
    obtain ⟨M2, h2, -⟩ := detail_local os oe ns skip_length (fun b => touches st.trace b = true)
      fuel 0 scan_start depth scan_size _ _ hst mem1 hag
      (fun e he l a v hev b hb => touches_of_mem he (by rw [hev]; rfl) hb)
    have hrun : relocate_pointers vq fuel scan_start os oe ns depth skip_length scan_size mem1
        = some ⟨Completion.returned, M2, st.trace⟩ := by
      simp only [relocate_pointers, hs, ↓reduceIte]
      simp only at h2
      rw [h2]
      rfl
    exact ⟨_, hrun, rfl, (relocate_pointers_trace hrun).2.2⟩

/-- C9: let calls A and B both return when run in memory `mem`, and let no
byte belong both to a word that A loads or stores and to a word that B loads or
stores. Then B returns when run in the memory A leaves, A returns when run in the
memory B leaves, each makes the same steps as in `mem`, and the final memory
is the same in either order. -/
theorem disjoint_calls_commute (vq : RegionTable) (mem : Mem)
    (fuelA startA oldA oldEndA newA : Nat) (depthA : Int) (skipA sizeA : Nat)
    (fuelB startB oldB oldEndB newB : Nat) (depthB : Int) (skipB sizeB : Nat)
    (rA rB : CallResult)
    (hA : relocate_pointers vq fuelA startA oldA oldEndA newA depthA skipA sizeA mem = some rA)
    (hB : relocate_pointers vq fuelB startB oldB oldEndB newB depthB skipB sizeB mem = some rB)
    (hdisj : ∀ b, ¬ (touches rA.trace b = true ∧ touches rB.trace b = true)) :
    ∃ rAB rBA,
      relocate_pointers vq fuelB startB oldB oldEndB newB depthB skipB sizeB rA.mem = some rAB ∧
      relocate_pointers vq fuelA startA oldA oldEndA newA depthA skipA sizeA rB.mem = some rBA ∧
      rAB.trace = rB.trace ∧ rBA.trace = rA.trace ∧ rAB.mem = rBA.mem := by
  have hmA := (relocate_pointers_trace hA).2.2
  have hmB := (relocate_pointers_trace hB).2.2
  have hnot : ∀ {x : Bool}, ¬ (x = true) → x = false := by
    intro x hx
    cases x
    · rfl
    · exact absurd rfl hx
  obtain ⟨rAB, hAB, htAB, hmAB⟩ := relocate_pointers_local hB rA.mem (by
    intro b hb
    rw [hmA]
    exact replay_byte_untouched b mem rA.trace (hnot (fun hc => hdisj b ⟨hc, hb⟩)))
  obtain ⟨rBA, hBA, htBA, hmBA⟩ := relocate_pointers_local hA rB.mem (by
    intro b hb
    rw [hmB]
    exact replay_byte_untouched b mem rB.trace (hnot (fun hc => hdisj b ⟨hb, hc⟩)))
  refine ⟨rAB, rBA, hAB, hBA, htAB, htBA, ?_⟩
  rw [hmAB, hmBA, hmA, hmB]
  funext b
  cases hb : touches rB.trace b with
  | false =>
    rw [replay_byte_untouched b _ rB.trace hb]
    exact replay_byte_congr b _ _ (replay_byte_untouched b mem rB.trace hb).symm rA.trace
  | true =>
    have ha : touches rA.trace b = false := hnot (fun hc => hdisj b ⟨hc, hb⟩)
    rw [replay_byte_untouched b _ rA.trace ha]
    exact replay_byte_congr b _ _ (replay_byte_untouched b mem rA.trace ha) rB.trace

theorem disjoint_calls_commute_witness :
    (relocate_pointers (twoRegionTable PAGE_READWRITE) 4 0x2000 0x1000 0x1100 0x5000 0 8 8
        twoWordMem
      = some ⟨Completion.returned, store64 twoWordMem 0x2000 0x5050,
          [.store 0 0x2000 0x5050, .load 0 0x2000 0x1050, .probe 0 false 0x2000 8 false,
            .probe 0 false 0x2000 8 false, .enter 0 0x2000]⟩ ∧
    relocate_pointers (twoRegionTable PAGE_READWRITE) 4 0x3000 0x1000 0x1100 0x7000 0 8 8
        twoWordMem
      = some ⟨Completion.returned, store64 twoWordMem 0x3000 0x7060,
          [.store 0 0x3000 0x7060, .load 0 0x3000 0x1060, .probe 0 false 0x3000 8 false,
            .probe 0 false 0x3000 8 false, .enter 0 0x3000]⟩) ∧
    ∃ rAB rBA,
      relocate_pointers (twoRegionTable PAGE_READWRITE) 4 0x3000 0x1000 0x1100 0x7000 0 8 8
        (store64 twoWordMem 0x2000 0x5050) = some rAB ∧
      relocate_pointers (twoRegionTable PAGE_READWRITE) 4 0x2000 0x1000 0x1100 0x5000 0 8 8
        (store64 twoWordMem 0x3000 0x7060) = some rBA ∧
      rAB.trace = [.store 0 0x3000 0x7060, .load 0 0x3000 0x1060, .probe 0 false 0x3000 8 false,
            .probe 0 false 0x3000 8 false, .enter 0 0x3000] ∧
      rBA.trace = [.store 0 0x2000 0x5050, .load 0 0x2000 0x1050, .probe 0 false 0x2000 8 false,
            .probe 0 false 0x2000 8 false, .enter 0 0x2000] ∧
      rAB.mem = rBA.mem :=
  ⟨⟨by rfl, by rfl⟩,
    disjoint_calls_commute (twoRegionTable PAGE_READWRITE) twoWordMem
      4 0x2000 0x1000 0x1100 0x5000 0 8 8 4 0x3000 0x1000 0x1100 0x7000 0 8 8
      ⟨Completion.returned, store64 twoWordMem 0x2000 0x5050,
          [.store 0 0x2000 0x5050, .load 0 0x2000 0x1050, .probe 0 false 0x2000 8 false,
            .probe 0 false 0x2000 8 false, .enter 0 0x2000]⟩
      ⟨Completion.returned, store64 twoWordMem 0x3000 0x7060,
          [.store 0 0x3000 0x7060, .load 0 0x3000 0x1060, .probe 0 false 0x3000 8 false,
            .probe 0 false 0x3000 8 false, .enter 0 0x3000]⟩
      (by rfl) (by rfl)
      (by
        intro b
        simp only [touches, List.any_cons, List.any_nil, Event.rwAddr, inWord, byteOffset,
          PTR_MOD, PTR_SIZE, Bool.or_false, Bool.false_or, Bool.or_self, Bool.and_eq_true,
          decide_eq_true_eq, not_and]
        omega)⟩

/-! ## The null address -/

/-- C11 (amended): for every mode and every length other than zero, the probe
called with the null address returns `TRUE` (unsafe), for every region table
and every fuel, and passes no address to `VirtualQuery`. -/
theorem IsBadMemPtr_null_nonzero_size (vq : RegionTable) (fuel : Nat) (write : Bool)
    (size : Nat) (hs : size ≠ 0) :
    IsBadMemPtrQ vq fuel write 0 size = some (true, []) ∧
      IsBadMemPtr vq fuel write 0 size = some true := by
  simp [IsBadMemPtr, IsBadMemPtrQ, hs]

theorem IsBadMemPtr_null_nonzero_size_witness :
    (8 : Nat) ≠ 0 ∧
    (IsBadMemPtrQ scenarioTable 0 false 0 8 = some (true, []) ∧
      IsBadMemPtr scenarioTable 0 false 0 8 = some true) :=
  ⟨by decide, IsBadMemPtr_null_nonzero_size scenarioTable 0 false 8 (by decide)⟩

/-- C11 (as stated) fails: with length 0 the probe called with the null address
returns `FALSE` (safe) in both modes, because `size == 0` is tested before
`p == NULL`. -/
theorem IsBadMemPtr_null_size_zero_is_safe :
    IsBadMemPtr scenarioTable 0 false 0 0 = some false ∧
      IsBadMemPtr scenarioTable 0 true 0 0 = some false := by
  decide

/-! ## Write-safe ranges are read-safe -/

theorem land_mod_512 (p m : Nat) (hm : m < 512) : p &&& m = (p % 512) &&& m := by
  have h1 : m &&& (2 ^ 9 - 1) = m := by
    rw [Nat.and_pow_two_sub_one_eq_mod]
    exact Nat.mod_eq_of_lt hm
  have h2 : p &&& (2 ^ 9 - 1) = p % 2 ^ 9 := Nat.and_pow_two_sub_one_eq_mod p 9
  calc p &&& m = p &&& (m &&& (2 ^ 9 - 1)) := by rw [h1]
    _ = p &&& ((2 ^ 9 - 1) &&& m) := by rw [Nat.and_comm m]
    _ = (p &&& (2 ^ 9 - 1)) &&& m := by rw [Nat.and_assoc]
    _ = (p % 512) &&& m := by rw [h2]; norm_num

theorem protectOk_mod (write : Bool) (p : Nat) : protectOk write p = protectOk write (p % 512) := by
  unfold protectOk
  rw [land_mod_512 p (protectMask write) (by cases write <;> decide),
    land_mod_512 p (PAGE_GUARD ||| PAGE_NOACCESS) (by decide)]

set_option maxRecDepth 100000 in
theorem protectOk_write_read_small :
    ∀ q, q < 512 → protectOk true q = true → protectOk false q = true := by
  decide

theorem protectOk_write_read (p : Nat) (h : protectOk true p = true) :
    protectOk false p = true := by
  rw [protectOk_mod] at h ⊢
  exact protectOk_write_read_small _ (Nat.mod_lt _ (by decide)) h

theorem check_write_read {maxp : Nat}
    {k k1 : Nat → Nat → MEMORY_BASIC_INFORMATION → Option (Bool × List Nat)}
    (hk : ∀ p regend mbi qs, k p regend mbi = some (false, qs) → k1 p regend mbi = some (false, qs))
    {p regend : Nat} {mbi : MEMORY_BASIC_INFORMATION} {queried qs : List Nat}
    (h : IsBadMemPtr.check true maxp k p regend mbi queried = some (false, qs)) :
    IsBadMemPtr.check false maxp k1 p regend mbi queried = some (false, qs) := by
  unfold IsBadMemPtr.check at h ⊢
  dsimp only at h ⊢
  by_cases c1 : protectOk true mbi.Protect = false
  · rw [if_pos c1] at h; simp at h
  · have c1r : protectOk false mbi.Protect = true :=
      protectOk_write_read _ (by simpa using c1)
    rw [if_neg c1] at h
    rw [if_neg (by simp [c1r])]
    by_cases c2 : maxp ≤ regend
    · rw [if_pos c2] at h ⊢; exact h
    · rw [if_neg c2] at h ⊢
      by_cases c3 : (if regend < maxp then regend else p) < maxp
      · rw [if_pos c3] at h ⊢
        cases hw : k (if regend < maxp then regend else p) regend mbi with
        | none => rw [hw] at h; simp at h
        | some r0 =>
          rw [hw] at h
          obtain ⟨b0, q0⟩ := r0
          simp only [Option.map_some', Option.some.injEq, Prod.mk.injEq] at h
          obtain ⟨hb, hq⟩ := h
          subst hb
          rw [hk _ _ _ _ hw]
          simp [hq]
      · rw [if_neg c3] at h ⊢; exact h

theorem walk_write_read (vq : RegionTable) (ptr maxp : Nat) :
    ∀ (fuel p regend : Nat) (mbi : MEMORY_BASIC_INFORMATION) (qs : List Nat),
      IsBadMemPtr.walk vq true ptr maxp fuel p regend mbi = some (false, qs) →
      IsBadMemPtr.walk vq false ptr maxp fuel p regend mbi = some (false, qs) := by
  intro fuel
  induction fuel with
  | zero => intro p regend mbi qs h; simp [IsBadMemPtr.walk] at h
  | succ n ih =>
    intro p regend mbi qs h
    rw [IsBadMemPtr.walk] at h ⊢
    by_cases hq : p = ptr ∨ p = regend
    · rw [if_pos hq] at h ⊢
      cases hv : vq p with
      | none => rw [hv] at h; simp at h
      | some info =>
        rw [hv] at h
        exact check_write_read ih h
    · rw [if_neg hq] at h ⊢
      exact check_write_read ih h

/-- C20: for every region table, address, length and fuel, if the probe in write
mode reports the range safe then the probe in read mode reports the same range
safe (and queries the same addresses). -/
theorem write_safe_implies_read_safe (vq : RegionTable) (pf ptr size : Nat)
    (h : IsBadMemPtr vq pf true ptr size = some false) :
    IsBadMemPtr vq pf false ptr size = some false ∧
      IsBadMemPtrQ vq pf false ptr size = IsBadMemPtrQ vq pf true ptr size := by
  unfold IsBadMemPtr IsBadMemPtrQ at h ⊢
  by_cases h0 : size = 0
  · simp [h0]
  · by_cases h1 : ptr = 0
    · simp [h0, h1] at h
    · simp only [h0, h1, if_false, Option.map_eq_some'] at h ⊢
      obtain ⟨r, hr, hb⟩ := h
      obtain ⟨b, qs⟩ := r
      simp only at hb
      subst hb
      have hr1 := walk_write_read vq ptr _ _ _ _ _ _ hr
      exact ⟨⟨_, hr1, rfl⟩, by rw [hr1, hr]⟩

theorem write_safe_implies_read_safe_witness :
    IsBadMemPtr scenarioTable 2 true 0x2000 8 = some false ∧
    (IsBadMemPtr scenarioTable 2 false 0x2000 8 = some false ∧
      IsBadMemPtrQ scenarioTable 2 false 0x2000 8 = IsBadMemPtrQ scenarioTable 2 true 0x2000 8) :=
  ⟨by decide, write_safe_implies_read_safe scenarioTable 2 0x2000 8 (by decide)⟩

/-! ## The probe against the wording of the specification -/

set_option maxRecDepth 100000 in
theorem protectOk_spec_small :
    ∀ q, q < 512 → ∀ w : Bool,
      protectOk w q = (spec_hasModeBit w q && !spec_guardOrNoAccess q) := by
  decide

theorem spec_hasModeBit_mod (write : Bool) (p : Nat) :
    spec_hasModeBit write p = spec_hasModeBit write (p % 512) := by
  unfold spec_hasModeBit
  rw [land_mod_512 p PAGE_READWRITE (by decide), land_mod_512 p PAGE_WRITECOPY (by decide),
    land_mod_512 p PAGE_EXECUTE_READWRITE (by decide),
    land_mod_512 p PAGE_EXECUTE_WRITECOPY (by decide),
    land_mod_512 p PAGE_READONLY (by decide), land_mod_512 p PAGE_EXECUTE_READ (by decide)]

theorem spec_guardOrNoAccess_mod (p : Nat) :
    spec_guardOrNoAccess p = spec_guardOrNoAccess (p % 512) := by
  unfold spec_guardOrNoAccess
  rw [land_mod_512 p PAGE_GUARD (by decide), land_mod_512 p PAGE_NOACCESS (by decide)]

/-- The test of lines 49-53 is the test the specification words. -/
theorem protectOk_spec (write : Bool) (p : Nat) :
    protectOk write p = (spec_hasModeBit write p && !spec_guardOrNoAccess p) := by
  rw [protectOk_mod, spec_hasModeBit_mod, spec_guardOrNoAccess_mod]
  exact protectOk_spec_small _ (Nat.mod_lt _ (by decide)) write

theorem walk_spec {vq : RegionTable} (hwf : Contains vq) (write : Bool) (ptr maxp : Nat) :
    ∀ (k p regend : Nat) (mbi : MEMORY_BASIC_INFORMATION), (p = ptr ∨ p = regend) →
      p < maxp → maxp ≤ p + k → ∀ n, k ≤ n →
      ∃ qs, IsBadMemPtr.walk vq write ptr maxp (k + 1) p regend mbi
        = some (!((spec_regionsMet vq maxp n p).all (spec_regionPasses write)), qs) := by
  intro k
  induction k using Nat.strong_induction_on with
  | _ k ih =>
    intro p regend mbi hq hp hk n hn
    obtain ⟨n1, rfl⟩ : ∃ n1, n = n1 + 1 := ⟨n - 1, by omega⟩
    rw [IsBadMemPtr.walk, if_pos hq, spec_regionsMet]
    cases hv : vq p with
    | none => exact ⟨[p], by simp [spec_regionPasses]⟩
    | some info =>
      obtain ⟨h1, h2⟩ := hwf p info hv
      have he : (info.BaseAddress + info.RegionSize) % PTR_MOD = regionEnd info := rfl
      simp only [he, IsBadMemPtr.check]
      by_cases c1 : protectOk write info.Protect = false
      · rw [if_pos c1]
        have c1s : spec_regionPasses write (some info) = false := by
          rw [spec_regionPasses, ← protectOk_spec]; exact c1
        by_cases c2 : maxp ≤ regionEnd info
        · rw [if_pos c2]
          exact ⟨[p], by simp [c1s]⟩
        · rw [if_neg c2]
          exact ⟨[p], by simp [c1s]⟩
      · rw [if_neg c1]
        have c1s : spec_regionPasses write (some info) = true := by
          rw [spec_regionPasses, ← protectOk_spec]; simpa using c1
        by_cases c2 : maxp ≤ regionEnd info
        · rw [if_pos c2, if_pos c2]
          exact ⟨[p], by simp [c1s]⟩
        · rw [if_neg c2, if_neg c2]
          have c3 : regionEnd info < maxp := by omega
          rw [if_pos c3, if_pos c3]
          obtain ⟨k1, rfl⟩ : ∃ k1, k = k1 + 1 := ⟨k - 1, by omega⟩
          obtain ⟨qs, hqs⟩ := ih k1 (by omega) (regionEnd info) (regionEnd info) info (Or.inr rfl)
            c3 (by omega) n1 (by omega)
          rw [hqs]
          exact ⟨[p] ++ qs, by simp [c1s]⟩

/-- The probe run with fuel `size + 1` answers with the negation of what the
specification calls safe. -/
theorem IsBadMemPtr_spec {vq : RegionTable} (hwf : Contains vq) (write : Bool) (ptr size : Nat)
    (h0 : ptr ≠ 0) (hs : 0 < size) (hw : ptr + size < 2 ^ 64) :
    IsBadMemPtr vq (size + 1) write ptr size = some (!spec_isSafe vq write ptr size) := by
  have hs0 : size ≠ 0 := by omega
  have hm : (ptr + size) % PTR_MOD = ptr + size := Nat.mod_eq_of_lt hw
  obtain ⟨qs, hqs⟩ := walk_spec hwf write ptr (ptr + size) size ptr 0 ⟨0, 0, 0⟩ (Or.inl rfl)
    (by omega) (le_refl _) size (le_refl _)
  simp only [IsBadMemPtr, IsBadMemPtrQ, hs0, h0, if_false, hm, hqs, Option.map_some', spec_isSafe]

theorem contains_adjacentTable : Contains adjacentTable := by
  intro a m h
  unfold adjacentTable at h
  split at h
  · cases h
    simp only [regionEnd, PTR_MOD]
    omega
  · split at h
    · cases h
      simp only [regionEnd, PTR_MOD]
      omega
    · cases h

/-- C12: on a region table where every successful query at `a` answers with a
region holding `a`, for a non-null address and a length above zero with
`address + length` not wrapping, the probe answers, and it reports the range safe
if and only if every region met while walking from the address through
successive region ends until `address + length` is covered was successfully
queried, has a protection bit of the mask of the mode and has neither
`PAGE_GUARD` nor `PAGE_NOACCESS`; it reports unsafe if and only if some region
met fails this. In particular a failed first query, or a guard or no-access flag
on any region met, whatever its other bits, makes the range unsafe. -/
theorem probe_safe_iff_every_region_passes (vq : RegionTable) (hwf : Contains vq)
    (write : Bool) (ptr size : Nat)
    (h0 : ptr ≠ 0) (hs : 0 < size) (hw : ptr + size < 2 ^ 64) :
    (∃ pf b, IsBadMemPtr vq pf write ptr size = some b) ∧
    (ProbeSafe vq write ptr size ↔
      ∀ r ∈ spec_regionsMet vq (ptr + size) size ptr, spec_regionPasses write r = true) ∧
    (ProbeUnsafe vq write ptr size ↔
      ∃ r ∈ spec_regionsMet vq (ptr + size) size ptr, spec_regionPasses write r = false) ∧
    (vq ptr = none → ProbeUnsafe vq write ptr size) ∧
    (∀ m, some m ∈ spec_regionsMet vq (ptr + size) size ptr →
      spec_guardOrNoAccess m.Protect = true → ProbeUnsafe vq write ptr size) := by
  have key := IsBadMemPtr_spec hwf write ptr size h0 hs hw
  have hall : spec_isSafe vq write ptr size = true ↔
      ∀ r ∈ spec_regionsMet vq (ptr + size) size ptr, spec_regionPasses write r = true := by
    simp [spec_isSafe, List.all_eq_true]
  have hunsafe : ProbeUnsafe vq write ptr size ↔
      ∃ r ∈ spec_regionsMet vq (ptr + size) size ptr, spec_regionPasses write r = false := by
    constructor
    · rintro ⟨pf, hpf⟩
      have hb := IsBadMemPtr_det hpf key
      by_contra hne
      have : spec_isSafe vq write ptr size = true := hall.mpr (fun r hr => by
        by_contra hc
        exact hne ⟨r, hr, by simpa using hc⟩)
      rw [this] at hb
      cases hb
    · rintro ⟨r, hr, hf⟩
      have : spec_isSafe vq write ptr size = false := by
        cases hc : spec_isSafe vq write ptr size with
        | false => rfl
        | true =>
          have := hall.mp hc r hr
          rw [hf] at this
          cases this
      rw [this] at key
      exact ⟨_, key⟩
  refine ⟨⟨_, _, key⟩, ?_, hunsafe, ?_, ?_⟩
  · rw [← hall]
    constructor
    · rintro ⟨pf, hpf⟩
      have hb := IsBadMemPtr_det hpf key
      cases hc : spec_isSafe vq write ptr size with
      | true => rfl
      | false => rw [hc] at hb; cases hb
    · intro hsafe
      rw [hsafe] at key
      exact ⟨_, key⟩
  · intro hv
    apply hunsafe.mpr
    obtain ⟨n, rfl⟩ : ∃ n, size = n + 1 := ⟨size - 1, by omega⟩
    exact ⟨none, by simp [spec_regionsMet, hv], rfl⟩
  · intro m hm hg
    exact hunsafe.mpr ⟨some m, hm, by simp [spec_regionPasses, hg]⟩

theorem probe_safe_iff_every_region_passes_witness :
    (Contains adjacentTable ∧ (0x2004 : Nat) ≠ 0 ∧ 0 < 8 ∧ 0x2004 + 8 < 2 ^ 64) ∧
    ((∃ pf b, IsBadMemPtr adjacentTable pf true 0x2004 8 = some b) ∧
    (ProbeSafe adjacentTable true 0x2004 8 ↔
      ∀ r ∈ spec_regionsMet adjacentTable (0x2004 + 8) 8 0x2004,
        spec_regionPasses true r = true) ∧
    (ProbeUnsafe adjacentTable true 0x2004 8 ↔
      ∃ r ∈ spec_regionsMet adjacentTable (0x2004 + 8) 8 0x2004,
        spec_regionPasses true r = false) ∧
    (adjacentTable 0x2004 = none → ProbeUnsafe adjacentTable true 0x2004 8) ∧
    (∀ m, some m ∈ spec_regionsMet adjacentTable (0x2004 + 8) 8 0x2004 →
      spec_guardOrNoAccess m.Protect = true → ProbeUnsafe adjacentTable true 0x2004 8)) :=
  ⟨⟨contains_adjacentTable, by decide, by decide, by decide⟩,
    probe_safe_iff_every_region_passes adjacentTable contains_adjacentTable true 0x2004 8
      (by decide) (by decide) (by decide)⟩

/-! ## Probes before accesses -/

theorem loadsProbed_append (evs2 evs1 : List Event)
    (h2 : loadsProbed evs2 = true) (h1 : loadsProbed evs1 = true) :
    loadsProbed (evs2 ++ evs1) = true := by
  induction evs2 with
  | nil => simpa using h1
  | cons e rest ih =>
    cases e with
    | load l a v =>
      simp only [loadsProbed, Bool.and_eq_true] at h2
      obtain ⟨hm, hr⟩ := h2
      cases rest with
      | nil => simp at hm
      | cons e2 rest2 =>
        cases e2 <;> simp_all [loadsProbed]
    | _ => simp_all [loadsProbed]

theorem loadsProbed_at :
    ∀ (pre post : List Event) (l a v : Nat),
      loadsProbed (pre ++ Event.load l a v :: post) = true →
      ∃ post1, post = Event.probe l false a PTR_SIZE false :: post1 := by
  intro pre
  induction pre with
  | nil =>
    intro post l a v h
    simp only [List.nil_append, loadsProbed, Bool.and_eq_true] at h
    obtain ⟨hm, -⟩ := h
    cases post with
    | nil => simp at hm
    | cons e rest =>
      cases e with
      | probe l1 w a1 n b =>
        simp only [Bool.and_eq_true, decide_eq_true_eq, Bool.not_eq_true'] at hm
        obtain ⟨⟨⟨⟨hl, hw⟩, ha⟩, hn⟩, hb⟩ := hm
        exact ⟨rest, by rw [hl, hw, ha, hn, hb]⟩
      | _ => simp at hm
  | cons e rest ih =>
    intro post l a v h
    apply ih post l a v
    cases e with
    | load l1 a1 v1 =>
      simp only [List.cons_append, loadsProbed, Bool.and_eq_true] at h
      exact h.2
    | _ => simpa [loadsProbed] using h

theorem probedRel_closed (vq : RegionTable) (pf os oe ns : Nat) :
    ScanClosed vq pf os oe ns (fun _ _ s s1 => ProbedRel vq pf s s1) where
  refl := fun _ _ s => ⟨[], by simp [loadsProbed]⟩
  trans := by
    rintro _ _ a b c ⟨e1, ht1, hp1, hj1⟩ ⟨e2, ht2, hp2, hj2⟩
    refine ⟨e2 ++ e1, by simp [ht2, ht1], loadsProbed_append _ _ hp2 hp1, ?_⟩
    intro e he
    rcases List.mem_append.mp he with h | h
    · exact hj2 e h
    · exact hj1 e h
  call := fun _ _ _ _ _ h => h
  enterSeen := fun l _ s x _ => ⟨[.enter l x], by
    simp [State.log, loadsProbed, Event.Justified]⟩
  enterProbe := fun l _ s x n b _ hb => ⟨[.probe l false x n b, .enter l x], by
    simp [State.log, State.see, loadsProbed, Event.Justified, hb]⟩
  probeBad := fun l _ s a _ hb => ⟨[.probe l false a PTR_SIZE true], by
    simp [State.log, loadsProbed, Event.Justified, hb]⟩
  readFault := fun l _ s a ha hb hacc =>
    ⟨[.fault l false a, .probe l false a PTR_SIZE false], by
      simp [State.log, State.see, loadsProbed, Event.Justified, hb, hacc, ha]⟩
  loadOnly := fun l _ s a ha hb hacc _ =>
    ⟨[.load l a (load64 s.mem a), .probe l false a PTR_SIZE false], by
      simp [State.log, State.see, loadsProbed, Event.Justified, hb, hacc, ha]⟩
  writeFault := fun l _ s a ha hb hacc _ haw =>
    ⟨[.fault l true a, .load l a (load64 s.mem a), .probe l false a PTR_SIZE false], by
      simp [State.log, State.see, loadsProbed, Event.Justified, hb, hacc, haw, ha]⟩
  loadStore := fun l _ s a ha hb hacc _ haw =>
    ⟨[.store l a (translate os ns (load64 s.mem a)), .load l a (load64 s.mem a),
      .probe l false a PTR_SIZE false], by
      simp [State.log, State.see, State.write, loadsProbed, Event.Justified, hb, hacc, haw, ha]⟩
  followProbe := fun l _ s v b _ hb => ⟨[.probe l false v PTR_SIZE b], by
    simp [State.log, loadsProbed, Event.Justified, hb]⟩

/-- The record of a finished call of the public entry point is justified and its
loads are probed. -/
theorem relocate_pointers_probed {vq : RegionTable} {fuel scan_start os oe ns : Nat}
    {depth : Int} {skip_length scan_size : Nat} {mem : Mem} {r : CallResult}
    (h : relocate_pointers vq fuel scan_start os oe ns depth skip_length scan_size mem = some r) :
    loadsProbed r.trace = true ∧ ∀ e ∈ r.trace, e.Justified vq fuel := by
  by_cases hs : skip_length = 0
  · simp only [relocate_pointers, hs, if_true, Option.some.injEq] at h
    subst h
    exact ⟨rfl, by simp⟩
  · obtain ⟨st, hst, hr⟩ := relocate_pointers_returned hs h
    obtain ⟨evs, ht, hp, hj⟩ := detail_closed (probedRel_closed vq fuel os oe ns) skip_length
      fuel 0 scan_start depth scan_size _ _ hst
    subst hr
    simp only [List.append_nil] at ht
    simp only [ht]
    exact ⟨hp, hj⟩

/-- C15: in every finished call (the region table does not change during it),
each load of a pointer-sized word at an address `a` comes right after a probe
for reading `sizeof(void*)` bytes at `a`, made by the same invocation, that
reported safe; the recorded answer is the answer of `IsBadMemPtr`, so the range
loaded from is one the probe classifies as read-safe. The record is newest
first. -/
theorem every_load_is_probed (vq : RegionTable)
    (fuel scan_start old_start old_end new_start : Nat) (depth : Int)
    (skip_length scan_size : Nat) (mem : Mem) (r : CallResult)
    (h : relocate_pointers vq fuel scan_start old_start old_end new_start depth skip_length
      scan_size mem = some r)
    (pre post : List Event) (l a v : Nat)
    (ht : r.trace = pre ++ Event.load l a v :: post) :
    (∃ post1, post = Event.probe l false a PTR_SIZE false :: post1) ∧
      IsBadMemPtr vq fuel false a PTR_SIZE = some false ∧ ProbeSafe vq false a PTR_SIZE := by
  obtain ⟨hp, hj⟩ := relocate_pointers_probed h
  rw [ht] at hp
  have hl := hj (Event.load l a v) (by rw [ht]; simp)
  exact ⟨loadsProbed_at pre post l a v hp, hl.2.1, ⟨fuel, hl.2.1⟩⟩

theorem every_load_is_probed_witness :
    relocate_pointers scenarioTable 4 0x2000 0x1000 0x1100 0x5000 0 8 8 (wordAt 0x2000 0x9999)
      = some ⟨Completion.returned, wordAt 0x2000 0x9999,
          [.load 0 0x2000 0x9999, .probe 0 false 0x2000 8 false,
            .probe 0 false 0x2000 8 false, .enter 0 0x2000]⟩ ∧
    ((∃ post1, [Event.probe 0 false 0x2000 8 false, .probe 0 false 0x2000 8 false,
        .enter 0 0x2000] = Event.probe 0 false 0x2000 PTR_SIZE false :: post1) ∧
      IsBadMemPtr scenarioTable 4 false 0x2000 PTR_SIZE = some false ∧
      ProbeSafe scenarioTable false 0x2000 PTR_SIZE) :=
  ⟨by rfl,
    every_load_is_probed scenarioTable 4 0x2000 0x1000 0x1100 0x5000 0 8 8 (wordAt 0x2000 0x9999)
      ⟨Completion.returned, wordAt 0x2000 0x9999,
          [.load 0 0x2000 0x9999, .probe 0 false 0x2000 8 false,
            .probe 0 false 0x2000 8 false, .enter 0 0x2000]⟩
      (by rfl) []
      [.probe 0 false 0x2000 8 false, .probe 0 false 0x2000 8 false, .enter 0 0x2000]
      0 0x2000 0x9999 rfl⟩

/-! ## Stores are not probed for writing -/

theorem walk_complete {vq : RegionTable} (hloc : Located vq) (write : Bool) (a : Nat)
    (hacc : ∀ b, a ≤ b → b < a + 8 → byteAccessible vq write b = true) :
    ∀ (k p regend : Nat) (mbi : MEMORY_BASIC_INFORMATION), (p = a ∨ p = regend) →
      a ≤ p → p < a + 8 → a + 8 ≤ p + k →
      ∃ qs, IsBadMemPtr.walk vq write a (a + 8) (k + 1) p regend mbi = some (false, qs) := by
  intro k
  induction k using Nat.strong_induction_on with
  | _ k ih =>
    intro p regend mbi hq hap hp hk
    rw [IsBadMemPtr.walk, if_pos hq]
    have hb := hacc p hap hp
    unfold byteAccessible at hb
    cases hv : vq p with
    | none => rw [hv] at hb; cases hb
    | some info =>
      rw [hv] at hb
      simp only at hb
      obtain ⟨h1, h2, h3⟩ := hloc p info hv
      have hre : (info.BaseAddress + info.RegionSize) % PTR_MOD
          = info.BaseAddress + info.RegionSize := Nat.mod_eq_of_lt h3
      simp only [hre, IsBadMemPtr.check]
      rw [if_neg (by simp [hb])]
      by_cases c2 : a + 8 ≤ info.BaseAddress + info.RegionSize
      · rw [if_pos c2]; exact ⟨_, rfl⟩
      · rw [if_neg c2]
        have c3 : info.BaseAddress + info.RegionSize < a + 8 := by omega
        rw [if_pos c3, if_pos c3]
        obtain ⟨k1, rfl⟩ : ∃ k1, k = k1 + 1 := ⟨k - 1, by omega⟩
        obtain ⟨qs, hqs⟩ := ih k1 (by omega) (info.BaseAddress + info.RegionSize)
          (info.BaseAddress + info.RegionSize) info (Or.inr rfl) (by omega) c3 (by omega)
        rw [hqs]
        exact ⟨_, rfl⟩

/-- On a located region table, a pointer-sized word at a non-null address that
passes the access check of a mode probes safe in that mode. -/
theorem probe_of_accessible {vq : RegionTable} (hloc : Located vq) {write : Bool} {a : Nat}
    (h0 : a ≠ 0) (ha : a < PTR_MOD) (hacc : accessible vq write a = true) :
    ProbeSafe vq write a PTR_SIZE := by
  simp only [accessible, List.all_eq_true, List.mem_range, PTR_SIZE] at hacc
  have h8 : PTR_SIZE ≠ 0 := by decide
  by_cases hw : a + 8 < PTR_MOD
  · have hbytes : ∀ b, a ≤ b → b < a + 8 → byteAccessible vq write b = true := by
      intro b h1 h2
      have := hacc (b - a) (by omega)
      rwa [show a + (b - a) = b by omega, Nat.mod_eq_of_lt (by omega)] at this
    obtain ⟨qs, hqs⟩ := walk_complete hloc write a hbytes 8 a 0 ⟨0, 0, 0⟩ (Or.inl rfl)
      (le_refl a) (by omega) (le_refl _)
    refine ⟨9, ?_⟩
    have h80 : (8 : Nat) ≠ 0 := by decide
    simp only [IsBadMemPtr, IsBadMemPtrQ, PTR_SIZE, h80, h0, if_false, Nat.mod_eq_of_lt hw, hqs,
      Option.map_some']
  · -- the word wraps around the top of the address space
    have hb := hacc 0 (by omega)
    rw [Nat.add_zero, Nat.mod_eq_of_lt ha] at hb
    unfold byteAccessible at hb
    cases hv : vq a with
    | none => rw [hv] at hb; cases hb
    | some info =>
      rw [hv] at hb
      simp only at hb
      obtain ⟨h1, h2, h3⟩ := hloc a info hv
      have hre : (info.BaseAddress + info.RegionSize) % PTR_MOD
          = info.BaseAddress + info.RegionSize := Nat.mod_eq_of_lt h3
      have hmax : (a + 8) % PTR_MOD ≤ info.BaseAddress + info.RegionSize := by
        unfold PTR_MOD at *
        omega
      refine ⟨1, ?_⟩
      have h80 : (8 : Nat) ≠ 0 := by decide
      simp only [IsBadMemPtr, IsBadMemPtrQ, PTR_SIZE, h80, h0, if_false, IsBadMemPtr.walk,
        true_or, if_true, hv, hre, IsBadMemPtr.check, hb, Bool.true_eq_false]
      rw [if_pos hmax]
      rfl

/-- C13 (as stated) fails: the word `0x1080` at `0x2008` lies in a read-only
region, so the probe reports `(Write, 0x2008, 8)` unsafe. The scanner, with
old range `[0x1000, 0x1100)`, depth 0, stride 8 and window 16, probes the word
for reading only, loads it and attempts the store: a write fault occurs. -/
theorem store_is_attempted_without_write_probe :
    IsBadMemPtr readonlyTable 2 true 0x2008 8 = some true ∧
    (relocate_pointers readonlyTable 5 0x2000 0x1000 0x1100 0x5000 0 8 16
        (wordAt 0x2008 0x1080)).map (fun r => (r.completion, load64 r.mem 0x2008, r.trace))
      = some (Completion.returned, 0x1080,
          [.fault 0 true 0x2008, .load 0 0x2008 0x1080, .probe 0 false 0x2008 8 false,
            .load 0 0x2000 0, .probe 0 false 0x2000 8 false,
            .probe 0 false 0x2000 8 false, .enter 0 0x2000]) := by
  decide

/-! ## Faults end one invocation only -/

theorem answers_fault {e : Event} {lf : Nat} {w : Bool} {a : Nat}
    (h : e.answers (Event.fault lf w a) = true) :
    ∃ l a1 b, e = Event.probe l false a1 PTR_SIZE b ∧ l < lf := by
  cases e with
  | probe l w1 a1 n b =>
    simp only [Event.answers, Bool.and_eq_true, Bool.not_eq_true', decide_eq_true_eq] at h
    obtain ⟨⟨hw, hn⟩, hl⟩ := h
    subst hw hn
    exact ⟨l, a1, b, rfl, hl⟩
  | _ => simp [Event.answers] at h

theorem answers_of_not_fault (e f : Event) (h : ∀ lf w a, f ≠ Event.fault lf w a) :
    e.answers f = true := by
  cases f with
  | fault lf w a => exact absurd rfl (h lf w a)
  | _ => rfl

theorem faultsAnswered_cons (e f : Event) (rest : List Event) :
    faultsAnswered (e :: f :: rest) = (e.answers f && faultsAnswered (f :: rest)) := rfl

theorem faultsAnswered_append :
    ∀ (evs2 evs1 : List Event), faultsAnswered evs2 = true → faultsAnswered evs1 = true →
      (∀ lf w a rest, evs1 = Event.fault lf w a :: rest →
        evs2 = [] ∨ ∃ evs3 l a1 b, evs2 = evs3 ++ [Event.probe l false a1 PTR_SIZE b] ∧ l < lf) →
      faultsAnswered (evs2 ++ evs1) = true := by
  intro evs2
  induction evs2 with
  | nil => intro evs1 _ h1 _; simpa using h1
  | cons e rest ih =>
    intro evs1 h2 h1 hb
    cases rest with
    | nil =>
      cases evs1 with
      | nil => rfl
      | cons f rest1 =>
        rw [List.cons_append, List.nil_append, faultsAnswered_cons, h1, Bool.and_true]
        cases f with
        | fault lf w a =>
          rcases hb lf w a rest1 rfl with h | ⟨evs3, l, a1, b, he, hl⟩
          · cases h
          · cases evs3 with
            | nil =>
              simp only [List.nil_append, List.cons.injEq, and_true] at he
              subst he
              simp [Event.answers, hl]
            | cons x xs =>
              simp only [List.cons_append, List.cons.injEq] at he
              have := he.2
              cases xs <;> simp at this
        | _ => rfl
    | cons e2 rest3 =>
      rw [faultsAnswered_cons, Bool.and_eq_true] at h2
      rw [List.cons_append, List.cons_append, faultsAnswered_cons, Bool.and_eq_true]
      refine ⟨h2.1, ?_⟩
      rw [← List.cons_append]
      apply ih evs1 h2.2 h1
      intro lf w a rest1 he1
      rcases hb lf w a rest1 he1 with h | ⟨evs3, l, a1, b, he, hl⟩
      · cases h
      · right
        cases evs3 with
        | nil => simp at he
        | cons x xs =>
          simp only [List.cons_append, List.cons.injEq] at he
          exact ⟨xs, l, a1, b, he.2, hl⟩

theorem faultsAnswered_at :
    ∀ (post pre : List Event) (lf : Nat) (w : Bool) (a : Nat),
      faultsAnswered (post ++ Event.fault lf w a :: pre) = true →
      post = [] ∨ ∃ post1 l a1 b, post = post1 ++ [Event.probe l false a1 PTR_SIZE b] ∧ l < lf := by
  intro post
  induction post with
  | nil => intro _ _ _ _ _; exact Or.inl rfl
  | cons e rest ih =>
    intro pre lf w a h
    right
    cases rest with
    | nil =>
      rw [List.cons_append, List.nil_append, faultsAnswered_cons, Bool.and_eq_true] at h
      obtain ⟨l, a1, b, he, hl⟩ := answers_fault h.1
      exact ⟨[], l, a1, b, by rw [he]; rfl, hl⟩
    | cons e2 rest3 =>
      rw [List.cons_append, List.cons_append, faultsAnswered_cons, Bool.and_eq_true,
        ← List.cons_append] at h
      rcases ih pre lf w a h.2 with h3 | ⟨post1, l, a1, b, he, hl⟩
      · cases h3
      · exact ⟨e :: post1, l, a1, b, by rw [he]; rfl, hl⟩

theorem faultsAnswered_append_of_head (evs2 evs1 : List Event)
    (h2 : faultsAnswered evs2 = true) (h1 : faultsAnswered evs1 = true)
    (hh : ∀ lf w a rest, evs1 ≠ Event.fault lf w a :: rest) :
    faultsAnswered (evs2 ++ evs1) = true :=
  faultsAnswered_append evs2 evs1 h2 h1 (fun lf w a rest he => absurd he (hh lf w a rest))

theorem follow_contained {vq : RegionTable} {pf : Nat} {recurse : Nat → State → Option State}
    {level : Nat} {depth : Int}
    (hrec : ∀ v s s1, recurse v s = some s1 → ContainRel (level + 1) s s1)
    {v : Nat} {st st1 : State} (h : follow vq pf recurse level depth v st = some st1) :
    ∃ evs, st1.trace = evs ++ st.trace ∧ (∀ e ∈ evs, level ≤ e.level) ∧
      faultsAnswered evs = true ∧
      ∀ lf w a rest, evs = Event.fault lf w a :: rest → level + 1 ≤ lf := by
  unfold follow at h
  by_cases hd : depth > 0
  · rw [if_pos hd] at h
    cases hp : IsBadMemPtr vq pf false v PTR_SIZE with
    | none => rw [hp] at h; simp at h
    | some bad =>
      rw [hp] at h
      dsimp only at h
      cases bad with
      | true =>
        simp only [↓reduceIte, Option.some.injEq] at h
        subst h
        exact ⟨[.probe level false v PTR_SIZE true], rfl, by simp [Event.level], rfl,
          by simp⟩
      | false =>
        simp only [Bool.false_eq_true, ↓reduceIte] at h
        obtain ⟨evs, ht, hl, hf⟩ := hrec _ _ _ h
        refine ⟨evs ++ [.probe level false v PTR_SIZE false], by simp [ht, State.log], ?_,
          faultsAnswered_append_of_head _ _ hf (by rfl) (by simp), ?_⟩
        · intro e he
          rcases List.mem_append.mp he with h1 | h1
          · have := hl e h1
            omega
          · simp only [List.mem_singleton] at h1
            subst h1
            simp [Event.level]
        · intro lf w a rest he
          cases evs with
          | nil => simp at he
          | cons x xs =>
            simp only [List.cons_append, List.cons.injEq] at he
            have := hl x (List.mem_cons_self _ _)
            rw [he.1] at this
            exact this
  · rw [if_neg hd] at h
    simp only [Option.some.injEq] at h
    subst h
    exact ⟨[], rfl, by simp, rfl, by simp⟩

theorem scanLoop_contained {vq : RegionTable} {pf : Nat}
    {recurse : Nat → State → Option State} {level scan_start os oe ns : Nat} {depth : Int}
    {skip_length scan_size : Nat}
    (hrec : ∀ v s s1, recurse v s = some s1 → ContainRel (level + 1) s s1) :
    ∀ (fuel i : Nat) (st st1 : State),
      scanLoop vq pf recurse level scan_start os oe ns depth skip_length scan_size fuel i st
        = some st1 →
      ∃ evs, st1.trace = evs ++ st.trace ∧ (∀ e ∈ evs, level ≤ e.level) ∧
        faultsAnswered evs = true ∧ StartsWithProbe level evs := by
  intro fuel
  induction fuel with
  | zero => intro i st st1 h; simp [scanLoop] at h
  | succ f ih =>
    intro i st st1 h
    rw [scanLoop] at h
    by_cases c0 : i < scan_size
    · rw [if_pos c0] at h
      dsimp only at h
      -- what the recursive call and the rest of the loop add to the steps `pre`
      have hrest : ∀ (s4 : State) (pre1 : List Event) (x : Event) (v : Nat),
          s4.trace = (x :: pre1 ++ [Event.probe level false (ptrAddInt32 scan_start i) PTR_SIZE
            false]) ++ st.trace →
          (∀ lf w a, x ≠ Event.fault lf w a) →
          (∀ e ∈ x :: pre1, level ≤ e.level) →
          faultsAnswered (x :: pre1 ++ [Event.probe level false (ptrAddInt32 scan_start i)
            PTR_SIZE false]) = true →
          (match follow vq pf recurse level depth v s4 with
            | none => none
            | some st5 =>
              scanLoop vq pf recurse level scan_start os oe ns depth skip_length scan_size f
                ((i + skip_length) % U32_MOD) st5) = some st1 →
          ∃ evs, st1.trace = evs ++ st.trace ∧ (∀ e ∈ evs, level ≤ e.level) ∧
            faultsAnswered evs = true ∧ StartsWithProbe level evs := by
        intro s4 pre1 x v hpre hx hlev hfa h4
        split at h4
        · simp at h4
        · next st5 hf =>
          obtain ⟨e1, ht1, hl1, hf1, hh1⟩ := follow_contained hrec hf
          obtain ⟨e2, ht2, hl2, hf2, hs2⟩ := ih _ _ _ h4
          refine ⟨e2 ++ (e1 ++ (x :: pre1 ++ [Event.probe level false
            (ptrAddInt32 scan_start i) PTR_SIZE false])), by simp [ht2, ht1, hpre], ?_, ?_, ?_⟩
          · intro e he
            rcases List.mem_append.mp he with h2 | h2
            · exact hl2 e h2
            · rcases List.mem_append.mp h2 with h3 | h3
              · exact hl1 e h3
              · rcases List.mem_append.mp h3 with h5 | h5
                · exact hlev e h5
                · simp only [List.mem_singleton] at h5
                  subst h5
                  simp [Event.level]
          · apply faultsAnswered_append _ _ hf2
              (faultsAnswered_append_of_head _ _ hf1 hfa (by
                intro lf w a rest he
                simp only [List.cons_append, List.cons.injEq] at he
                exact hx lf w a he.1))
            intro lf w a rest he
            have hlf : level + 1 ≤ lf := by
              cases e1 with
              | nil =>
                simp only [List.nil_append, List.cons_append, List.cons.injEq] at he
                exact absurd he.1 (hx lf w a)
              | cons y ys =>
                simp only [List.cons_append, List.cons.injEq] at he
                exact hh1 lf w a ys (by rw [he.1])
            rcases hs2 with h6 | ⟨evs1, a1, b, h6⟩
            · exact Or.inl h6
            · exact Or.inr ⟨evs1, level, a1, b, h6, by omega⟩
          · right
            exact ⟨e2 ++ (e1 ++ (x :: pre1)), ptrAddInt32 scan_start i, false, by simp⟩
      cases hp : IsBadMemPtr vq pf false (ptrAddInt32 scan_start i) PTR_SIZE with
      | none => rw [hp] at h; simp at h
      | some bad =>
        rw [hp] at h
        dsimp only at h
        cases bad with
        | true =>
          simp only [↓reduceIte, Option.some.injEq] at h
          subst h
          exact ⟨[.probe level false _ PTR_SIZE true], rfl, by simp [Event.level], rfl,
            Or.inr ⟨[], _, _, rfl⟩⟩
        | false =>
          simp only [Bool.false_eq_true, ↓reduceIte] at h
          by_cases c1 : accessible vq false (ptrAddInt32 scan_start i) = false
          · rw [if_pos c1] at h
            simp only [Option.some.injEq] at h
            subst h
            exact ⟨[.fault level false _, .probe level false _ PTR_SIZE false], rfl,
              by simp [Event.level], rfl, Or.inr ⟨[.fault level false _], _, _, rfl⟩⟩
          · rw [if_neg c1] at h
            split_ifs at h with c2 c3
            · simp only [Option.some.injEq] at h
              subst h
              exact ⟨[.fault level true _, .load level _ _, .probe level false _ PTR_SIZE false],
                rfl, by simp [Event.level], rfl,
                Or.inr ⟨[.fault level true _, .load level _ _], _, _, rfl⟩⟩
            · exact hrest _ [.load level _ _] (.store level _ _) _ rfl (by simp)
                (by simp [Event.level]) rfl h
            · exact hrest _ [] (.load level _ _) _ rfl (by simp) (by simp [Event.level]) rfl h
    · rw [if_neg c0] at h
      simp only [Option.some.injEq] at h
      subst h
      exact ⟨[], rfl, by simp, rfl, Or.inl rfl⟩

theorem detail_contained {vq : RegionTable} {pf : Nat} (os oe ns skip_length : Nat) :
    ∀ (fuel level scan_start : Nat) (depth : Int) (scan_size : Nat) (st st1 : State),
      detail.relocate_pointers vq pf fuel level scan_start os oe ns depth skip_length scan_size
        st = some st1 → ContainRel level st st1 := by
  intro fuel
  induction fuel with
  | zero => intro level scan_start depth scan_size st st1 h; simp [detail.relocate_pointers] at h
  | succ f ih =>
    intro level scan_start depth scan_size st st1 h
    rw [detail.relocate_pointers] at h
    dsimp only at h
    split_ifs at h with c0
    · simp only [Option.some.injEq] at h
      subst h
      exact ⟨[.enter level scan_start], rfl, by simp [Event.level], rfl⟩
    · cases hp : IsBadMemPtr vq pf false scan_start skip_length with
      | none => rw [hp] at h; simp at h
      | some bad =>
        rw [hp] at h
        dsimp only at h
        cases bad with
        | true =>
          simp only [↓reduceIte, Option.some.injEq] at h
          subst h
          exact ⟨[.probe level false scan_start skip_length true, .enter level scan_start], rfl,
            by simp [Event.level], rfl⟩
        | false =>
          simp only [Bool.false_eq_true, ↓reduceIte] at h
          obtain ⟨evs, ht, hl, hf, -⟩ := scanLoop_contained
            (fun v s s1 hv => ih (level + 1) v (depth - 1) 0x1000 s s1 hv) f 0 _ _ h
          refine ⟨evs ++ [.probe level false scan_start skip_length false,
            .enter level scan_start], by simp [ht, State.log, State.see], ?_,
            faultsAnswered_append_of_head _ _ hf (by rfl) (by simp)⟩
          intro e he
          rcases List.mem_append.mp he with h1 | h1
          · exact hl e h1
          · simp only [List.mem_cons, List.mem_singleton, List.not_mem_nil, or_false] at h1
            rcases h1 with rfl | rfl <;> simp [Event.level]

theorem located_siblingTable : Located siblingTable := by
  intro a m h
  unfold siblingTable at h
  split at h
  · cases h
    simp only [PTR_MOD]
    omega
  · split at h
    · cases h
      simp only [PTR_MOD]
      omega
    · split at h
      · cases h
        simp only [PTR_MOD]
        omega
      · split at h
        · cases h
          simp only [PTR_MOD]
          omega
        · cases h

/-- Fault containment on windows whose counter does not wrap. On a located
region table, for every memory, depth,
stride above zero and window with `window_size + stride ≤ 2^32`, the call
returns normally with enough fuel, and for every finished call: the completion
is the normal return; the final memory is the initial memory with every store of
the step record applied in order, so the rewrites made before a fault stay in
memory; and every fault in the record is either the last step of the whole call
or is directly followed by the read probe of a pointer-sized word made by the
scan loop of an invocation at a strictly lower nesting level, that is, the
faulting invocation makes no further step and a calling invocation goes on with
its next offset. -/
theorem faults_end_one_invocation_only (vq : RegionTable) (hloc : Located vq)
    (scan_start old_start old_end new_start : Nat) (depth : Int)
    (skip_length scan_size : Nat) (mem : Mem)
    (hs : 0 < skip_length) (hu : skip_length < 2 ^ 32) (hw : scan_size + skip_length ≤ 2 ^ 32) :
    (∃ fuel r, relocate_pointers vq fuel scan_start old_start old_end new_start depth
        skip_length scan_size mem = some r ∧ r.completion = Completion.returned) ∧
    (∀ fuel r, relocate_pointers vq fuel scan_start old_start old_end new_start depth
        skip_length scan_size mem = some r →
      r.completion = Completion.returned ∧ r.mem = replay r.trace mem ∧
      ∀ post pre lf w a, r.trace = post ++ Event.fault lf w a :: pre →
        post = [] ∨ ∃ post1 l a1 b,
          post = post1 ++ [Event.probe l false a1 PTR_SIZE b] ∧ l < lf) := by
  refine ⟨relocate_pointers_terminates hloc _ _ _ _ _ _ _ _ hs (by unfold U32_MOD; omega)
    (by unfold U32_MOD; omega), ?_⟩
  intro fuel r h
  obtain ⟨st, hst, hr⟩ := relocate_pointers_returned (by omega) h
  obtain ⟨evs, ht, -, hf⟩ := detail_contained old_start old_end new_start skip_length fuel 0
    scan_start depth scan_size _ _ hst
  have hm := (relocate_pointers_trace h).2.2
  subst hr
  simp only [List.append_nil] at ht
  refine ⟨rfl, hm, ?_⟩
  intro post pre lf w a he
  simp only [ht] at he
  rw [he] at hf
  exact faultsAnswered_at post pre lf w a hf

theorem faults_end_one_invocation_only_witness :
    (Located siblingTable ∧ 0 < 8 ∧ 8 < 2 ^ 32 ∧ 16 + 8 ≤ 2 ^ 32) ∧
    ((∃ fuel r, relocate_pointers siblingTable fuel 0x2000 0x1000 0x1100 0x5000 1 8 16
        siblingMem = some r ∧ r.completion = Completion.returned) ∧
    (∀ fuel r, relocate_pointers siblingTable fuel 0x2000 0x1000 0x1100 0x5000 1 8 16
        siblingMem = some r →
      r.completion = Completion.returned ∧ r.mem = replay r.trace siblingMem ∧
      ∀ post pre lf w a, r.trace = post ++ Event.fault lf w a :: pre →
        post = [] ∨ ∃ post1 l a1 b,
          post = post1 ++ [Event.probe l false a1 PTR_SIZE b] ∧ l < lf)) ∧
    (relocate_pointers siblingTable 8 0x2000 0x1000 0x1100 0x5000 1 8 16 siblingMem).map
      (fun r => (r.completion, load64 r.mem 0x3000, load64 r.mem 0x3008, load64 r.mem 0x4000,
        r.trace))
      = some (Completion.returned, 0x5050, 0x1058, 0x5060,
          [.probe 1 false 0x4008 8 true, .store 1 0x4000 0x5060, .load 1 0x4000 0x1060,
            .probe 1 false 0x4000 8 false, .probe 1 false 0x4000 8 false, .enter 1 0x4000,
            .probe 0 false 0x4000 8 false, .load 0 0x2008 0x4000, .probe 0 false 0x2008 8 false,
            .fault 1 true 0x3008, .load 1 0x3008 0x1058, .probe 1 false 0x3008 8 false,
            .store 1 0x3000 0x5050, .load 1 0x3000 0x1050, .probe 1 false 0x3000 8 false,
            .probe 1 false 0x3000 8 false, .enter 1 0x3000, .probe 0 false 0x3000 8 false,
            .load 0 0x2000 0x3000, .probe 0 false 0x2000 8 false,
            .probe 0 false 0x2000 8 false, .enter 0 0x2000]) :=
  ⟨⟨located_siblingTable, by decide, by decide, by decide⟩,
    faults_end_one_invocation_only siblingTable located_siblingTable 0x2000 0x1000 0x1100
      0x5000 1 8 16 siblingMem (by decide) (by decide) (by decide),
    by decide⟩

/-! ## The visited set -/

theorem seenRel_closed (vq : RegionTable) (pf os oe ns : Nat) :
    ScanClosed vq pf os oe ns SeenRel where
  refl := fun _ _ s => ⟨[], by simp⟩
  trans := by
    rintro l d a b c ⟨e1, ht1, hs1, h1⟩ ⟨e2, ht2, hs2, h2⟩
    refine ⟨e2 ++ e1, by simp [ht2, ht1], fun x hx => hs2 x (hs1 x hx), ?_⟩
    intro e he x hv
    rcases List.mem_append.mp he with h | h
    · exact h2 e h x hv
    · exact hs2 x (h1 e h x hv)
  call := fun l d s s1 _ h => h
  enterSeen := fun l d s x hx => ⟨[.enter l x], by
    simp [State.log, Event.visited, hx]⟩
  enterProbe := fun l d s x n b _ _ => ⟨[.probe l false x n b, .enter l x], by
    simp [State.log, State.see, Event.visited]; intro a ha; exact Or.inr ha⟩
  probeBad := fun l d s a _ _ => ⟨[.probe l false a PTR_SIZE true], by
    simp [State.log, Event.visited]⟩
  readFault := fun l d s a _ _ _ => ⟨[.fault l false a, .probe l false a PTR_SIZE false], by
    simp [State.log, State.see, Event.visited]; intro a ha; exact Or.inr ha⟩
  loadOnly := fun l d s a _ _ _ _ =>
    ⟨[.load l a (load64 s.mem a), .probe l false a PTR_SIZE false], by
      simp [State.log, State.see, Event.visited]; intro a ha; exact Or.inr ha⟩
  writeFault := fun l d s a _ _ _ _ _ =>
    ⟨[.fault l true a, .load l a (load64 s.mem a), .probe l false a PTR_SIZE false], by
      simp [State.log, State.see, Event.visited]; intro a ha; exact Or.inr ha⟩
  loadStore := fun l d s a _ _ _ _ _ =>
    ⟨[.store l a (translate os ns (load64 s.mem a)), .load l a (load64 s.mem a),
      .probe l false a PTR_SIZE false], by
      simp [State.log, State.see, State.write, Event.visited]; intro a ha; exact Or.inr ha⟩
  followProbe := fun l d s v b _ _ => ⟨[.probe l false v PTR_SIZE b], by
    simp [State.log, Event.visited]⟩

/-- C19: visited suppression. An invocation whose `scan_start` is in the visited
set of the state it starts from returns at once for every fuel above zero,
level, range, depth, stride and window: the memory and the visited set are those
it started from and the only step recorded is the entry mark of the invocation,
so it makes no probe, load or store. Moreover, if that state was left by an
earlier invocation, its visited set holds everything visited before that
invocation, the `scan_start` of every invocation entered during it and the
address of every word loaded during it. -/
theorem visited_scan_start_returns_immediately (vq : RegionTable) (pf fuel level scan_start
    old_start old_end new_start : Nat) (depth : Int) (skip_length scan_size : Nat) (st : State)
    (h : scan_start ∈ st.seen) :
    detail.relocate_pointers vq pf (fuel + 1) level scan_start old_start old_end new_start depth
        skip_length scan_size st
      = some ⟨st.mem, st.seen, Event.enter level scan_start :: st.trace⟩ ∧
    ∀ fuel0 level0 start0 depth0 size0 st0,
      detail.relocate_pointers vq pf fuel0 level0 start0 old_start old_end new_start depth0
        skip_length size0 st0 = some st →
      ∃ evs, st.trace = evs ++ st0.trace ∧ (∀ a ∈ st0.seen, a ∈ st.seen) ∧
        (∀ l a, Event.enter l a ∈ evs → a ∈ st.seen) ∧
        ∀ l a v, Event.load l a v ∈ evs → a ∈ st.seen := by
  constructor
  · rw [detail.relocate_pointers]
    simp [State.log, h]
  · intro fuel0 level0 start0 depth0 size0 st0 hrun
    obtain ⟨evs, ht, hs, hv⟩ := detail_closed (seenRel_closed vq pf old_start old_end new_start)
      skip_length fuel0 level0 start0 depth0 size0 _ _ hrun
    exact ⟨evs, ht, hs, fun l a he => hv _ he a rfl, fun l a v he => hv _ he a rfl⟩

theorem visited_scan_start_returns_immediately_witness :
    0x2000 ∈ (⟨zeroMem, [0x2000, 0x1ff8], []⟩ : State).seen ∧
    (detail.relocate_pointers overlapTable 2 (0 + 1) 1 0x2000 0x1000 0x1100 0x5000 0 8 0x1000
        ⟨zeroMem, [0x2000, 0x1ff8], []⟩
      = some ⟨zeroMem, [0x2000, 0x1ff8], [Event.enter 1 0x2000]⟩ ∧
    ∀ fuel0 level0 start0 depth0 size0 st0,
      detail.relocate_pointers overlapTable 2 fuel0 level0 start0 0x1000 0x1100 0x5000 depth0
        8 size0 st0 = some ⟨zeroMem, [0x2000, 0x1ff8], []⟩ →
      ∃ evs, (⟨zeroMem, [0x2000, 0x1ff8], []⟩ : State).trace = evs ++ st0.trace ∧
        (∀ a ∈ st0.seen, a ∈ (⟨zeroMem, [0x2000, 0x1ff8], []⟩ : State).seen) ∧
        (∀ l a, Event.enter l a ∈ evs → a ∈ (⟨zeroMem, [0x2000, 0x1ff8], []⟩ : State).seen) ∧
        ∀ l a v, Event.load l a v ∈ evs → a ∈ (⟨zeroMem, [0x2000, 0x1ff8], []⟩ : State).seen) ∧
    (relocate_pointers overlapTable 6 0x1ff8 0x1000 0x1100 0x5000 1 8 24
        (wordAt 0x2008 0x2000)).map (fun r => (r.completion, r.trace))
      = some (Completion.returned,
          [.enter 1 0x2000, .probe 0 false 0x2000 8 false, .load 0 0x2008 0x2000,
            .probe 0 false 0x2008 8 false, .probe 0 false 0 8 true, .load 0 0x2000 0,
            .probe 0 false 0x2000 8 false, .probe 0 false 0 8 true, .load 0 0x1ff8 0,
            .probe 0 false 0x1ff8 8 false, .probe 0 false 0x1ff8 8 false, .enter 0 0x1ff8]) :=
  ⟨by decide,
    visited_scan_start_returns_immediately overlapTable 2 0 1 0x2000 0x1000 0x1100 0x5000 0 8
      0x1000 ⟨zeroMem, [0x2000, 0x1ff8], []⟩ (by decide),
    by decide⟩

/-! ## The entry probe -/

/-- C18: entry probe. If the probe reports `(Read, scan_start, stride)` unsafe,
the invocation returns from every state, at every level, depth and window (with
fuel 1 and the probe fuel that gave the answer), and every finished run of it,
whatever the fuel, leaves the memory unchanged, leaves the visited set with
`scan_start` added and nothing else, and records no load, store or fault: the
steps added are the entry mark alone (when `scan_start` was visited before) or
the entry mark followed by the one entry probe with answer unsafe. -/
theorem unsafe_entry_probe_ends_invocation (vq : RegionTable)
    (level scan_start old_start old_end new_start : Nat) (depth : Int)
    (skip_length scan_size : Nat) (st : State)
    (hbad : ProbeUnsafe vq false scan_start skip_length) :
    (∃ pf st1, detail.relocate_pointers vq pf 1 level scan_start old_start old_end new_start
        depth skip_length scan_size st = some st1) ∧
    ∀ pf fuel st1, detail.relocate_pointers vq pf fuel level scan_start old_start old_end
        new_start depth skip_length scan_size st = some st1 →
      st1.mem = st.mem ∧ st1.seen = st.seen.insert scan_start ∧
      (st1.trace = Event.enter level scan_start :: st.trace ∨
        st1.trace = Event.probe level false scan_start skip_length true ::
          Event.enter level scan_start :: st.trace) := by
  obtain ⟨pf0, h0⟩ := hbad
  constructor
  · by_cases c : scan_start ∈ st.seen
    · exact ⟨pf0, ⟨st.mem, st.seen, Event.enter level scan_start :: st.trace⟩, by
        rw [detail.relocate_pointers]; simp [State.log, c]⟩
    · exact ⟨pf0, ⟨st.mem, st.seen.insert scan_start,
        Event.probe level false scan_start skip_length true ::
          Event.enter level scan_start :: st.trace⟩, by
        rw [detail.relocate_pointers]; simp [State.log, State.see, c, h0]⟩
  · intro pf fuel st1 h
    cases fuel with
    | zero => simp [detail.relocate_pointers] at h
    | succ f =>
      rw [detail.relocate_pointers] at h
      dsimp only at h
      split_ifs at h with c
      · simp only [Option.some.injEq] at h
        subst h
        simp only [State.log] at c
        exact ⟨rfl, by simp [State.log, List.insert_of_mem c], Or.inl rfl⟩
      · cases hp : IsBadMemPtr vq pf false scan_start skip_length with
        | none => rw [hp] at h; simp at h
        | some bad =>
          have hb : bad = true := IsBadMemPtr_det hp h0
          subst hb
          rw [hp] at h
          simp only [↓reduceIte, Option.some.injEq] at h
          subst h
          exact ⟨rfl, rfl, Or.inr rfl⟩

theorem unsafe_entry_probe_ends_invocation_witness :
    (IsBadMemPtr scenarioTable 2 false 0x2000 8 = some false ∧
      ProbeUnsafe scenarioTable false 0x2000 0x20) ∧
    ((∃ pf st1, detail.relocate_pointers scenarioTable pf 1 0 0x2000 0x1000 0x1100 0x5000 1
        0x20 0x40 ⟨wordAt 0x2000 0x1050, [], []⟩ = some st1) ∧
    ∀ pf fuel st1, detail.relocate_pointers scenarioTable pf fuel 0 0x2000 0x1000 0x1100 0x5000
        1 0x20 0x40 ⟨wordAt 0x2000 0x1050, [], []⟩ = some st1 →
      st1.mem = (⟨wordAt 0x2000 0x1050, [], []⟩ : State).mem ∧
      st1.seen = (⟨wordAt 0x2000 0x1050, [], []⟩ : State).seen.insert 0x2000 ∧
      (st1.trace = Event.enter 0 0x2000 :: (⟨wordAt 0x2000 0x1050, [], []⟩ : State).trace ∨
        st1.trace = Event.probe 0 false 0x2000 0x20 true ::
          Event.enter 0 0x2000 :: (⟨wordAt 0x2000 0x1050, [], []⟩ : State).trace)) ∧
    (relocate_pointers scenarioTable 3 0x2000 0x1000 0x1100 0x5000 1 0x20 0x40
        (wordAt 0x2000 0x1050)).map (fun r => (r.completion, load64 r.mem 0x2000, r.trace))
      = some (Completion.returned, 0x1050,
          [.probe 0 false 0x2000 0x20 true, .enter 0 0x2000]) :=
  ⟨⟨by decide, ⟨2, by decide⟩⟩,
    unsafe_entry_probe_ends_invocation scenarioTable 0 0x2000 0x1000 0x1100 0x5000 1 0x20 0x40
      ⟨wordAt 0x2000 0x1050, [], []⟩ ⟨2, by decide⟩,
    by decide⟩

/-! ## Windows above `2^31` -/

/-- C17 (the code at the failing input): with an 8 GiB readable and writable
region around `scan_start = 0x200000000`, depth 0, stride `0x40000000` and
window `0x80000001`, the third offset is `0x80000000 < window_size`. The counter
is an `int`, so the address `scan_start + i` is formed with the offset
sign-extended to `-2^31`: the scanner probes, loads and rewrites the word at
`0x180000000`, which lies below `scan_start` and outside
`[scan_start, scan_start + window_size + 7)`; the bytes of that word change
from `0x1050` to `0x5050`. -/
theorem window_above_2_31_scans_below_scan_start :
    (relocate_pointers wideTable 5 0x200000000 0x1000 0x1100 0x5000 0 0x40000000 0x80000001
        (wordAt 0x180000000 0x1050)).map
      (fun r => (r.completion, load64 r.mem 0x180000000, r.trace))
      = some (Completion.returned, 0x5050,
          [.store 0 0x180000000 0x5050, .load 0 0x180000000 0x1050,
            .probe 0 false 0x180000000 8 false, .load 0 0x240000000 0,
            .probe 0 false 0x240000000 8 false, .load 0 0x200000000 0,
            .probe 0 false 0x200000000 8 false, .probe 0 false 0x200000000 0x40000000 false,
            .enter 0 0x200000000]) ∧
    load64 (wordAt 0x180000000 0x1050) 0x180000000 = 0x1050 ∧
    ptrAddInt32 0x200000000 0x80000000 = 0x180000000 ∧
    ¬ (0x200000000 ≤ 0x180000000 ∧ 0x180000000 < 0x200000000 + 0x80000001 + PTR_SIZE - 1) := by
  decide

/-! ## The recursion rule -/

/-- C16 (as stated) fails: the word at `0x3000` lies in a read-only region and
holds `v = 0x2000`, which lies in the old range `[0x2000, 0x2100)`; depth is 1
and the probe reports `(Read, 0x2000, 8)` safe. The scanner loads `v`, the store
of the translation faults, and the invocation ends without re-entering the
scanner at `v`. -/
theorem no_recursion_after_faulting_store :
    IsBadMemPtr (twoRegionTable PAGE_READONLY) 2 false 0x2000 8 = some false ∧
    inOldRange 0x2000 0x2100 0x2000 = true ∧
    (relocate_pointers (twoRegionTable PAGE_READONLY) 6 0x3000 0x2000 0x2100 0x5000 1 8 8
        (wordAt 0x3000 0x2000)).map
      (fun r => (r.completion, load64 r.mem 0x3000, r.trace))
      = some (Completion.returned, 0x2000,
          [.fault 0 true 0x3000, .load 0 0x3000 0x2000, .probe 0 false 0x3000 8 false,
            .probe 0 false 0x3000 8 false, .enter 0 0x3000]) := by
  decide

/-! ## The flat scan run twice -/

theorem translate_leaves_old_range (os oe ns : Nat) (hwrap : ns + (oe - os) ≤ 2 ^ 64)
    (hdisj : ∀ x, os ≤ x → x < oe → ¬ (ns ≤ x ∧ x < ns + (oe - os))) (v : Nat)
    (hv : inOldRange os oe v = true) : inOldRange os oe (translate os ns v) = false := by
  simp only [inOldRange, decide_eq_true_eq, decide_eq_false_iff_not] at hv ⊢
  have hlt : ns + (v - os) < PTR_MOD := by unfold PTR_MOD; omega
  rw [translate, Nat.mod_eq_of_lt hlt]
  intro hx
  exact hdisj (ns + (v - os)) hx.1 hx.2 ⟨by omega, by omega⟩

/-- In a flat scan (`depth ≤ 0`, stride at least the size of a pointer) whose
translations leave the old range, the loop run again from the same counter on
the memory the first run left makes no store. -/
theorem flat_loop_again {vq : RegionTable} {pf pf2 : Nat}
    {recurse recurse2 : Nat → State → Option State}
    {level level2 scan_start os oe ns : Nat} {depth : Int} {skip_length scan_size : Nat}
    (hd : depth ≤ 0) (h8 : 8 ≤ skip_length) (hu : skip_length < U32_MOD)
    (hw : scan_size ≤ 2 ^ 31)
    (hnew : ∀ v, inOldRange os oe v = true → inOldRange os oe (translate os ns v) = false) :
    ∀ (fuel m : Nat) (st st1 : State),
      scanLoop vq pf recurse level scan_start os oe ns depth skip_length scan_size fuel
        (m * skip_length) st = some st1 →
      ∀ (fuel2 : Nat) (st2 st3 : State), st2.mem = st1.mem →
        scanLoop vq pf2 recurse2 level2 scan_start os oe ns depth skip_length scan_size fuel2
          (m * skip_length) st2 = some st3 →
        st3.mem = st1.mem := by
  have hsep : ∀ n1 n2, n1 < n2 → n2 * skip_length < scan_size →
      wordsOverlap (ptrAddInt32 scan_start (n1 * skip_length))
        (ptrAddInt32 scan_start (n2 * skip_length)) = false := by
    intro n1 n2 hlt h2
    have h1 : (n1 + 1) * skip_length ≤ n2 * skip_length := Nat.mul_le_mul_right _ (by omega)
    have hmul : (n1 + 1) * skip_length = n1 * skip_length + skip_length := by ring
    exact (wordsOverlap_ptrAdd scan_start _ _ (by omega) (by omega)).1
  intro fuel
  induction fuel with
  | zero => intro m st st1 h; simp [scanLoop] at h
  | succ f ih =>
    intro m st st1 h fuel2 st2 st3 hm h2
    cases fuel2 with
    | zero => simp [scanLoop] at h2
    | succ f2 =>
      rw [scanLoop] at h h2
      by_cases c0 : m * skip_length < scan_size
      · rw [if_pos c0] at h h2
        dsimp only at h h2
        rw [counter_next skip_length scan_size m hu hw c0] at h h2
        have hfr : ∀ (s : State),
            scanLoop vq pf recurse level scan_start os oe ns depth skip_length scan_size f
              ((m + 1) * skip_length) s = some st1 →
            load64 st1.mem (ptrAddInt32 scan_start (m * skip_length))
              = load64 s.mem (ptrAddInt32 scan_start (m * skip_length)) :=
          fun s hs => flat_frame hd hu hw _ f (m + 1) s st1 hs
            (fun n hn hlt => hsep m n (by omega) hlt)
        cases hp : IsBadMemPtr vq pf false (ptrAddInt32 scan_start (m * skip_length)) PTR_SIZE with
        | none => rw [hp] at h; simp at h
        | some bad =>
          cases hp2 : IsBadMemPtr vq pf2 false (ptrAddInt32 scan_start (m * skip_length))
              PTR_SIZE with
          | none => rw [hp2] at h2; simp at h2
          | some bad2 =>
            have hbb : bad2 = bad := IsBadMemPtr_det hp2 hp
            subst hbb
            rw [hp] at h
            rw [hp2] at h2
            dsimp only at h h2
            cases bad2 with
            | true =>
              simp only [↓reduceIte, Option.some.injEq] at h h2
              subst h
              subst h2
              exact hm
            | false =>
              simp only [Bool.false_eq_true, ↓reduceIte] at h h2
              by_cases c1 : accessible vq false (ptrAddInt32 scan_start (m * skip_length)) = false
              · rw [if_pos c1] at h h2
                simp only [Option.some.injEq] at h h2
                subst h
                subst h2
                exact hm
              · rw [if_neg c1] at h h2
                have hm2 : ((st2.log (.probe level2 false (ptrAddInt32 scan_start
                    (m * skip_length)) PTR_SIZE false)).see (ptrAddInt32 scan_start
                    (m * skip_length))).mem = st1.mem := hm
                have hm1 : ((st.log (.probe level false (ptrAddInt32 scan_start
                    (m * skip_length)) PTR_SIZE false)).see (ptrAddInt32 scan_start
                    (m * skip_length))).mem = st.mem := rfl
                rw [hm2] at h2
                rw [hm1] at h
                -- the rest of the second run, once the word is known to be outside the range
                have hout : inOldRange os oe (load64 st1.mem (ptrAddInt32 scan_start
                    (m * skip_length))) = false →
                    ∀ s1, scanLoop vq pf recurse level scan_start os oe ns depth skip_length
                      scan_size f ((m + 1) * skip_length) s1 = some st1 → st3.mem = st1.mem := by
                  intro hv2 s1 hs1
                  rw [if_neg (by rw [hv2]; decide)] at h2
                  rw [follow_flat vq pf2 recurse2 level2 hd] at h2
                  dsimp only at h2
                  refine ih (m + 1) s1 st1 hs1 f2 _ st3 ?_ h2
                  exact hm
                split_ifs at h with c2 c3
                · simp only [Option.some.injEq] at h
                  have hst1 : st1.mem = st.mem := by rw [← h]; rfl
                  rw [hst1] at h2
                  rw [if_pos c2, if_pos c3] at h2
                  simp only [Option.some.injEq] at h2
                  subst h2
                  exact hm
                · rw [follow_flat vq pf recurse level hd] at h
                  dsimp only at h
                  refine hout ?_ _ h
                  rw [hfr _ h]
                  simp only [State.log, State.write]
                  rw [load64_store64_same, Nat.mod_eq_of_lt (translate_lt _ _ _)]
                  exact hnew _ c2
                · rw [follow_flat vq pf recurse level hd] at h
                  dsimp only at h
                  refine hout ?_ _ h
                  rw [hfr _ h]
                  simpa using c2
      · rw [if_neg c0] at h h2
        simp only [Option.some.injEq] at h h2
        subst h
        subst h2
        exact hm

theorem flat_loop_again_zero {vq : RegionTable} {pf pf2 : Nat}
    {recurse recurse2 : Nat → State → Option State}
    {level level2 scan_start os oe ns : Nat} {depth : Int} {skip_length scan_size : Nat}
    (hd : depth ≤ 0) (h8 : 8 ≤ skip_length) (hu : skip_length < U32_MOD)
    (hw : scan_size ≤ 2 ^ 31)
    (hnew : ∀ v, inOldRange os oe v = true → inOldRange os oe (translate os ns v) = false)
    {fuel : Nat} {st st1 : State}
    (h : scanLoop vq pf recurse level scan_start os oe ns depth skip_length scan_size fuel 0 st
      = some st1)
    {fuel2 : Nat} {st2 st3 : State} (hm : st2.mem = st1.mem)
    (h2 : scanLoop vq pf2 recurse2 level2 scan_start os oe ns depth skip_length scan_size fuel2
      0 st2 = some st3) :
    st3.mem = st1.mem :=
  @flat_loop_again vq pf pf2 recurse recurse2 level level2 scan_start os oe ns depth skip_length
    scan_size hd h8 hu hw hnew fuel 0 st st1 (by rw [Nat.zero_mul]; exact h) fuel2 st2 st3 hm
    (by rw [Nat.zero_mul]; exact h2)
/-- C21: flat relocation is idempotent. On a located region table, for every
memory and every call with `depth ≤ 0`, stride at least 8, `window_size + stride
≤ 2^31` and a new range `[new_start, new_start + (old_end - old_start))` that
does not wrap and shares no address with `[old_start, old_end)`: the call
returns, the same call on the memory it left returns too, and whenever both
return the second one leaves the memory exactly as the first one left it. -/
theorem flat_relocation_idempotent (vq : RegionTable) (hloc : Located vq)
    (scan_start old_start old_end new_start : Nat) (depth : Int)
    (skip_length scan_size : Nat) (mem : Mem)
    (hd : depth ≤ 0) (h8 : 8 ≤ skip_length) (hw : scan_size + skip_length ≤ 2 ^ 31)
    (hwrap : new_start + (old_end - old_start) ≤ 2 ^ 64)
    (hdisj : ∀ x, old_start ≤ x → x < old_end →
      ¬ (new_start ≤ x ∧ x < new_start + (old_end - old_start))) :
    (∃ fuel1 r1 fuel2 r2,
      relocate_pointers vq fuel1 scan_start old_start old_end new_start depth skip_length
        scan_size mem = some r1 ∧ r1.completion = Completion.returned ∧
      relocate_pointers vq fuel2 scan_start old_start old_end new_start depth skip_length
        scan_size r1.mem = some r2 ∧ r2.completion = Completion.returned) ∧
    ∀ fuel1 r1 fuel2 r2,
      relocate_pointers vq fuel1 scan_start old_start old_end new_start depth skip_length
        scan_size mem = some r1 →
      relocate_pointers vq fuel2 scan_start old_start old_end new_start depth skip_length
        scan_size r1.mem = some r2 →
      r2.mem = r1.mem := by
  have hs : 0 < skip_length := by omega
  have hu : skip_length < U32_MOD := by unfold U32_MOD; omega
  have hwu : scan_size + skip_length ≤ U32_MOD := by unfold U32_MOD; omega
  constructor
  · obtain ⟨fuel1, r1, h1, hc1⟩ := relocate_pointers_terminates hloc scan_start old_start
      old_end new_start depth skip_length scan_size mem hs hu hwu
    obtain ⟨fuel2, r2, h2, hc2⟩ := relocate_pointers_terminates hloc scan_start old_start
      old_end new_start depth skip_length scan_size r1.mem hs hu hwu
    exact ⟨fuel1, r1, fuel2, r2, h1, hc1, h2, hc2⟩
  · intro fuel1 r1 fuel2 r2 h1 h2
    obtain ⟨s1, hs1, hr1⟩ := relocate_pointers_returned (by omega) h1
    obtain ⟨s2, hs2, hr2⟩ := relocate_pointers_returned (by omega) h2
    have hm1 : r1.mem = s1.mem := by rw [hr1]
    rw [hm1] at hs2 ⊢
    rw [hr2]
    show s2.mem = s1.mem
    cases fuel1 with
    | zero => simp [detail.relocate_pointers] at hs1
    | succ f1 =>
      cases fuel2 with
      | zero => simp [detail.relocate_pointers] at hs2
      | succ f2 =>
        rw [detail.relocate_pointers] at hs1 hs2
        simp only [State.log, List.not_mem_nil, ↓reduceIte, State.see] at hs1 hs2
        cases hp1 : IsBadMemPtr vq (f1 + 1) false scan_start skip_length with
        | none => rw [hp1] at hs1; simp at hs1
        | some bad =>
          cases hp2 : IsBadMemPtr vq (f2 + 1) false scan_start skip_length with
          | none => rw [hp2] at hs2; simp at hs2
          | some bad2 =>
            have hbb : bad2 = bad := IsBadMemPtr_det hp2 hp1
            subst hbb
            rw [hp1] at hs1
            rw [hp2] at hs2
            cases bad2 with
            | true =>
              simp only [↓reduceIte, Option.some.injEq] at hs1 hs2
              subst hs1
              subst hs2
              rfl
            | false =>
              simp only [Bool.false_eq_true, ↓reduceIte] at hs1 hs2
              refine flat_loop_again_zero hd h8 hu (by omega)
                (translate_leaves_old_range old_start old_end new_start hwrap hdisj)
                hs1 ?_ hs2
              rfl

theorem flat_relocation_idempotent_witness :
    (Located scenarioTable ∧ (0 : Int) ≤ 0 ∧ 8 ≤ 8 ∧ 16 + 8 ≤ 2 ^ 31 ∧
      0x5000 + (0x1100 - 0x1000) ≤ 2 ^ 64 ∧
      ∀ x, 0x1000 ≤ x → x < 0x1100 → ¬ (0x5000 ≤ x ∧ x < 0x5000 + (0x1100 - 0x1000))) ∧
    ((∃ fuel1 r1 fuel2 r2,
      relocate_pointers scenarioTable fuel1 0x2000 0x1000 0x1100 0x5000 0 8 16
        (wordAt 0x2000 0x1050) = some r1 ∧ r1.completion = Completion.returned ∧
      relocate_pointers scenarioTable fuel2 0x2000 0x1000 0x1100 0x5000 0 8 16
        r1.mem = some r2 ∧ r2.completion = Completion.returned) ∧
    ∀ fuel1 r1 fuel2 r2,
      relocate_pointers scenarioTable fuel1 0x2000 0x1000 0x1100 0x5000 0 8 16
        (wordAt 0x2000 0x1050) = some r1 →
      relocate_pointers scenarioTable fuel2 0x2000 0x1000 0x1100 0x5000 0 8 16
        r1.mem = some r2 →
      r2.mem = r1.mem) ∧
    ((relocate_pointers scenarioTable 5 0x2000 0x1000 0x1100 0x5000 0 8 16
        (wordAt 0x2000 0x1050)).bind (fun r1 =>
      (relocate_pointers scenarioTable 5 0x2000 0x1000 0x1100 0x5000 0 8 16 r1.mem).map
        (fun r2 => (load64 r1.mem 0x2000, load64 r2.mem 0x2000, r2.completion,
          r2.trace.filter Event.isStore))))
      = some (0x5050, 0x5050, Completion.returned, []) :=
  ⟨⟨located_scenarioTable, by decide, by decide, by decide, by decide,
      fun x h1 h2 h3 => by omega⟩,
    flat_relocation_idempotent scenarioTable located_scenarioTable 0x2000 0x1000 0x1100 0x5000
      0 8 16 (wordAt 0x2000 0x1050) (by decide) (by decide) (by decide) (by decide)
      (fun x h1 h2 h3 => by omega),
    by decide⟩

/-! ## The probe terminates -/

theorem located_adjacentTable : Located adjacentTable := by
  intro a m h
  unfold adjacentTable at h
  split at h
  · cases h
    simp only [PTR_MOD]
    omega
  · split at h
    · cases h
      simp only [PTR_MOD]
      omega
    · cases h

/-- One iteration of the region walk on a located table, entered with the
cursor at the start address or at the last region end: either it returns, with
any fuel, or the query succeeded and the walk goes on with the cursor at the end
of the region answered, which lies above the cursor. -/
theorem walk_step {vq : RegionTable} (hloc : Located vq) (write : Bool) (ptr maxp : Nat)
    (p regend : Nat) (mbi : MEMORY_BASIC_INFORMATION) (hq : p = ptr ∨ p = regend) :
    (∃ r, ∀ fuel, IsBadMemPtr.walk vq write ptr maxp (fuel + 1) p regend mbi = some r) ∨
    (∃ info, vq p = some info ∧ p < regionEnd info ∧ ∀ fuel,
      IsBadMemPtr.walk vq write ptr maxp (fuel + 1) p regend mbi
        = (IsBadMemPtr.walk vq write ptr maxp fuel (regionEnd info) (regionEnd info) info).map
            (fun r => (r.1, [p] ++ r.2))) := by
  cases hv : vq p with
  | none =>
    left
    exact ⟨(true, [p]), fun fuel => by rw [IsBadMemPtr.walk, if_pos hq, hv]⟩
  | some info =>
    obtain ⟨h1, h2, h3⟩ := hloc p info hv
    have hre : (info.BaseAddress + info.RegionSize) % PTR_MOD
        = info.BaseAddress + info.RegionSize := Nat.mod_eq_of_lt h3
    by_cases c1 : protectOk write info.Protect = false
    · left
      exact ⟨(true, [p]), fun fuel => by
        rw [IsBadMemPtr.walk, if_pos hq, hv]
        simp only [IsBadMemPtr.check, c1, ↓reduceIte]⟩
    · have c1t : protectOk write info.Protect = true := by simpa using c1
      by_cases c2 : maxp ≤ info.BaseAddress + info.RegionSize
      · left
        exact ⟨(false, [p]), fun fuel => by
          rw [IsBadMemPtr.walk, if_pos hq, hv]
          simp only [IsBadMemPtr.check, c1t, hre, c2, ↓reduceIte, Bool.true_eq_false]⟩
      · right
        refine ⟨info, rfl, by rw [regionEnd, hre]; omega, fun fuel => ?_⟩
        have c3 : info.BaseAddress + info.RegionSize < maxp := by omega
        rw [IsBadMemPtr.walk, if_pos hq, hv]
        simp only [IsBadMemPtr.check, c1t, hre, c2, c3, ↓reduceIte, regionEnd, Bool.true_eq_false]

/-- The addresses a finished walk on a located table passed to `VirtualQuery`
are the cursor of each iteration: they start with the cursor the walk was
entered with and increase strictly. -/
theorem walk_cursor_increases {vq : RegionTable} (hloc : Located vq) (write : Bool)
    (ptr maxp : Nat) :
    ∀ (fuel p regend : Nat) (mbi : MEMORY_BASIC_INFORMATION) (r : Bool × List Nat),
      (p = ptr ∨ p = regend) →
      IsBadMemPtr.walk vq write ptr maxp fuel p regend mbi = some r →
      ∃ tail, r.2 = p :: tail ∧ List.Chain (fun a b => a < b) p tail := by
  intro fuel
  induction fuel with
  | zero => intro p regend mbi r _ h; simp [IsBadMemPtr.walk] at h
  | succ n ih =>
    intro p regend mbi r hq h
    rcases walk_step hloc write ptr maxp p regend mbi hq with ⟨r0, hr0⟩ | ⟨info, hv, hlt, hstep⟩
    · -- the iteration returns: one query, at the cursor
      have h0 := hr0 n
      rw [h] at h0
      cases hv : vq p with
      | none =>
        have h1 := hr0 0
        rw [IsBadMemPtr.walk, if_pos hq, hv] at h1
        rw [Option.some.inj h0, ← Option.some.inj h1]
        exact ⟨[], rfl, List.Chain.nil⟩
      | some info =>
        have h1 := hr0 0
        rw [IsBadMemPtr.walk, if_pos hq, hv] at h1
        simp only [IsBadMemPtr.check, IsBadMemPtr.walk, Option.map_none'] at h1
        rw [Option.some.inj h0]
        split_ifs at h1 <;>
          (rw [← Option.some.inj h1]; exact ⟨[], rfl, List.Chain.nil⟩)
    · rw [hstep n] at h
      simp only [Option.map_eq_some'] at h
      obtain ⟨r1, hr1, hr⟩ := h
      obtain ⟨tail, ht, hc⟩ := ih _ _ _ r1 (Or.inr rfl) hr1
      subst hr
      exact ⟨regionEnd info :: tail, by simp [ht], List.Chain.cons hlt hc⟩

/-- C22: the probe terminates. On a located region table (each successful query
at `a` answers with a region with `base ≤ a < base + size` and `base + size`
inside the address space), for every mode, non-null address and length above
zero: the probe returns within `size + 1` iterations of the region walk; in
every finished probe the addresses passed to `VirtualQuery`, one per iteration,
start at the address and increase strictly; and every iteration of the walk
either returns or goes on with the cursor moved to the end of the region just
answered, which lies above the cursor. -/
theorem probe_walk_terminates (vq : RegionTable) (hloc : Located vq) (write : Bool)
    (ptr size : Nat) (h0 : ptr ≠ 0) (hs : 0 < size) :
    (∃ b qs, IsBadMemPtrQ vq (size + 1) write ptr size = some (b, qs) ∧
      IsBadMemPtr vq (size + 1) write ptr size = some b) ∧
    (∀ pf b qs, IsBadMemPtrQ vq pf write ptr size = some (b, qs) →
      ∃ tail, qs = ptr :: tail ∧ List.Chain (fun a b => a < b) ptr tail) ∧
    (∀ p regend mbi, (p = ptr ∨ p = regend) →
      (∃ r, ∀ fuel, IsBadMemPtr.walk vq write ptr ((ptr + size) % PTR_MOD) (fuel + 1) p regend
        mbi = some r) ∨
      (∃ info, vq p = some info ∧ p < regionEnd info ∧ ∀ fuel,
        IsBadMemPtr.walk vq write ptr ((ptr + size) % PTR_MOD) (fuel + 1) p regend mbi
          = (IsBadMemPtr.walk vq write ptr ((ptr + size) % PTR_MOD) fuel (regionEnd info)
              (regionEnd info) info).map (fun r => (r.1, [p] ++ r.2)))) := by
  have hs0 : size ≠ 0 := by omega
  refine ⟨?_, ?_, fun p regend mbi hq => walk_step hloc write ptr _ p regend mbi hq⟩
  · obtain ⟨r, hr⟩ := walk_terminates hloc write ptr ((ptr + size) % PTR_MOD) size ptr 0
      ⟨0, 0, 0⟩ (Or.inl rfl) (le_trans (Nat.mod_le _ _) (le_refl _))
    exact ⟨r.1, r.2, by simp [IsBadMemPtrQ, hs0, h0, hr], by
      simp [IsBadMemPtr, IsBadMemPtrQ, hs0, h0, hr]⟩
  · intro pf b qs h
    simp only [IsBadMemPtrQ, hs0, h0, if_false] at h
    exact walk_cursor_increases hloc write ptr _ pf ptr 0 ⟨0, 0, 0⟩ (b, qs) (Or.inl rfl) h

theorem probe_walk_terminates_witness :
    (Located adjacentTable ∧ 0x2000 ≠ 0 ∧ 0 < 16) ∧
    ((∃ b qs, IsBadMemPtrQ adjacentTable (16 + 1) false 0x2000 16 = some (b, qs) ∧
      IsBadMemPtr adjacentTable (16 + 1) false 0x2000 16 = some b) ∧
    (∀ pf b qs, IsBadMemPtrQ adjacentTable pf false 0x2000 16 = some (b, qs) →
      ∃ tail, qs = 0x2000 :: tail ∧ List.Chain (fun a b => a < b) 0x2000 tail) ∧
    (∀ p regend mbi, (p = 0x2000 ∨ p = regend) →
      (∃ r, ∀ fuel, IsBadMemPtr.walk adjacentTable false 0x2000 ((0x2000 + 16) % PTR_MOD)
        (fuel + 1) p regend mbi = some r) ∨
      (∃ info, adjacentTable p = some info ∧ p < regionEnd info ∧ ∀ fuel,
        IsBadMemPtr.walk adjacentTable false 0x2000 ((0x2000 + 16) % PTR_MOD) (fuel + 1) p regend
            mbi
          = (IsBadMemPtr.walk adjacentTable false 0x2000 ((0x2000 + 16) % PTR_MOD) fuel
              (regionEnd info) (regionEnd info) info).map (fun r => (r.1, [p] ++ r.2))))) ∧
    IsBadMemPtrQ adjacentTable 2 false 0x2000 16 = some (false, [0x2000, 0x2008]) :=
  ⟨⟨located_adjacentTable, by decide, by decide⟩,
    probe_walk_terminates adjacentTable located_adjacentTable false 0x2000 16 (by decide)
      (by decide),
    by decide⟩

/-! ## What follows a load -/

theorem split_cons_append {x : Event} :
    ∀ (A B pre post : List Event), A ++ B = pre ++ x :: post →
      (∃ A2, A = pre ++ x :: A2 ∧ post = A2 ++ B) ∨ (∃ B1, pre = A ++ B1 ∧ B = B1 ++ x :: post) := by
  intro A
  induction A with
  | nil => intro B pre post h; exact Or.inr ⟨pre, rfl, by simpa using h⟩
  | cons y A ih =>
    intro B pre post h
    cases pre with
    | nil =>
      simp only [List.cons_append, List.nil_append, List.cons.injEq] at h
      exact Or.inl ⟨A, by simp [h.1], h.2.symm⟩
    | cons p pre =>
      simp only [List.cons_append, List.cons.injEq] at h
      rcases ih B pre post h.2 with ⟨A2, hA, hp⟩ | ⟨B1, hp, hB⟩
      · exact Or.inl ⟨A2, by simp [h.1, hA], hp⟩
      · exact Or.inr ⟨B1, by simp [h.1, hp], hB⟩

theorem nextIsLoopProbe_prepend {n l : Nat} {rest pre : List Event}
    (hr : StartsWithProbe l rest) (hl : l < n) (h : NextIsLoopProbe n pre) :
    NextIsLoopProbe n (rest ++ pre) := by
  rcases h with rfl | ⟨p, l2, a2, b2, rfl, hl2⟩
  · rcases hr with rfl | ⟨r1, a, b, rfl⟩
    · exact Or.inl rfl
    · exact Or.inr ⟨r1, l, a, b, by simp, hl⟩
  · exact Or.inr ⟨rest ++ p, l2, a2, b2, by simp, hl2⟩

theorem loadFollowed_prepend {vq : RegionTable} {os oe ns : Nat} {d : Int} {l l1 a v : Nat}
    {rest pre : List Event} (hr : StartsWithProbe l rest) (hl : l < l1)
    (h : LoadFollowed vq os oe ns d l1 a v pre) :
    LoadFollowed vq os oe ns d l1 a v (rest ++ pre) := by
  unfold LoadFollowed at h ⊢
  by_cases c1 : inOldRange os oe v = true ∧ accessible vq true a = false
  · rw [if_pos c1] at h ⊢
    obtain ⟨pre1, rfl, hn⟩ := h
    exact ⟨rest ++ pre1, by simp, nextIsLoopProbe_prepend hr hl hn⟩
  · rw [if_neg c1] at h ⊢
    obtain ⟨pre0, rfl, h2⟩ := h
    refine ⟨rest ++ pre0, by simp, ?_⟩
    by_cases c2 : 0 < d
    · rw [if_pos c2] at h2 ⊢
      obtain ⟨b, pre1, rfl, hb⟩ := h2
      refine ⟨b, rest ++ pre1, by simp, ?_⟩
      cases b with
      | false =>
        simp only [↓reduceIte] at hb ⊢
        obtain ⟨pre2, rfl⟩ := hb
        exact ⟨rest ++ pre2, by simp⟩
      | true =>
        simp only [Bool.true_eq_false, ↓reduceIte] at hb ⊢
        exact nextIsLoopProbe_prepend hr (by omega) hb
    · rw [if_neg c2] at h2 ⊢
      exact nextIsLoopProbe_prepend hr (by omega) h2

theorem iteration_loads {vq : RegionTable} {os oe ns : Nat} {D : Int} {l a v : Nat}
    {rest evf : List Event}
    (hc : ¬ (inOldRange os oe v = true ∧ accessible vq true a = false))
    (hf : FollowSteps vq os oe ns D l v evf)
    (hs : StartsWithProbe l rest) (hl : LoadsFollowed vq os oe ns D rest) :
    LoadsFollowed vq os oe ns D
      (rest ++ (evf ++ ((if inOldRange os oe v = true then
          [Event.store l a (translate os ns v)] else []) ++
        [Event.load l a v, Event.probe l false a PTR_SIZE false]))) := by
  intro pre l1 a1 v1 post hsplit
  rcases split_cons_append _ _ _ _ hsplit with ⟨A2, hA, -⟩ | ⟨B1, hpre, hB⟩
  · exact hl pre l1 a1 v1 A2 hA
  · subst hpre
    rcases split_cons_append _ _ _ _ hB with ⟨A2, hA, -⟩ | ⟨C1, hB1, hC⟩
    · -- the load is one of an invocation entered from here
      rcases hf with ⟨-, rfl⟩ | ⟨-, rfl⟩ | ⟨-, body, rfl, hlev, hbl, -⟩
      · simp at hA
      · rcases B1 with _ | ⟨b1, B1⟩ <;> simp at hA
      · rcases split_cons_append _ _ _ _ hA with ⟨A3, hA3, -⟩ | ⟨E1, -, hE⟩
        · have hlv := hlev (Event.load l1 a1 v1) (by rw [hA3]; simp)
          simp only [Event.level] at hlv
          exact loadFollowed_prepend hs (by omega) (hbl B1 l1 a1 v1 A3 hA3)
        · rcases E1 with _ | ⟨e1, _ | ⟨e2, E1⟩⟩ <;> simp at hE
    · -- the load is the one of this iteration
      subst hB1
      have hown : C1 = (if inOldRange os oe v = true then
          [Event.store l a (translate os ns v)] else []) ∧ l1 = l ∧ a1 = a ∧ v1 = v := by
        by_cases c : inOldRange os oe v = true
        · rw [if_pos c] at hC ⊢
          rcases C1 with _ | ⟨c1, _ | ⟨c2, _ | ⟨c3, C1⟩⟩⟩ <;> simp at hC
          obtain ⟨rfl, ⟨rfl, rfl, rfl⟩, -⟩ := hC
          exact ⟨rfl, rfl, rfl, rfl⟩
        · rw [if_neg c] at hC ⊢
          rcases C1 with _ | ⟨c1, _ | ⟨c2, C1⟩⟩ <;> simp at hC
          obtain ⟨⟨rfl, rfl, rfl⟩, -⟩ := hC
          exact ⟨rfl, rfl, rfl, rfl⟩
      obtain ⟨hC1, rfl, rfl, rfl⟩ := hown
      subst hC1
      unfold LoadFollowed
      rw [if_neg hc]
      refine ⟨rest ++ evf, by simp, ?_⟩
      rcases hf with ⟨hd, rfl⟩ | ⟨hd, rfl⟩ | ⟨hd, body, rfl, -, -, -⟩
      · rw [if_neg hd]
        simpa using nextIsLoopProbe_prepend hs (Nat.lt_succ_self _) (Or.inl rfl)
      · rw [if_pos hd]
        refine ⟨true, rest, rfl, ?_⟩
        simp only [Bool.true_eq_false, ↓reduceIte]
        simpa using nextIsLoopProbe_prepend hs (Nat.lt_succ_self _) (Or.inl rfl)
      · rw [if_pos hd]
        refine ⟨false, rest ++ (body ++ [Event.enter (l1 + 1) v1]), by simp, ?_⟩
        simp only [↓reduceIte]
        exact ⟨rest ++ body, by simp⟩

theorem iteration_enters {vq : RegionTable} {os oe ns : Nat} {D : Int} {l a v : Nat}
    {rest evf : List Event}
    (hf : FollowSteps vq os oe ns D l v evf)
    (hl : EntersCaused os oe ns D rest) :
    EntersCaused os oe ns D
      (rest ++ (evf ++ ((if inOldRange os oe v = true then
          [Event.store l a (translate os ns v)] else []) ++
        [Event.load l a v, Event.probe l false a PTR_SIZE false]))) := by
  intro pre l1 s post hsplit
  rcases split_cons_append _ _ _ _ hsplit with ⟨A2, hA, hpost⟩ | ⟨B1, hpre, hB⟩
  · obtain ⟨l2, a2, post1, h1, h2, h3⟩ := hl pre l1 s A2 hA
    subst hpost
    rcases h3 with ⟨rfl, h4⟩ | ⟨rfl, h4⟩
    · exact ⟨l2, a2, _, h1, h2, Or.inl ⟨by simp; rfl, h4⟩⟩
    · exact ⟨l2, a2, _, h1, h2, Or.inr ⟨by simp; rfl, h4⟩⟩
  · subst hpre
    rcases split_cons_append _ _ _ _ hB with ⟨A2, hA, hpost⟩ | ⟨C1, -, hC⟩
    · rcases hf with ⟨-, rfl⟩ | ⟨-, rfl⟩ | ⟨hd, body, rfl, -, -, hbe⟩
      · simp at hA
      · rcases B1 with _ | ⟨b1, B1⟩ <;> simp at hA
      · rcases split_cons_append _ _ _ _ hA with ⟨A3, hA3, hA2⟩ | ⟨E1, -, hE⟩
        · obtain ⟨l2, a2, post1, h1, h2, h3⟩ := hbe B1 l1 s A3 hA3
          subst hpost
          subst hA2
          rcases h3 with ⟨rfl, h4⟩ | ⟨rfl, h4⟩
          · exact ⟨l2, a2, _, h1, h2, Or.inl ⟨by simp; rfl, h4⟩⟩
          · exact ⟨l2, a2, _, h1, h2, Or.inr ⟨by simp; rfl, h4⟩⟩
        · rcases E1 with _ | ⟨e1, _ | ⟨e2, E1⟩⟩ <;> simp at hE
          obtain ⟨⟨rfl, rfl⟩, rfl⟩ := hE
          subst hpost
          by_cases c : inOldRange os oe v = true
          · rw [if_pos c]
            exact ⟨l, a, _, rfl, hd, Or.inr ⟨by simp; rfl, c⟩⟩
          · rw [if_neg c]
            exact ⟨l, a, _, rfl, hd, Or.inl ⟨by simp; rfl, by simpa using c⟩⟩
    · by_cases c : inOldRange os oe v = true
      · rw [if_pos c] at hC
        rcases C1 with _ | ⟨c1, _ | ⟨c2, _ | ⟨c3, C1⟩⟩⟩ <;> simp at hC
      · rw [if_neg c] at hC
        rcases C1 with _ | ⟨c1, _ | ⟨c2, C1⟩⟩ <;> simp at hC

theorem followSteps_levels {vq : RegionTable} {os oe ns : Nat} {D : Int} {l v : Nat}
    {evf : List Event} (hf : FollowSteps vq os oe ns D l v evf) : ∀ e ∈ evf, l ≤ e.level := by
  rcases hf with ⟨-, rfl⟩ | ⟨-, rfl⟩ | ⟨-, body, rfl, hlev, -, -⟩
  · simp
  · simp [Event.level]
  · intro e he
    rcases List.mem_append.mp he with h1 | h1
    · have := hlev e h1
      omega
    · simp only [List.mem_cons, List.mem_singleton, List.not_mem_nil, or_false] at h1
      rcases h1 with rfl | rfl <;> simp [Event.level]

theorem loadsFollowed_snoc {vq : RegionTable} {os oe ns : Nat} {D : Int} {evs : List Event}
    {x : Event} (hx : ∀ l a v, x ≠ Event.load l a v) (h : LoadsFollowed vq os oe ns D evs) :
    LoadsFollowed vq os oe ns D (evs ++ [x]) := by
  intro pre l a v post hsplit
  rcases split_cons_append _ _ _ _ hsplit with ⟨A2, hA, -⟩ | ⟨B1, -, hB⟩
  · exact h pre l a v A2 hA
  · rcases B1 with _ | ⟨b1, B1⟩ <;> simp at hB
    exact absurd hB.1 (hx l a v)

theorem entersCaused_snoc {os oe ns : Nat} {D : Int} {evs : List Event}
    {x : Event} (hx : ∀ l s, x ≠ Event.enter l s) (h : EntersCaused os oe ns D evs) :
    EntersCaused os oe ns D (evs ++ [x]) := by
  intro pre l1 s post hsplit
  rcases split_cons_append _ _ _ _ hsplit with ⟨A2, hA, hpost⟩ | ⟨B1, -, hB⟩
  · obtain ⟨l2, a2, post1, h1, h2, h3⟩ := h pre l1 s A2 hA
    subst hpost
    rcases h3 with ⟨rfl, h4⟩ | ⟨rfl, h4⟩
    · exact ⟨l2, a2, _, h1, h2, Or.inl ⟨by simp; rfl, h4⟩⟩
    · exact ⟨l2, a2, _, h1, h2, Or.inr ⟨by simp; rfl, h4⟩⟩
  · rcases B1 with _ | ⟨b1, B1⟩ <;> simp at hB
    exact absurd hB.1 (hx l1 s)

theorem follow_rule {vq : RegionTable} {pf : Nat} {recurse : Nat → State → Option State}
    {level : Nat} {depth : Int} {os oe ns : Nat} {D : Int} (hD : depth = D - level)
    (hrec : ∀ v s s1, recurse v s = some s1 →
      ∃ body, s1.trace = body ++ Event.enter (level + 1) v :: s.trace ∧
        (∀ e ∈ body, level + 1 ≤ e.level) ∧ LoadsFollowed vq os oe ns D body ∧
        EntersCaused os oe ns D body)
    {v : Nat} {st st1 : State} (h : follow vq pf recurse level depth v st = some st1) :
    ∃ evf, st1.trace = evf ++ st.trace ∧ FollowSteps vq os oe ns D level v evf := by
  unfold follow at h
  by_cases hd : depth > 0
  · rw [if_pos hd] at h
    have hd1 : 0 < D - level := by omega
    cases hp : IsBadMemPtr vq pf false v PTR_SIZE with
    | none => rw [hp] at h; simp at h
    | some bad =>
      rw [hp] at h
      dsimp only at h
      cases bad with
      | true =>
        simp only [↓reduceIte, Option.some.injEq] at h
        subst h
        exact ⟨[.probe level false v PTR_SIZE true], rfl, Or.inr (Or.inl ⟨hd1, rfl⟩)⟩
      | false =>
        simp only [Bool.false_eq_true, ↓reduceIte] at h
        obtain ⟨body, ht, hl, hlf, hec⟩ := hrec _ _ _ h
        exact ⟨body ++ [.enter (level + 1) v, .probe level false v PTR_SIZE false],
          by simp [ht, State.log], Or.inr (Or.inr ⟨hd1, body, rfl, hl, hlf, hec⟩)⟩
  · rw [if_neg hd] at h
    simp only [Option.some.injEq] at h
    subst h
    exact ⟨[], rfl, Or.inl ⟨by omega, rfl⟩⟩

theorem scanLoop_rule {vq : RegionTable} {pf : Nat}
    {recurse : Nat → State → Option State} {level scan_start os oe ns : Nat} {depth : Int}
    {skip_length scan_size : Nat} {D : Int} (hD : depth = D - level)
    (hrec : ∀ v s s1, recurse v s = some s1 →
      ∃ body, s1.trace = body ++ Event.enter (level + 1) v :: s.trace ∧
        (∀ e ∈ body, level + 1 ≤ e.level) ∧ LoadsFollowed vq os oe ns D body ∧
        EntersCaused os oe ns D body) :
    ∀ (fuel i : Nat) (st st1 : State),
      scanLoop vq pf recurse level scan_start os oe ns depth skip_length scan_size fuel i st
        = some st1 →
      ∃ evs, st1.trace = evs ++ st.trace ∧ (∀ e ∈ evs, level ≤ e.level) ∧
        StartsWithProbe level evs ∧ LoadsFollowed vq os oe ns D evs ∧
        EntersCaused os oe ns D evs := by
  intro fuel
  induction fuel with
  | zero => intro i st st1 h; simp [scanLoop] at h
  | succ f ih =>
    intro i st st1 h
    rw [scanLoop] at h
    by_cases c0 : i < scan_size
    · rw [if_pos c0] at h
      dsimp only at h
      -- a finished iteration followed by the rest of the loop
      have hrest : ∀ (s4 : State),
          ¬ (inOldRange os oe (load64 st.mem (ptrAddInt32 scan_start i)) = true ∧
            accessible vq true (ptrAddInt32 scan_start i) = false) →
          s4.trace = ((if inOldRange os oe (load64 st.mem (ptrAddInt32 scan_start i)) = true
              then [Event.store level (ptrAddInt32 scan_start i)
                (translate os ns (load64 st.mem (ptrAddInt32 scan_start i)))] else []) ++
            [Event.load level (ptrAddInt32 scan_start i)
                (load64 st.mem (ptrAddInt32 scan_start i)),
              Event.probe level false (ptrAddInt32 scan_start i) PTR_SIZE false]) ++ st.trace →
          (match follow vq pf recurse level depth (load64 st.mem (ptrAddInt32 scan_start i))
              s4 with
            | none => none
            | some st5 =>
              scanLoop vq pf recurse level scan_start os oe ns depth skip_length scan_size f
                ((i + skip_length) % U32_MOD) st5) = some st1 →
          ∃ evs, st1.trace = evs ++ st.trace ∧ (∀ e ∈ evs, level ≤ e.level) ∧
            StartsWithProbe level evs ∧ LoadsFollowed vq os oe ns D evs ∧
            EntersCaused os oe ns D evs := by
        intro s4 hc hpre h4
        split at h4
        · simp at h4
        · next st5 hf =>
          obtain ⟨evf, htf, hfs⟩ := follow_rule hD hrec hf
          obtain ⟨rest, htr, hlr, hsr, hlfr, hecr⟩ := ih _ _ _ h4
          refine ⟨_, by rw [htr, htf, hpre, ← List.append_assoc, ← List.append_assoc,
            List.append_assoc rest], ?_, ?_, iteration_loads hc hfs hsr hlfr,
            iteration_enters hfs hecr⟩
          · intro e he
            rcases List.mem_append.mp he with h2 | h2
            · exact hlr e h2
            · rcases List.mem_append.mp h2 with h3 | h3
              · exact followSteps_levels hfs e h3
              · rcases List.mem_append.mp h3 with h5 | h5
                · split_ifs at h5
                  · simp only [List.mem_singleton] at h5
                    subst h5
                    simp [Event.level]
                  · simp at h5
                · simp only [List.mem_cons, List.mem_singleton, List.not_mem_nil,
                    or_false] at h5
                  rcases h5 with rfl | rfl <;> simp [Event.level]
          · right
            exact ⟨rest ++ (evf ++ ((if inOldRange os oe (load64 st.mem
                (ptrAddInt32 scan_start i)) = true
              then [Event.store level (ptrAddInt32 scan_start i)
                (translate os ns (load64 st.mem (ptrAddInt32 scan_start i)))] else []) ++
              [Event.load level (ptrAddInt32 scan_start i)
                (load64 st.mem (ptrAddInt32 scan_start i))])),
              ptrAddInt32 scan_start i, false, by simp⟩
      cases hp : IsBadMemPtr vq pf false (ptrAddInt32 scan_start i) PTR_SIZE with
      | none => rw [hp] at h; simp at h
      | some bad =>
        rw [hp] at h
        dsimp only at h
        cases bad with
        | true =>
          simp only [↓reduceIte, Option.some.injEq] at h
          subst h
          refine ⟨[.probe level false _ PTR_SIZE true], rfl, by simp [Event.level],
            Or.inr ⟨[], _, _, rfl⟩, ?_, ?_⟩
          · intro pre l a v post hs
            rcases pre with _ | ⟨p, pre⟩ <;> simp at hs
          · intro pre l s post hs
            rcases pre with _ | ⟨p, pre⟩ <;> simp at hs
        | false =>
          simp only [Bool.false_eq_true, ↓reduceIte] at h
          by_cases c1 : accessible vq false (ptrAddInt32 scan_start i) = false
          · rw [if_pos c1] at h
            simp only [Option.some.injEq] at h
            subst h
            refine ⟨[.fault level false _, .probe level false _ PTR_SIZE false], rfl,
              by simp [Event.level], Or.inr ⟨[.fault level false _], _, _, rfl⟩, ?_, ?_⟩
            · intro pre l a v post hs
              rcases pre with _ | ⟨p, _ | ⟨p2, pre⟩⟩ <;> simp at hs
            · intro pre l s post hs
              rcases pre with _ | ⟨p, _ | ⟨p2, pre⟩⟩ <;> simp at hs
          · rw [if_neg c1] at h
            have hm : ((st.log (.probe level false (ptrAddInt32 scan_start i) PTR_SIZE
                false)).see (ptrAddInt32 scan_start i)).mem = st.mem := rfl
            rw [hm] at h
            by_cases c2 : inOldRange os oe (load64 st.mem (ptrAddInt32 scan_start i)) = true
            · rw [if_pos c2] at h
              by_cases c3 : accessible vq true (ptrAddInt32 scan_start i) = false
              · rw [if_pos c3] at h
                simp only [Option.some.injEq] at h
                subst h
                refine ⟨[.fault level true _, .load level _ _,
                  .probe level false _ PTR_SIZE false], rfl, by simp [Event.level],
                  Or.inr ⟨[.fault level true _, .load level _ _], _, _, rfl⟩, ?_, ?_⟩
                · intro pre l a v post hs
                  rcases pre with _ | ⟨p, _ | ⟨p2, _ | ⟨p3, pre⟩⟩⟩ <;> simp at hs
                  obtain ⟨rfl, ⟨rfl, rfl, rfl⟩, -⟩ := hs
                  unfold LoadFollowed
                  rw [if_pos ⟨c2, c3⟩]
                  exact ⟨[], rfl, Or.inl rfl⟩
                · intro pre l s post hs
                  rcases pre with _ | ⟨p, _ | ⟨p2, _ | ⟨p3, pre⟩⟩⟩ <;> simp at hs
              · rw [if_neg c3] at h
                exact hrest _ (fun hc => c3 hc.2) (by rw [if_pos c2]; rfl) h
            · rw [if_neg c2] at h
              exact hrest _ (fun hc => c2 hc.1) (by rw [if_neg c2]; rfl) h
    · rw [if_neg c0] at h
      simp only [Option.some.injEq] at h
      subst h
      refine ⟨[], rfl, by simp, Or.inl rfl, ?_, ?_⟩
      · intro pre l a v post hs
        simp at hs
      · intro pre l s post hs
        simp at hs

theorem detail_rule {vq : RegionTable} {pf : Nat} (os oe ns skip_length : Nat) (D : Int) :
    ∀ (fuel level scan_start : Nat) (depth : Int) (scan_size : Nat) (st st1 : State),
      depth = D - level →
      detail.relocate_pointers vq pf fuel level scan_start os oe ns depth skip_length scan_size
        st = some st1 →
      ∃ body, st1.trace = body ++ Event.enter level scan_start :: st.trace ∧
        (∀ e ∈ body, level ≤ e.level) ∧ LoadsFollowed vq os oe ns D body ∧
        EntersCaused os oe ns D body := by
  intro fuel
  induction fuel with
  | zero =>
    intro level scan_start depth scan_size st st1 _ h
    simp [detail.relocate_pointers] at h
  | succ f ih =>
    intro level scan_start depth scan_size st st1 hD h
    rw [detail.relocate_pointers] at h
    dsimp only at h
    split_ifs at h with c0
    · simp only [Option.some.injEq] at h
      subst h
      refine ⟨[], rfl, by simp, ?_, ?_⟩
      · intro pre l a v post hs
        simp at hs
      · intro pre l s post hs
        simp at hs
    · cases hp : IsBadMemPtr vq pf false scan_start skip_length with
      | none => rw [hp] at h; simp at h
      | some bad =>
        rw [hp] at h
        dsimp only at h
        cases bad with
        | true =>
          simp only [↓reduceIte, Option.some.injEq] at h
          subst h
          refine ⟨[.probe level false scan_start skip_length true], rfl,
            by simp [Event.level], ?_, ?_⟩
          · intro pre l a v post hs
            rcases pre with _ | ⟨p, pre⟩ <;> simp at hs
          · intro pre l s post hs
            rcases pre with _ | ⟨p, pre⟩ <;> simp at hs
        | false =>
          simp only [Bool.false_eq_true, ↓reduceIte] at h
          obtain ⟨evs, ht, hl, -, hlf, hec⟩ := scanLoop_rule hD
            (fun v s s1 hv => ih (level + 1) v (depth - 1) 0x1000 s s1
              (by push_cast; omega) hv) f 0 _ _ h
          refine ⟨evs ++ [.probe level false scan_start skip_length false],
            by simp [ht, State.log, State.see], ?_,
            loadsFollowed_snoc (by simp) hlf, entersCaused_snoc (by simp) hec⟩
          intro e he
          rcases List.mem_append.mp he with h1 | h1
          · exact hl e h1
          · simp only [List.mem_singleton] at h1
            subst h1
            simp [Event.level]

/-- The record of a finished call of the public entry point: every load is
followed as `LoadFollowed` says, and every entry but that of the top-level
invocation (the oldest step) was caused as `EntersCaused` says. -/
theorem relocate_pointers_rule {vq : RegionTable} {fuel scan_start os oe ns : Nat}
    {depth : Int} {skip_length scan_size : Nat} {mem : Mem} {r : CallResult}
    (h : relocate_pointers vq fuel scan_start os oe ns depth skip_length scan_size mem = some r) :
    LoadsFollowed vq os oe ns depth r.trace ∧ EntersCaused os oe ns depth r.trace.dropLast := by
  by_cases hs : skip_length = 0
  · simp only [relocate_pointers, hs, if_true, Option.some.injEq] at h
    subst h
    constructor
    · intro pre l a v post hsp
      simp at hsp
    · intro pre l s post hsp
      simp at hsp
  · obtain ⟨st, hst, hr⟩ := relocate_pointers_returned hs h
    obtain ⟨body, ht, -, hlf, hec⟩ := detail_rule os oe ns skip_length depth fuel 0 scan_start
      depth scan_size _ _ (by simp) hst
    subst hr
    have ht1 : st.trace = body ++ [Event.enter 0 scan_start] := by simpa using ht
    simp only [ht1, List.dropLast_concat]
    exact ⟨loadsFollowed_snoc (by simp) hlf, hec⟩

theorem located_readonlyTable : Located readonlyTable := by
  intro a m h
  unfold readonlyTable at h
  split at h
  · cases h
    simp only [PTR_MOD]
    omega
  · cases h

/-- C13 (amended): in every finished call on a located region table, every
probe the scanner makes is a probe for reading (it never probes for writing);
every store it performs is at an address `a` whose word passes the access check
for writing, so that the probe would report `(Write, a, pointer size)` safe;
every write fault it meets is at a word that had probed safe for reading and
fails the access check for writing; and every load of a value inside the old
range is directly followed by the store of its translation when the word can
be written, and by a write fault at that word when it cannot, after which the
invocation makes no further step (the next step, if any, is the loop probe of
an invocation at a lower nesting level). Hence a word that is readable but not
writable and holds a value inside the old range is never written; the store
attempted on it raises a write fault, which ends the invocation that made it. -/
theorem stores_reach_only_writable_words (vq : RegionTable) (hloc : Located vq)
    (fuel scan_start old_start old_end new_start : Nat) (depth : Int)
    (skip_length scan_size : Nat) (mem : Mem) (r : CallResult)
    (h : relocate_pointers vq fuel scan_start old_start old_end new_start depth skip_length
      scan_size mem = some r) :
    (∀ l w a n b, Event.probe l w a n b ∈ r.trace → w = false) ∧
    (∀ l a v, Event.store l a v ∈ r.trace →
      accessible vq true a = true ∧ ProbeSafe vq true a PTR_SIZE) ∧
    (∀ l a, Event.fault l true a ∈ r.trace →
      ProbeSafe vq false a PTR_SIZE ∧ accessible vq true a = false) ∧
    (∀ pre l a v post, r.trace = pre ++ Event.load l a v :: post →
      inOldRange old_start old_end v = true →
      (accessible vq true a = true →
        ∃ pre0, pre = pre0 ++ [Event.store l a (translate old_start new_start v)]) ∧
      (accessible vq true a = false →
        ∃ pre1, pre = pre1 ++ [Event.fault l true a] ∧ NextIsLoopProbe l pre1)) := by
  obtain ⟨-, hj⟩ := relocate_pointers_probed h
  refine ⟨?_, ?_, ?_, ?_⟩
  · intro l w a n b he
    exact (hj _ he).1
  · intro l a v he
    obtain ⟨ha, hp, hacc⟩ := hj _ he
    have h0 : a ≠ 0 := by
      intro e
      subst e
      simp [IsBadMemPtr, IsBadMemPtrQ, PTR_SIZE] at hp
    exact ⟨hacc, probe_of_accessible hloc h0 ha hacc⟩
  · intro l a he
    obtain ⟨-, hp, hacc⟩ := hj _ he
    exact ⟨⟨fuel, hp⟩, hacc⟩
  · intro pre l a v post hsp hin
    have hlf := (relocate_pointers_rule h).1 pre l a v post hsp
    unfold LoadFollowed at hlf
    constructor
    · intro hacc
      rw [if_neg (by rw [hacc]; simp), if_pos hin] at hlf
      obtain ⟨pre0, hpre, -⟩ := hlf
      exact ⟨pre0, hpre⟩
    · intro hacc
      rw [if_pos ⟨hin, hacc⟩] at hlf
      exact hlf

theorem stores_reach_only_writable_words_witness :
    (Located readonlyTable ∧
      relocate_pointers readonlyTable 5 0x2000 0x1000 0x1100 0x5000 0 8 16 (wordAt 0x2008 0x1080)
        = some ⟨Completion.returned, wordAt 0x2008 0x1080,
            [.fault 0 true 0x2008, .load 0 0x2008 0x1080, .probe 0 false 0x2008 8 false,
              .load 0 0x2000 0, .probe 0 false 0x2000 8 false,
              .probe 0 false 0x2000 8 false, .enter 0 0x2000]⟩) ∧
    (inOldRange 0x1000 0x1100 0x1080 = true ∧ accessible readonlyTable true 0x2008 = false) ∧
    ∃ pre1, ([] : List Event) ++ [Event.fault 0 true 0x2008] = pre1 ++ [Event.fault 0 true 0x2008] ∧
      NextIsLoopProbe 0 pre1 :=
  ⟨⟨located_readonlyTable, by rfl⟩, ⟨by decide, by decide⟩,
    ((stores_reach_only_writable_words readonlyTable located_readonlyTable 5 0x2000 0x1000 0x1100
      0x5000 0 8 16 (wordAt 0x2008 0x1080)
      ⟨Completion.returned, wordAt 0x2008 0x1080,
          [.fault 0 true 0x2008, .load 0 0x2008 0x1080, .probe 0 false 0x2008 8 false,
            .load 0 0x2000 0, .probe 0 false 0x2000 8 false,
            .probe 0 false 0x2000 8 false, .enter 0 0x2000]⟩
      (by rfl)).2.2.2 ([] ++ [Event.fault 0 true 0x2008]) 0 0x2008 0x1080
        [.probe 0 false 0x2008 8 false, .load 0 0x2000 0, .probe 0 false 0x2000 8 false,
          .probe 0 false 0x2000 8 false, .enter 0 0x2000] (by rfl) (by decide)).2 (by decide)⟩

/-- C16 (amended): the recursion rule. Take an invocation at nesting level
`level` with depth budget `depth`, whose recursive calls are those of
`detail.relocate_pointers`, and an offset `i < window_size` whose word probes
read-safe and is read without a fault; let `v` be the value loaded.
First: if `v` lies in the old range and the word cannot be written, the store
faults and the invocation ends there, without probing or following `v`.
Second: otherwise, with `b` the answer of the probe for `(Read, v, pointer
size)`: if `depth > 0` and `b` is safe, the iteration is the invocation of
`detail.relocate_pointers` one level deeper with `scan_start = v` (the value
loaded, not its translation), the same old range, new base and stride, depth
`depth - 1` and window `0x1000`, started from the state after the load, the
store (if any) and the probe, followed by the rest of the loop from the next
counter; otherwise the iteration makes no recursive call and the loop goes on
from the next counter. This holds whether or not `v` lies in the old range and
for every window of the caller.
Third: the loop of an invocation that passes its entry tests is run with
exactly these recursive calls.
Fourth, on the record of every finished call of the public entry point: every
load is followed as `LoadFollowed` says with the depth budget `depth - l` at
level `l` (write fault and end of the invocation; or the store if any, then
with budget the probe of `v`, then the entry at `v` one level deeper exactly
when the probe reported safe), every entry of a recursive invocation was
caused this way (`EntersCaused`), and every recorded probe answer is the answer
of `IsBadMemPtr`. -/
theorem recursion_rule (vq : RegionTable) (pf fuel n level scan_start old_start old_end
    new_start : Nat) (depth : Int) (skip_length scan_size i : Nat) (st : State)
    (hi : i < scan_size)
    (hp : IsBadMemPtr vq pf false (ptrAddInt32 scan_start i) PTR_SIZE = some false)
    (hr : accessible vq false (ptrAddInt32 scan_start i) = true) :
    (inOldRange old_start old_end (load64 st.mem (ptrAddInt32 scan_start i)) = true →
      accessible vq true (ptrAddInt32 scan_start i) = false →
      scanLoop vq pf
          (fun v s => detail.relocate_pointers vq pf fuel (level + 1) v old_start old_end
            new_start (depth - 1) skip_length 0x1000 s)
          level scan_start old_start old_end new_start depth skip_length scan_size (n + 1) i st
        = some ((((st.log (.probe level false (ptrAddInt32 scan_start i) PTR_SIZE false)).see
            (ptrAddInt32 scan_start i)).log (.load level (ptrAddInt32 scan_start i)
            (load64 st.mem (ptrAddInt32 scan_start i)))).log
            (.fault level true (ptrAddInt32 scan_start i)))) ∧
    ((inOldRange old_start old_end (load64 st.mem (ptrAddInt32 scan_start i)) = true →
        accessible vq true (ptrAddInt32 scan_start i) = true) →
      ∀ b, IsBadMemPtr vq pf false (load64 st.mem (ptrAddInt32 scan_start i)) PTR_SIZE = some b →
      scanLoop vq pf
          (fun v s => detail.relocate_pointers vq pf fuel (level + 1) v old_start old_end
            new_start (depth - 1) skip_length 0x1000 s)
          level scan_start old_start old_end new_start depth skip_length scan_size (n + 1) i st
        = (if depth > 0 ∧ b = false then
          (detail.relocate_pointers vq pf fuel (level + 1)
            (load64 st.mem (ptrAddInt32 scan_start i)) old_start old_end new_start (depth - 1)
            skip_length 0x1000
            ((if inOldRange old_start old_end (load64 st.mem (ptrAddInt32 scan_start i)) = true then
            ((((st.log (.probe level false (ptrAddInt32 scan_start i) PTR_SIZE false)).see
            (ptrAddInt32 scan_start i)).log (.load level (ptrAddInt32 scan_start i)
            (load64 st.mem (ptrAddInt32 scan_start i)))).write (ptrAddInt32 scan_start i)
              (translate old_start new_start (load64 st.mem (ptrAddInt32 scan_start i)))).log
              (.store level (ptrAddInt32 scan_start i) (translate old_start new_start
                (load64 st.mem (ptrAddInt32 scan_start i))))
          else
            (((st.log (.probe level false (ptrAddInt32 scan_start i) PTR_SIZE false)).see
            (ptrAddInt32 scan_start i)).log (.load level (ptrAddInt32 scan_start i)
            (load64 st.mem (ptrAddInt32 scan_start i))))).log
              (.probe level false (load64 st.mem (ptrAddInt32 scan_start i)) PTR_SIZE false))).bind
            (fun st5 => scanLoop vq pf
          (fun v s => detail.relocate_pointers vq pf fuel (level + 1) v old_start old_end
            new_start (depth - 1) skip_length 0x1000 s)
          level scan_start old_start old_end new_start depth skip_length scan_size n ((i + skip_length) % U32_MOD) st5)
        else
          scanLoop vq pf
          (fun v s => detail.relocate_pointers vq pf fuel (level + 1) v old_start old_end
            new_start (depth - 1) skip_length 0x1000 s)
          level scan_start old_start old_end new_start depth skip_length scan_size n ((i + skip_length) % U32_MOD)
            (if depth > 0 then
              (if inOldRange old_start old_end (load64 st.mem (ptrAddInt32 scan_start i)) = true then
            ((((st.log (.probe level false (ptrAddInt32 scan_start i) PTR_SIZE false)).see
            (ptrAddInt32 scan_start i)).log (.load level (ptrAddInt32 scan_start i)
            (load64 st.mem (ptrAddInt32 scan_start i)))).write (ptrAddInt32 scan_start i)
              (translate old_start new_start (load64 st.mem (ptrAddInt32 scan_start i)))).log
              (.store level (ptrAddInt32 scan_start i) (translate old_start new_start
                (load64 st.mem (ptrAddInt32 scan_start i))))
          else
            (((st.log (.probe level false (ptrAddInt32 scan_start i) PTR_SIZE false)).see
            (ptrAddInt32 scan_start i)).log (.load level (ptrAddInt32 scan_start i)
            (load64 st.mem (ptrAddInt32 scan_start i))))).log
                (.probe level false (load64 st.mem (ptrAddInt32 scan_start i)) PTR_SIZE true)
            else
              (if inOldRange old_start old_end (load64 st.mem (ptrAddInt32 scan_start i)) = true then
            ((((st.log (.probe level false (ptrAddInt32 scan_start i) PTR_SIZE false)).see
            (ptrAddInt32 scan_start i)).log (.load level (ptrAddInt32 scan_start i)
            (load64 st.mem (ptrAddInt32 scan_start i)))).write (ptrAddInt32 scan_start i)
              (translate old_start new_start (load64 st.mem (ptrAddInt32 scan_start i)))).log
              (.store level (ptrAddInt32 scan_start i) (translate old_start new_start
                (load64 st.mem (ptrAddInt32 scan_start i))))
          else
            (((st.log (.probe level false (ptrAddInt32 scan_start i) PTR_SIZE false)).see
            (ptrAddInt32 scan_start i)).log (.load level (ptrAddInt32 scan_start i)
            (load64 st.mem (ptrAddInt32 scan_start i)))))))) ∧
    (∀ st0 : State, scan_start ∉ st0.seen →
      IsBadMemPtr vq pf false scan_start skip_length = some false →
      detail.relocate_pointers vq pf (fuel + 1) level scan_start old_start old_end new_start
          depth skip_length scan_size st0
        = scanLoop vq pf
          (fun v s => detail.relocate_pointers vq pf fuel (level + 1) v old_start old_end
            new_start (depth - 1) skip_length 0x1000 s)
          level scan_start old_start old_end new_start depth skip_length scan_size fuel 0
            (((st0.log (.enter level scan_start)).see scan_start).log
              (.probe level false scan_start skip_length false))) ∧
    (∀ fuel1 mem r,
      relocate_pointers vq fuel1 scan_start old_start old_end new_start depth skip_length
        scan_size mem = some r →
      LoadsFollowed vq old_start old_end new_start depth r.trace ∧
      EntersCaused old_start old_end new_start depth r.trace.dropLast ∧
      ∀ l1 w1 a1 n1 b1, Event.probe l1 w1 a1 n1 b1 ∈ r.trace →
        w1 = false ∧ IsBadMemPtr vq fuel1 false a1 n1 = some b1) := by
  have hm : ((st.log (.probe level false (ptrAddInt32 scan_start i) PTR_SIZE false)).see
      (ptrAddInt32 scan_start i)).mem = st.mem := rfl
  refine ⟨?_, ?_, ?_, ?_⟩
  · intro c2 c3
    rw [scanLoop, if_pos hi]
    simp only [hp, Bool.false_eq_true, ↓reduceIte, hr, hm, Bool.true_eq_false, c2, c3]
  · intro hw b hb
    rw [scanLoop, if_pos hi]
    simp only [hp, Bool.false_eq_true, ↓reduceIte, hr, hm, Bool.true_eq_false]
    by_cases c : inOldRange old_start old_end (load64 st.mem (ptrAddInt32 scan_start i)) = true
    · simp only [c, ↓reduceIte, hw c, Bool.true_eq_false]
      unfold follow
      by_cases hd : depth > 0
      · cases b
        · simp only [hd, hb, Bool.false_eq_true, ↓reduceIte, and_self]
          split <;> rename_i hx <;> simp [hx]
        · simp [hd, hb]
      · simp [hd]
    · simp only [c, Bool.false_eq_true, ↓reduceIte]
      unfold follow
      by_cases hd : depth > 0
      · cases b
        · simp only [hd, hb, Bool.false_eq_true, ↓reduceIte, and_self]
          split <;> rename_i hx <;> simp [hx]
        · simp [hd, hb]
      · simp [hd]
  · intro st0 hs he
    rw [detail.relocate_pointers]
    have hs1 : scan_start ∉ (st0.log (.enter level scan_start)).seen := hs
    simp only [hs1, ↓reduceIte, he, Bool.false_eq_true]
  · intro fuel1 mem r h
    obtain ⟨h1, h2⟩ := relocate_pointers_rule h
    refine ⟨h1, h2, ?_⟩
    intro l1 w1 a1 n1 b1 he
    exact (relocate_pointers_probed h).2 _ he

theorem recursion_rule_witness :
    (0 < 8 ∧
      IsBadMemPtr (twoRegionTable PAGE_READWRITE) 2 false (ptrAddInt32 0x2000 0) PTR_SIZE
        = some false ∧
      accessible (twoRegionTable PAGE_READWRITE) false (ptrAddInt32 0x2000 0) = true) ∧
    ((inOldRange 0x1000 0x1100 (load64 (⟨oneHopMem, [0x2000], []⟩ : State).mem (ptrAddInt32 0x2000 0)) = true →
      accessible (twoRegionTable PAGE_READWRITE) true (ptrAddInt32 0x2000 0) = false →
      scanLoop (twoRegionTable PAGE_READWRITE) 2
          (fun v s => detail.relocate_pointers (twoRegionTable PAGE_READWRITE) 2 3 (0 + 1) v 0x1000 0x1100
            0x5000 ((1 : Int) - 1) 8 0x1000 s)
          0 0x2000 0x1000 0x1100 0x5000 (1 : Int) 8 8 (1 + 1) 0 (⟨oneHopMem, [0x2000], []⟩ : State)
        = some (((((⟨oneHopMem, [0x2000], []⟩ : State).log (.probe 0 false (ptrAddInt32 0x2000 0) PTR_SIZE false)).see
            (ptrAddInt32 0x2000 0)).log (.load 0 (ptrAddInt32 0x2000 0)
            (load64 (⟨oneHopMem, [0x2000], []⟩ : State).mem (ptrAddInt32 0x2000 0)))).log
            (.fault 0 true (ptrAddInt32 0x2000 0)))) ∧
    ((inOldRange 0x1000 0x1100 (load64 (⟨oneHopMem, [0x2000], []⟩ : State).mem (ptrAddInt32 0x2000 0)) = true →
        accessible (twoRegionTable PAGE_READWRITE) true (ptrAddInt32 0x2000 0) = true) →
      ∀ b, IsBadMemPtr (twoRegionTable PAGE_READWRITE) 2 false (load64 (⟨oneHopMem, [0x2000], []⟩ : State).mem (ptrAddInt32 0x2000 0)) PTR_SIZE = some b →
      scanLoop (twoRegionTable PAGE_READWRITE) 2
          (fun v s => detail.relocate_pointers (twoRegionTable PAGE_READWRITE) 2 3 (0 + 1) v 0x1000 0x1100
            0x5000 ((1 : Int) - 1) 8 0x1000 s)
          0 0x2000 0x1000 0x1100 0x5000 (1 : Int) 8 8 (1 + 1) 0 (⟨oneHopMem, [0x2000], []⟩ : State)
        = (if (1 : Int) > 0 ∧ b = false then
          (detail.relocate_pointers (twoRegionTable PAGE_READWRITE) 2 3 (0 + 1)
            (load64 (⟨oneHopMem, [0x2000], []⟩ : State).mem (ptrAddInt32 0x2000 0)) 0x1000 0x1100 0x5000 ((1 : Int) - 1)
            8 0x1000
            ((if inOldRange 0x1000 0x1100 (load64 (⟨oneHopMem, [0x2000], []⟩ : State).mem (ptrAddInt32 0x2000 0)) = true then
            (((((⟨oneHopMem, [0x2000], []⟩ : State).log (.probe 0 false (ptrAddInt32 0x2000 0) PTR_SIZE false)).see
            (ptrAddInt32 0x2000 0)).log (.load 0 (ptrAddInt32 0x2000 0)
            (load64 (⟨oneHopMem, [0x2000], []⟩ : State).mem (ptrAddInt32 0x2000 0)))).write (ptrAddInt32 0x2000 0)
              (translate 0x1000 0x5000 (load64 (⟨oneHopMem, [0x2000], []⟩ : State).mem (ptrAddInt32 0x2000 0)))).log
              (.store 0 (ptrAddInt32 0x2000 0) (translate 0x1000 0x5000
                (load64 (⟨oneHopMem, [0x2000], []⟩ : State).mem (ptrAddInt32 0x2000 0))))
          else
            ((((⟨oneHopMem, [0x2000], []⟩ : State).log (.probe 0 false (ptrAddInt32 0x2000 0) PTR_SIZE false)).see
            (ptrAddInt32 0x2000 0)).log (.load 0 (ptrAddInt32 0x2000 0)
            (load64 (⟨oneHopMem, [0x2000], []⟩ : State).mem (ptrAddInt32 0x2000 0))))).log
              (.probe 0 false (load64 (⟨oneHopMem, [0x2000], []⟩ : State).mem (ptrAddInt32 0x2000 0)) PTR_SIZE false))).bind
            (fun st5 => scanLoop (twoRegionTable PAGE_READWRITE) 2
          (fun v s => detail.relocate_pointers (twoRegionTable PAGE_READWRITE) 2 3 (0 + 1) v 0x1000 0x1100
            0x5000 ((1 : Int) - 1) 8 0x1000 s)
          0 0x2000 0x1000 0x1100 0x5000 (1 : Int) 8 8 1 ((0 + 8) % U32_MOD) st5)
        else
          scanLoop (twoRegionTable PAGE_READWRITE) 2
          (fun v s => detail.relocate_pointers (twoRegionTable PAGE_READWRITE) 2 3 (0 + 1) v 0x1000 0x1100
            0x5000 ((1 : Int) - 1) 8 0x1000 s)
          0 0x2000 0x1000 0x1100 0x5000 (1 : Int) 8 8 1 ((0 + 8) % U32_MOD)
            (if (1 : Int) > 0 then
              (if inOldRange 0x1000 0x1100 (load64 (⟨oneHopMem, [0x2000], []⟩ : State).mem (ptrAddInt32 0x2000 0)) = true then
            (((((⟨oneHopMem, [0x2000], []⟩ : State).log (.probe 0 false (ptrAddInt32 0x2000 0) PTR_SIZE false)).see
            (ptrAddInt32 0x2000 0)).log (.load 0 (ptrAddInt32 0x2000 0)
            (load64 (⟨oneHopMem, [0x2000], []⟩ : State).mem (ptrAddInt32 0x2000 0)))).write (ptrAddInt32 0x2000 0)
              (translate 0x1000 0x5000 (load64 (⟨oneHopMem, [0x2000], []⟩ : State).mem (ptrAddInt32 0x2000 0)))).log
              (.store 0 (ptrAddInt32 0x2000 0) (translate 0x1000 0x5000
                (load64 (⟨oneHopMem, [0x2000], []⟩ : State).mem (ptrAddInt32 0x2000 0))))
          else
            ((((⟨oneHopMem, [0x2000], []⟩ : State).log (.probe 0 false (ptrAddInt32 0x2000 0) PTR_SIZE false)).see
            (ptrAddInt32 0x2000 0)).log (.load 0 (ptrAddInt32 0x2000 0)
            (load64 (⟨oneHopMem, [0x2000], []⟩ : State).mem (ptrAddInt32 0x2000 0))))).log
                (.probe 0 false (load64 (⟨oneHopMem, [0x2000], []⟩ : State).mem (ptrAddInt32 0x2000 0)) PTR_SIZE true)
            else
              (if inOldRange 0x1000 0x1100 (load64 (⟨oneHopMem, [0x2000], []⟩ : State).mem (ptrAddInt32 0x2000 0)) = true then
            (((((⟨oneHopMem, [0x2000], []⟩ : State).log (.probe 0 false (ptrAddInt32 0x2000 0) PTR_SIZE false)).see
            (ptrAddInt32 0x2000 0)).log (.load 0 (ptrAddInt32 0x2000 0)
            (load64 (⟨oneHopMem, [0x2000], []⟩ : State).mem (ptrAddInt32 0x2000 0)))).write (ptrAddInt32 0x2000 0)
              (translate 0x1000 0x5000 (load64 (⟨oneHopMem, [0x2000], []⟩ : State).mem (ptrAddInt32 0x2000 0)))).log
              (.store 0 (ptrAddInt32 0x2000 0) (translate 0x1000 0x5000
                (load64 (⟨oneHopMem, [0x2000], []⟩ : State).mem (ptrAddInt32 0x2000 0))))
          else
            ((((⟨oneHopMem, [0x2000], []⟩ : State).log (.probe 0 false (ptrAddInt32 0x2000 0) PTR_SIZE false)).see
            (ptrAddInt32 0x2000 0)).log (.load 0 (ptrAddInt32 0x2000 0)
            (load64 (⟨oneHopMem, [0x2000], []⟩ : State).mem (ptrAddInt32 0x2000 0)))))))) ∧
    (∀ st0 : State, 0x2000 ∉ st0.seen →
      IsBadMemPtr (twoRegionTable PAGE_READWRITE) 2 false 0x2000 8 = some false →
      detail.relocate_pointers (twoRegionTable PAGE_READWRITE) 2 (3 + 1) 0 0x2000 0x1000 0x1100 0x5000
          (1 : Int) 8 8 st0
        = scanLoop (twoRegionTable PAGE_READWRITE) 2
          (fun v s => detail.relocate_pointers (twoRegionTable PAGE_READWRITE) 2 3 (0 + 1) v 0x1000 0x1100
            0x5000 ((1 : Int) - 1) 8 0x1000 s)
          0 0x2000 0x1000 0x1100 0x5000 (1 : Int) 8 8 3 0
            (((st0.log (.enter 0 0x2000)).see 0x2000).log
              (.probe 0 false 0x2000 8 false))) ∧
    (∀ fuel1 mem r,
      relocate_pointers (twoRegionTable PAGE_READWRITE) fuel1 0x2000 0x1000 0x1100 0x5000 (1 : Int) 8
        8 mem = some r →
      LoadsFollowed (twoRegionTable PAGE_READWRITE) 0x1000 0x1100 0x5000 (1 : Int) r.trace ∧
      EntersCaused 0x1000 0x1100 0x5000 (1 : Int) r.trace.dropLast ∧
      ∀ l1 w1 a1 n1 b1, Event.probe l1 w1 a1 n1 b1 ∈ r.trace →
        w1 = false ∧ IsBadMemPtr (twoRegionTable PAGE_READWRITE) fuel1 false a1 n1 = some b1)) ∧
    (relocate_pointers (twoRegionTable PAGE_READWRITE) 6 0x2000 0x1000 0x1100 0x5000 1 8 8
        oneHopMem).map (fun r => (r.completion, load64 r.mem 0x3000, r.trace))
      = some (Completion.returned, 0x5050,
          [.probe 1 false 0x3008 8 true, .store 1 0x3000 0x5050, .load 1 0x3000 0x1050,
            .probe 1 false 0x3000 8 false, .probe 1 false 0x3000 8 false, .enter 1 0x3000,
            .probe 0 false 0x3000 8 false, .load 0 0x2000 0x3000,
            .probe 0 false 0x2000 8 false, .probe 0 false 0x2000 8 false, .enter 0 0x2000]) :=
  ⟨⟨by decide, by decide, by decide⟩,
    recursion_rule (twoRegionTable PAGE_READWRITE) 2 3 1 0 0x2000 0x1000 0x1100 0x5000 1 8 8 0
      ⟨oneHopMem, [0x2000], []⟩ (by decide) (by decide) (by decide),
    by decide⟩

/-! ## A fault in a recursive scan, then a counter that wraps -/

theorem IsBadMemPtr_wideFaultTable (pf a n : Nat) (hn : 0 < n) (ha : 0x100000000 ≤ a)
    (han : a + n ≤ 0x300000000) :
    IsBadMemPtr wideFaultTable pf false a n = none ∨
      IsBadMemPtr wideFaultTable pf false a n = some false := by
  cases pf with
  | zero =>
    left
    have h1 : n ≠ 0 := by omega
    have h2 : a ≠ 0 := by omega
    simp [IsBadMemPtr, IsBadMemPtrQ, h1, h2, IsBadMemPtr.walk]
  | succ pf =>
    right
    have h1 : n ≠ 0 := by omega
    have h2 : a ≠ 0 := by omega
    have h3 : (a + n) % PTR_MOD = a + n := Nat.mod_eq_of_lt (by unfold PTR_MOD; omega)
    have h4 : wideFaultTable a = some ⟨0x100000000, 0x200000000, PAGE_READWRITE⟩ := by
      unfold wideFaultTable
      rw [if_pos ⟨ha, by omega⟩]
    have h5 : protectOk false PAGE_READWRITE = true := by decide
    have h6 : (0x100000000 + 0x200000000) % PTR_MOD = 0x300000000 := by decide
    simp only [IsBadMemPtr, IsBadMemPtrQ, h1, h2, if_false, h3, IsBadMemPtr.walk, true_or,
      if_true, h4, h5, h6, Bool.true_eq_false, IsBadMemPtr.check]
    rw [if_pos han]
    rfl

theorem accessible_wideFaultTable (a : Nat) (ha : 0x100000000 ≤ a)
    (ha8 : a + 8 ≤ 0x300000000) : accessible wideFaultTable false a = true := by
  simp only [accessible, List.all_eq_true, List.mem_range, PTR_SIZE]
  intro k hk
  have h3 : (a + k) % PTR_MOD = a + k := Nat.mod_eq_of_lt (by unfold PTR_MOD; omega)
  have h4 : wideFaultTable (a + k) = some ⟨0x100000000, 0x200000000, PAGE_READWRITE⟩ := by
    unfold wideFaultTable
    rw [if_pos ⟨by omega, by omega⟩]
  simp only [byteAccessible, h3, h4]
  decide

theorem load64_wideFaultMem (a : Nat) (ha : 0x180000000 ≤ a) (hb : a + 8 ≤ 0x280000008)
    (hne : a + 8 ≤ 0x200000000 ∨ 0x200000008 ≤ a) : load64 wideFaultMem a = 0 := by
  have h1 : wordsOverlap a 0x10000 = false := by
    simp only [wordsOverlap, decide_eq_false_iff_not, not_or, not_lt, PTR_SIZE, byteOffset,
      PTR_MOD]
    omega
  have h2 : wordsOverlap a 0x200000000 = false := by
    simp only [wordsOverlap, decide_eq_false_iff_not, not_or, not_lt, PTR_SIZE, byteOffset,
      PTR_MOD]
    omega
  unfold wideFaultMem wordAt
  rw [load64_store64_other _ _ _ _ h1, load64_store64_other _ _ _ _ h2]
  exact load64_zeroMem a

theorem ptrAddInt32_wide_other (i : Nat) (hi : i < 2 ^ 32) (h8 : i % 8 = 0) (h0 : i ≠ 0) :
    ptrAddInt32 0x200000000 i + 8 ≤ 0x200000000 ∨ 0x200000008 ≤ ptrAddInt32 0x200000000 i := by
  unfold ptrAddInt32 PTR_MOD U32_MOD
  split <;> omega

/-- The recursive scan at `0x10000` leaves the memory as it is: the only word
it reads holds a value of the old range and cannot be written. -/
theorem wideFault_callee (pf f : Nat) (s s1 : State) (hm : s.mem = wideFaultMem)
    (h : detail.relocate_pointers wideFaultTable pf f 1 0x10000 0x1000 0x1100 0x5000 (1 - 1) 8
      0x1000 s = some s1) : s1.mem = wideFaultMem := by
  cases f with
  | zero => simp [detail.relocate_pointers] at h
  | succ f =>
    rw [detail.relocate_pointers] at h
    dsimp only at h
    split_ifs at h with c0
    · simp only [Option.some.injEq] at h
      subst h
      exact hm
    · cases hp : IsBadMemPtr wideFaultTable pf false 0x10000 8 with
      | none => rw [hp] at h; simp at h
      | some bad =>
        rw [hp] at h
        dsimp only at h
        cases bad with
        | true =>
          simp only [↓reduceIte, Option.some.injEq] at h
          subst h
          exact hm
        | false =>
          simp only [Bool.false_eq_true, ↓reduceIte] at h
          cases f with
          | zero => simp [scanLoop] at h
          | succ f =>
            rw [scanLoop, if_pos (by decide)] at h
            dsimp only at h
            have ha : ptrAddInt32 0x10000 0 = 0x10000 := by decide
            rw [ha] at h
            cases hp2 : IsBadMemPtr wideFaultTable pf false 0x10000 PTR_SIZE with
            | none => rw [hp2] at h; simp at h
            | some bad2 =>
              rw [hp2] at h
              dsimp only at h
              cases bad2 with
              | true =>
                simp only [↓reduceIte, Option.some.injEq] at h
                subst h
                exact hm
              | false =>
                simp only [Bool.false_eq_true, ↓reduceIte] at h
                have hv : load64 s.mem 0x10000 = 0x1050 := by rw [hm]; decide
                have hin : inOldRange 0x1000 0x1100 0x1050 = true := by decide
                have hw : accessible wideFaultTable true 0x10000 = false := by decide
                simp only [State.log, State.see, hv, hin, ↓reduceIte, hw] at h
                split_ifs at h with c1
                · simp only [Option.some.injEq] at h
                  subst h
                  exact hm
                · simp only [Option.some.injEq] at h
                  subst h
                  exact hm

theorem scanLoop_wideFault_diverges (pf : Nat) (recurse : Nat → State → Option State)
    (hrec : ∀ s s1, s.mem = wideFaultMem → recurse 0x10000 s = some s1 →
      s1.mem = wideFaultMem) :
    ∀ (fuel i : Nat) (st : State), i % 8 = 0 → i < 2 ^ 32 → st.mem = wideFaultMem →
      scanLoop wideFaultTable pf recurse 0 0x200000000 0x1000 0x1100 0x5000 1 8 0xFFFFFFFF
        fuel i st = none := by
  intro fuel
  induction fuel with
  | zero => intro i st _ _ _; rfl
  | succ fuel ih =>
    intro i st h8 hi hm
    have hlt : i < 0xFFFFFFFF := by omega
    have hn8 : (i + 8) % U32_MOD % 8 = 0 := by unfold U32_MOD; omega
    have hnlt : (i + 8) % U32_MOD < 2 ^ 32 := by unfold U32_MOD; omega
    obtain ⟨hlo, hhi⟩ := ptrAddInt32_wide i hi
    rw [scanLoop, if_pos hlt]
    dsimp only
    rcases IsBadMemPtr_wideFaultTable pf (ptrAddInt32 0x200000000 i) PTR_SIZE (by decide)
      (by omega) (by unfold PTR_SIZE; omega) with hp | hp
    · rw [hp]
    · rw [hp]
      have hacc := accessible_wideFaultTable (ptrAddInt32 0x200000000 i) (by omega) (by omega)
      have hv : load64 st.mem (ptrAddInt32 0x200000000 i) = 0 ∨
          load64 st.mem (ptrAddInt32 0x200000000 i) = 0x10000 := by
        by_cases h0 : i = 0
        · right
          rw [hm, h0]
          decide
        · left
          rw [hm]
          exact load64_wideFaultMem _ hlo (by omega) (ptrAddInt32_wide_other i hi h8 h0)
      have hin : inOldRange 0x1000 0x1100 (load64 st.mem (ptrAddInt32 0x200000000 i))
          = false := by
        rcases hv with hv | hv <;> rw [hv] <;> decide
      have hfol : ∀ s : State, s.mem = wideFaultMem →
          follow wideFaultTable pf recurse 0 1 (load64 st.mem (ptrAddInt32 0x200000000 i)) s
              = none ∨
            ∃ s1, follow wideFaultTable pf recurse 0 1
                (load64 st.mem (ptrAddInt32 0x200000000 i)) s = some s1 ∧
              s1.mem = wideFaultMem := by
        intro s hs
        unfold follow
        rw [if_pos (by decide)]
        rcases hv with hv | hv
        · rw [hv]
          have hq : IsBadMemPtr wideFaultTable pf false 0 PTR_SIZE = some true := by
            simp [IsBadMemPtr, IsBadMemPtrQ, PTR_SIZE]
          rw [hq]
          exact Or.inr ⟨_, rfl, hs⟩
        · rw [hv]
          cases hq : IsBadMemPtr wideFaultTable pf false 0x10000 PTR_SIZE with
          | none => exact Or.inl rfl
          | some bad =>
            cases bad with
            | true => exact Or.inr ⟨_, rfl, hs⟩
            | false =>
              simp only [Bool.false_eq_true, ↓reduceIte]
              cases hr : recurse 0x10000 (s.log (.probe 0 false 0x10000 PTR_SIZE false)) with
              | none => exact Or.inl rfl
              | some s1 =>
                exact Or.inr ⟨s1, rfl, hrec _ _
                  (show (s.log (.probe 0 false 0x10000 PTR_SIZE false)).mem = wideFaultMem
                    from hs) hr⟩
      have hm1 : ((st.log (.probe 0 false (ptrAddInt32 0x200000000 i) PTR_SIZE false)).see
          (ptrAddInt32 0x200000000 i)).mem = st.mem := rfl
      simp only [Bool.false_eq_true, if_false, hacc, Bool.true_eq_false, hm1, hin]
      rcases hfol (((st.log (.probe 0 false (ptrAddInt32 0x200000000 i) PTR_SIZE false)).see
          (ptrAddInt32 0x200000000 i)).log (.load 0 (ptrAddInt32 0x200000000 i)
          (load64 st.mem (ptrAddInt32 0x200000000 i)))) hm with hf | ⟨s1, hf, hs1⟩
      · rw [hf]
      · rw [hf]
        exact ih _ _ hn8 hnlt hs1

/-- C14 (the code at the failing input): the word at `scan_start = 0x200000000`
points to the read-only word at `0x10000`, which holds the value `0x1050` of the
old range `[0x1000, 0x1100)`. With depth 1, stride 8 and window 8 the call
returns: the recursive scan at `0x10000` loads `0x1050`, its store faults and
only that invocation ends. With window `0xFFFFFFFF` the same fault occurs at the
first offset, the top-level invocation goes on through the 8 GiB readable
region around `scan_start`, its counter wraps from `0xFFFFFFF8` to `0`, and the
call never returns. -/
theorem fault_then_wrapped_counter_never_returns :
    (relocate_pointers wideFaultTable 6 0x200000000 0x1000 0x1100 0x5000 1 8 8
        wideFaultMem).map (fun r => (r.completion, r.trace))
      = some (Completion.returned,
          [.fault 1 true 0x10000, .load 1 0x10000 0x1050, .probe 1 false 0x10000 8 false,
            .probe 1 false 0x10000 8 false, .enter 1 0x10000, .probe 0 false 0x10000 8 false,
            .load 0 0x200000000 0x10000, .probe 0 false 0x200000000 8 false,
            .probe 0 false 0x200000000 8 false, .enter 0 0x200000000]) ∧
    ¬ ∃ fuel r, relocate_pointers wideFaultTable fuel 0x200000000 0x1000 0x1100 0x5000 1 8
      0xFFFFFFFF wideFaultMem = some r := by
  refine ⟨by decide, ?_⟩
  rintro ⟨fuel, r, h⟩
  obtain ⟨st, hst, -⟩ := relocate_pointers_returned (by decide) h
  cases fuel with
  | zero => simp [detail.relocate_pointers] at hst
  | succ fuel =>
    rw [detail.relocate_pointers] at hst
    simp only [State.log, List.not_mem_nil, if_false, State.see] at hst
    rcases IsBadMemPtr_wideFaultTable (fuel + 1) 0x200000000 8 (by decide) (by decide)
      (by decide) with hp | hp
    · rw [hp] at hst
      simp at hst
    · rw [hp] at hst
      simp only [Bool.false_eq_true, if_false] at hst
      rw [scanLoop_wideFault_diverges (fuel + 1) _
        (fun s s1 hm hs => wideFault_callee (fuel + 1) fuel s s1 hm hs) fuel 0 _ (by decide)
        (by decide) rfl] at hst
      simp at hst

end utility
